import Mathlib

/-!
# A bitmap slab allocator (`slab.c`, `slab.h`)

Shallow embedding of the allocator.  Machine words (`size_t`, `uintptr_t`, `uint64_t`) are
natural numbers reduced modulo `2 ^ 64` wherever the C code computes with them, bytes are natural
numbers below `256`, an address is a natural number and `NULL` is the address `0`.  The linked
chain of slabs (`slab_t.next`) is a list in chain order, and the bitmap of a slab is the list of
its bytes.  For the parameters at which the bitmap has no byte and `self->map` points at the
header itself, `slab_init`, `slab_free` and `slab_destroy` are embedded a second time, on
byte-addressed memory (`slab_init_bytes`, `slab_free_bytes`, `slab_destroy_bytes`); the two
embeddings agree as long as the store of `slab_free` lands inside the bitmap.
-/

namespace Slab

/-! ## Machine arithmetic -/

/-- The modulus of `size_t`, `uintptr_t` and `uint64_t`. -/
def WORD : Nat := 2 ^ 64

/-- The cast `(uint64_t)(x)`. -/
def u64 (x : Nat) : Nat := x % WORD

/-- Bitwise complement `~x` of a 64-bit word. -/
def not64 (x : Nat) : Nat := WORD - 1 - u64 x

/-- Unary minus `-x` of a 64-bit word. -/
def neg64 (x : Nat) : Nat := (WORD - u64 x) % WORD

/-- Multiplication of two 64-bit words. -/
def mul64 (x y : Nat) : Nat := (x * y) % WORD

/-- Addition of two 64-bit words. -/
def add64 (x y : Nat) : Nat := (x + y) % WORD

/-- Subtraction of two 64-bit words. -/
def sub64 (x y : Nat) : Nat := (WORD + u64 x - u64 y) % WORD

/-- `#define alignment (sizeof(size_t))`. -/
def alignment : Nat := 8

/-- `sizeof(slab_t)`: two pointers followed by a flexible array member. -/
def sizeof_slab_t : Nat := 16

/-- `#define map_align(size) (((size) + alignment - 1) & ~(alignment - 1))`. -/
def map_align (size : Nat) : Nat :=
  sub64 (add64 size alignment) 1 &&& not64 (sub64 alignment 1)

/-- `#define map_size(len) (((size_t)len + 7) / 8)`. -/
def map_size (len : Nat) : Nat := add64 (u64 len) 7 / 8

/-! ## The bit scanner -/

/-- The lookup table of `modified_bruijin_clz`. -/
def bruijin_table : List Nat :=
  [63, 0,  1,  52, 2,  6,  53, 26, 3,  37, 40, 7,  33,
   54, 47, 27, 61, 4,  38, 45, 43, 41, 21, 8,  23, 34,
   58, 55, 48, 17, 28, 10, 62, 51, 5,  25, 36, 39, 32,
   46, 60, 44, 42, 20, 22, 57, 16, 9,  50, 24, 35, 31,
   59, 19, 56, 15, 49, 30, 18, 14, 29, 13, 12, 11]

/-- The macro `modified_bruijin_clz(x)`:
`!(~(uint64_t)(x)) + table[((~(uint64_t)(x) & -~(uint64_t)(x)) * 0x045FBAC7992A70DA) >> 58]`. -/
def modified_bruijin_clz (x : Nat) : Nat :=
  (if not64 x = 0 then 1 else 0) +
    bruijin_table.getD (mul64 (not64 x &&& neg64 (not64 x)) 0x045FBAC7992A70DA >>> 58) 0

/-! ## Slabs -/

/-- A `slab_t` together with the bitmap it points to.  `map_addr` is the pointer `self->map` (the
start of the reserved region), `map` lists the bytes `self->map[0]`, `self->map[1]`, ... that
`slab_init` zeroes, and `mem` is the address of the flexible array `self->mem`, the arena.  The
link `next` is the position in the chain. -/
structure slab_t where
  map_addr : Nat
  map : List Nat
  mem : Nat
deriving DecidableEq, Repr

/-- The page provider behind `slab_init` (`malloc`, `mmap` or `VirtualAlloc`): `reserve n bytes`
answers the `n`-th reservation of the run when it asks for `bytes` bytes, with the start address
of the region or with `none` when the provider fails. -/
abbrev PageProvider := Nat → Nat → Option Nat

/-- The `total_size` that `slab_init` asks of the provider. -/
def slab_init_total_size (slab_size slab_len : Nat) : Nat :=
  add64 (add64 (map_align (map_size slab_len)) sizeof_slab_t) (mul64 slab_size slab_len)

/-- `slab_init`: reserve `| bitmap | align | slab_t | arena |`, zero the bitmap.  `calls` counts
the reservations made so far. -/
def slab_init (reserve : PageProvider) (calls slab_size slab_len : Nat) : Nat × Option slab_t :=
  let map_len := map_size slab_len
  let map_sz := map_align map_len
  let total_size := add64 (add64 map_sz sizeof_slab_t) (mul64 slab_size slab_len)
  match reserve calls total_size with
  | none => (calls + 1, none)
  | some mem =>
    (calls + 1,
      some { map_addr := mem
             map := List.replicate map_sz 0
             mem := add64 (add64 mem map_sz) sizeof_slab_t })

/-- The inner loop of `slab_alloc`:
`for (j = 0; j < 8 && (i + j) < bites; j++) word |= (uint64_t)self->map[i + j] << (j * 8);`
with `k = 8 - j` iterations left. -/
def slab_alloc_word (map : List Nat) (bites i : Nat) : Nat → Nat → Nat → Nat
  | 0, _, word => word
  | k + 1, j, word =>
    if i + j < bites then
      slab_alloc_word map bites i k (j + 1) (word ||| u64 (u64 (map.getD (i + j) 0) <<< (j * 8)))
    else word

/-- The outer loop of `slab_alloc`, `for (i = 0; i < bites; i++)`, with `k = bites - i`
iterations left.  The result is the slab afterwards and the returned pointer (`0` is `NULL`). -/
def slab_alloc_loop (self : slab_t) (size len bites : Nat) : Nat → Nat → slab_t × Nat
  | 0, _ => (self, 0)
  | k + 1, i =>
    let word := slab_alloc_word self.map bites i 8 0 0
    let zero_ := modified_bruijin_clz word
    if zero_ < 64 then
      let pos := add64 (mul64 i 8) zero_
      if pos ≥ len then (self, 0)
      else
        ({ self with
            map := self.map.set (pos / 8) ((self.map.getD (pos / 8) 0 ||| 1 <<< (pos % 8)) % 256) },
          add64 self.mem (mul64 size pos))
    else slab_alloc_loop self size len bites k (i + 1)

/-- `slab_alloc`. -/
def slab_alloc (self : slab_t) (size len : Nat) : slab_t × Nat :=
  let bites := map_size len
  slab_alloc_loop self size len bites bites 0

/-- `slab_free`: the slab afterwards and the returned `int`.  The mask `~(1 << (pos % 8))` is a
32-bit `int` in two's complement; the store truncates to `uint8_t`.  A store past the bytes of
`map` is not modelled (the list is left as it is): in the C code such a store happens only when
`map_size(len)` has wrapped to `0` (`len >= 2 ^ 64 - 7`), and it then lands in the header
`slab_t` or in the arena.  `slab_free_bytes` below embeds the function on byte-addressed
memory for that case, and `stores_in_bitmap` says that a run has no such store. -/
def slab_free (self : slab_t) (mem size len : Nat) : slab_t × Nat :=
  let start := self.mem
  let end_ := add64 start (mul64 size len)
  if mem < start ∨ mem ≥ end_ then (self, 0)
  else
    let pos := sub64 mem start / size
    ({ self with
        map := self.map.set (pos / 8)
          ((self.map.getD (pos / 8) 0 &&& (0xFFFFFFFF - 1 <<< (pos % 8))) % 256) },
      1)

/-! ## Pools -/

/-- A `slab_pool_t`; `head` is the chain of slabs in `next` order (`[]` when `head` is `NULL`). -/
structure slab_pool_t where
  head : List slab_t
  size : Nat
  len : Nat
deriving DecidableEq, Repr

/-- How a call of a function returning `void *` ends: with `return p;`, or by reaching the closing
brace of the function without a `return` statement, when the value the caller sees is not
defined. -/
inductive Ret where
  | ptr (p : Nat)
  | fallthrough
deriving DecidableEq, Repr

/-- `slab_pool_init` (for a non-null `self`). -/
def slab_pool_init (reserve : PageProvider) (calls slab_size slab_nelem : Nat) :
    Nat × slab_pool_t :=
  let r := slab_init reserve calls slab_size slab_nelem
  (r.1, { head := r.2.toList, size := slab_size, len := slab_nelem })

/-- The loop `while (curr) { ... }` of `slab_pool_alloc`, started at the slab `curr` that heads
the list.  `fuel` bounds the number of times the loop condition is tested; `none` means the bound
was hit.  The result is the provider's call count, the chain from `curr` on, and how the function
ended. -/
def slab_pool_alloc_loop (reserve : PageProvider) (size len : Nat) :
    Nat → Nat → List slab_t → Option (Nat × List slab_t × Ret)
  | 0, _, _ => none
  | _ + 1, calls, [] => some (calls, [], Ret.fallthrough)
  | fuel + 1, calls, curr :: next =>
    let r := slab_alloc curr size len
    if r.2 ≠ 0 then some (calls, r.1 :: next, Ret.ptr r.2)
    else
      let grown : Nat × List slab_t :=
        match next with
        | [] => let n := slab_init reserve calls size len; (n.1, n.2.toList)
        | _ :: _ => (calls, next)
      (slab_pool_alloc_loop reserve size len fuel grown.1 grown.2).map
        fun t => (t.1, r.1 :: t.2.1, t.2.2)

/-- `slab_pool_alloc` (for a non-null `self`). -/
def slab_pool_alloc (reserve : PageProvider) (fuel calls : Nat) (self : slab_pool_t) :
    Option (Nat × slab_pool_t × Ret) :=
  (slab_pool_alloc_loop reserve self.size self.len fuel calls self.head).map
    fun t => (t.1, { self with head := t.2.1 }, t.2.2)

/-- The loop of `slab_pool_free`, started at the slab that heads the list. -/
def slab_pool_free_loop (mem size len : Nat) : List slab_t → List slab_t
  | [] => []
  | curr :: next =>
    let r := slab_free curr mem size len
    if r.2 = 1 then r.1 :: next else r.1 :: slab_pool_free_loop mem size len next

/-- `slab_pool_free` (for a non-null `self`). -/
def slab_pool_free (self : slab_pool_t) (mem : Nat) : slab_pool_t :=
  { self with head := slab_pool_free_loop mem self.size self.len self.head }

/-! ## Vocabulary of the specification -/

/-- Bit `p` of a bitmap: bit `p % 8` of byte `p / 8` (a byte past the end reads as `0`). -/
def bit (map : List Nat) (p : Nat) : Bool := (map.getD (p / 8) 0).testBit (p % 8)

/-- The store `map[pos / 8] |= (1 << (pos % 8))` of `slab_alloc`. -/
def set_bit (map : List Nat) (pos : Nat) : List Nat :=
  map.set (pos / 8) ((map.getD (pos / 8) 0 ||| 1 <<< (pos % 8)) % 256)

/-- The store `map[pos / 8] &= ~(1 << (pos % 8))` of `slab_free`. -/
def clear_bit (map : List Nat) (pos : Nat) : List Nat :=
  map.set (pos / 8) ((map.getD (pos / 8) 0 &&& (0xFFFFFFFF - 1 <<< (pos % 8))) % 256)

/-- Every entry of the bitmap is a byte. -/
def Bytes (map : List Nat) : Prop := ∀ b, b ∈ map → b < 256

/-- The parameters for which `slab_init` computes `total_size` without wrap-around:
`map_align(map_size(len)) + sizeof(slab_t) + size * len` stays below `2 ^ 64`. -/
def NoWrap (size len : Nat) : Prop :=
  1 ≤ size ∧ 1 ≤ len ∧ 8 * (((len + 7) / 8 + 7) / 8) + 16 + size * len < 2 ^ 64

instance (size len : Nat) : Decidable (NoWrap size len) := by unfold NoWrap; infer_instance

/-- The contract of the page provider for regions of `bytes` bytes: a region it returns starts at
a non-null address, ends inside the address space, and two regions returned by different
reservations do not overlap (no region is released before the pool is destroyed). -/
def ProviderOK (reserve : PageProvider) (bytes : Nat) : Prop :=
  (∀ n a, reserve n bytes = some a → 0 < a ∧ a + bytes < 2 ^ 64) ∧
  ∀ n m a b, n ≠ m → reserve n bytes = some a → reserve m bytes = some b →
    a + bytes ≤ b ∨ b + bytes ≤ a

/-- The address `p` lies in the arena `[mem, mem + size * len)` of the slab. -/
def in_arena (s : slab_t) (size len p : Nat) : Prop := s.mem ≤ p ∧ p < s.mem + size * len

instance (s : slab_t) (size len p : Nat) : Decidable (in_arena s size len p) := by
  unfold in_arena; infer_instance

/-- All `len` blocks of the slab are taken. -/
def full (len : Nat) (s : slab_t) : Prop := ∀ p, p < len → bit s.map p = true

instance (len : Nat) (s : slab_t) : Decidable (full len s) := by unfold full; infer_instance

/-- Bit `q` is the lowest clear bit of the slab and is the bit of a block. -/
def lowest_clear (len : Nat) (s : slab_t) (q : Nat) : Prop :=
  q < len ∧ bit s.map q = false ∧ ∀ i, i < q → bit s.map i = true

/-- A slab as `slab_init` lays it out and `slab_alloc`, `slab_free` keep it: a non-null arena
that ends inside the address space, and a bitmap of bytes that covers `map_size(len)` bytes. -/
def SlabOK (size len : Nat) (s : slab_t) : Prop :=
  0 < s.mem ∧ s.mem + size * len < 2 ^ 64 ∧ Bytes s.map ∧ (len + 7) / 8 ≤ s.map.length

/-- The arenas of the slabs of a chain are pairwise disjoint. -/
def ArenasDisjoint (size len : Nat) (chain : List slab_t) : Prop :=
  (chain.map slab_t.mem).Pairwise fun a b => a + size * len ≤ b ∨ b + size * len ≤ a

/-- Every slab of the chain was laid out by `slab_init` in a region that the provider returned to
one of the first `calls` reservations. -/
def FromProvider (reserve : PageProvider) (calls size len : Nat) (chain : List slab_t) : Prop :=
  ∀ s, s ∈ chain → ∃ n, n < calls ∧
    reserve n (slab_init_total_size size len) = some s.map_addr ∧
    s.mem = s.map_addr + map_align (map_size len) + sizeof_slab_t

/-- A well-formed pool. -/
def PoolOK (self : slab_pool_t) : Prop :=
  NoWrap self.size self.len ∧ (∀ s, s ∈ self.head → SlabOK self.size self.len s) ∧
    ArenasDisjoint self.size self.len self.head

/-- The slab that `slab_init` builds in a region starting at `a`. -/
def fresh_slab (len a : Nat) : slab_t :=
  { map_addr := a
    map := List.replicate (map_align (map_size len)) 0
    mem := add64 (add64 a (map_align (map_size len))) sizeof_slab_t }

/-- The slab after block `q` has been handed out. -/
def take (s : slab_t) (q : Nat) : slab_t := { s with map := set_bit s.map q }

/-- The slab after block `q` has been given back. -/
def give (s : slab_t) (q : Nat) : slab_t := { s with map := clear_bit s.map q }

/-- Every slab of the list is full. -/
def AllFull (len : Nat) (chain : List slab_t) : Prop := ∀ t, t ∈ chain → full len t

/-- What one call of `slab_pool_alloc` does to the provider's call count and the chain, and how
it ends: first fit, growth, exhaustion, or the empty chain. -/
inductive AllocStep (reserve : PageProvider) (size len : Nat) :
    Nat → List slab_t → Nat → List slab_t → Ret → Prop where
  | found (calls : Nat) (pre : List slab_t) (s : slab_t) (post : List slab_t) (q : Nat) :
      AllFull len pre → lowest_clear len s q →
      AllocStep reserve size len calls (pre ++ s :: post) calls (pre ++ take s q :: post)
        (Ret.ptr (s.mem + size * q))
  | grow (calls : Nat) (chain : List slab_t) (a : Nat) :
      chain ≠ [] → AllFull len chain →
      reserve calls (slab_init_total_size size len) = some a →
      AllocStep reserve size len calls chain (calls + 1)
        (chain ++ [take (fresh_slab len a) 0]) (Ret.ptr (fresh_slab len a).mem)
  | fail (calls : Nat) (chain : List slab_t) :
      chain ≠ [] → AllFull len chain →
      reserve calls (slab_init_total_size size len) = none →
      AllocStep reserve size len calls chain (calls + 1) chain Ret.fallthrough
  | empty (calls : Nat) : AllocStep reserve size len calls [] calls [] Ret.fallthrough

/-- The invariant of a pool that runs on the provider `reserve`, of which `calls` reservations
have been made. -/
def Inv (reserve : PageProvider) (calls : Nat) (self : slab_pool_t) : Prop :=
  PoolOK self ∧ FromProvider reserve calls self.size self.len self.head ∧
    ProviderOK reserve (slab_init_total_size self.size self.len)

/-- What one call of `slab_pool_free` with the address `p` does to the chain: nothing when no
arena holds `p`, and otherwise the first slab whose arena holds `p` gives back the block that
`p` points into. -/
inductive FreeStep (size len p : Nat) : List slab_t → List slab_t → Prop where
  | unowned (chain : List slab_t) :
      (∀ t, t ∈ chain → ¬ in_arena t size len p) → FreeStep size len p chain chain
  | owned (pre : List slab_t) (s : slab_t) (post : List slab_t) :
      (∀ t, t ∈ pre → ¬ in_arena t size len p) → in_arena s size len p →
      FreeStep size len p (pre ++ s :: post) (pre ++ give s ((p - s.mem) / size) :: post)

/-- The bitmaps agree with the list `out` of outstanding addresses: bit `i` of a slab is set
exactly when `i` is a block index and the address of block `i` of that slab is outstanding. -/
def Occupancy (size len : Nat) (chain : List slab_t) (out : List Nat) : Prop :=
  ∀ s, s ∈ chain → ∀ i, bit s.map i = true ↔ (i < len ∧ s.mem + size * i ∈ out)

/-- The address `p` is the start of a block of a slab of the chain. -/
def BlockStart (size len : Nat) (chain : List slab_t) (p : Nat) : Prop :=
  ∃ s, s ∈ chain ∧ ∃ i, i < len ∧ p = s.mem + size * i

/-- Every address of the list is the start of a block of the chain. -/
def Owned (size len : Nat) (chain : List slab_t) (out : List Nat) : Prop :=
  ∀ p, p ∈ out → BlockStart size len chain p

/-- The pointers that a list of results carries (`Ret.fallthrough` carries none). -/
def ptrs : List Ret → List Nat
  | [] => []
  | Ret.ptr p :: rs => p :: ptrs rs
  | Ret.fallthrough :: rs => ptrs rs

/-- The pool states reachable from a fresh pool of parameters `size`, `len` by calls of
`slab_pool_alloc` and of `slab_pool_free` with any address, together with the provider's call
count and the list `ever` of all addresses that `slab_pool_alloc` has returned so far. -/
inductive Reach (reserve : PageProvider) (size len : Nat) :
    Nat → slab_pool_t → List Nat → Prop where
  | init (calls : Nat) :
      Reach reserve size len (slab_pool_init reserve calls size len).1
        (slab_pool_init reserve calls size len).2 []
  | alloc (fuel calls calls' : Nat) (self self' : slab_pool_t) (ever : List Nat) (r : Ret) :
      Reach reserve size len calls self ever →
      slab_pool_alloc reserve fuel calls self = some (calls', self', r) →
      Reach reserve size len calls' self' (ptrs [r] ++ ever)
  | free (calls : Nat) (self : slab_pool_t) (ever : List Nat) (p : Nat) :
      Reach reserve size len calls self ever →
      Reach reserve size len calls (slab_pool_free self p) ever

/-- A provider for the examples: four regions, 64 KiB apart, then failure. -/
def demo_provider : PageProvider := fun n _ => if n < 4 then some (4096 + n * 65536) else none

/-- A provider for the examples that supplies one region and then fails. -/
def one_region : PageProvider := fun n _ => if n = 0 then some 4096 else none

instance (len : Nat) (chain : List slab_t) : Decidable (AllFull len chain) := by
  unfold AllFull; infer_instance

/-- One call on a single slab: `slab_alloc`, or `slab_free` with some address. -/
inductive SlabOp where
  | alloc
  | free (mem : Nat)
deriving DecidableEq, Repr

/-- Runs a sequence of calls on a slab: the slab afterwards and the pointers that the calls of
`slab_alloc` returned, in call order. -/
def slab_run (size len : Nat) : List SlabOp → slab_t → slab_t × List Nat
  | [], s => (s, [])
  | SlabOp.alloc :: ops, s =>
    ((slab_run size len ops (slab_alloc s size len).1).1,
      (slab_alloc s size len).2 :: (slab_run size len ops (slab_alloc s size len).1).2)
  | SlabOp.free mem :: ops, s => slab_run size len ops (slab_free s mem size len).1

/-- The runs of a pool in which every freed pointer is outstanding: the pool states reachable
from a fresh pool by calls of `slab_pool_alloc` and by calls of `slab_pool_free` with an address
that an earlier `slab_pool_alloc` returned and that has not been freed since, together with the
list `out` of outstanding addresses. -/
inductive Run (reserve : PageProvider) (size len : Nat) :
    Nat → slab_pool_t → List Nat → Prop where
  | init (calls : Nat) :
      Run reserve size len (slab_pool_init reserve calls size len).1
        (slab_pool_init reserve calls size len).2 []
  | alloc (fuel calls calls' : Nat) (self self' : slab_pool_t) (out : List Nat) (r : Ret) :
      Run reserve size len calls self out →
      slab_pool_alloc reserve fuel calls self = some (calls', self', r) →
      Run reserve size len calls' self' (ptrs [r] ++ out)
  | free (calls : Nat) (self : slab_pool_t) (out : List Nat) (p : Nat) :
      Run reserve size len calls self out → p ∈ out →
      Run reserve size len calls (slab_pool_free self p) (out.erase p)

/-- Makes `n` successive calls of `slab_pool_alloc`: the provider's call count and the pool
afterwards, and the results of the calls in call order (`none` when a call hits the bound
`fuel`). -/
def alloc_burst (reserve : PageProvider) (fuel : Nat) :
    Nat → Nat → slab_pool_t → Option (Nat × slab_pool_t × List Ret)
  | 0, calls, self => some (calls, self, [])
  | n + 1, calls, self =>
    match slab_pool_alloc reserve fuel calls self with
    | none => none
    | some (calls', self', r) =>
      (alloc_burst reserve fuel n calls' self').map fun t => (t.1, t.2.1, r :: t.2.2)

/-- Calls `slab_pool_free` on every address of the list, in list order. -/
def free_all (self : slab_pool_t) (ps : List Nat) : slab_pool_t :=
  ps.foldl slab_pool_free self

/-- The chain holds exactly the first `k` blocks in first-fit order: a slab has the bits of its
first `min k len` blocks set and no other, and the slabs after it hold the `k - len` blocks that
are left. -/
def Filled (len : Nat) : Nat → List slab_t → Prop
  | k, [] => k = 0
  | k, s :: rest => (∀ i, bit s.map i = decide (i < len ∧ i < k)) ∧ Filled len (k - len) rest

/-- The address of block `k` in first-fit order, for a chain whose arenas start at `mems`. -/
def block_addr (size len : Nat) : Nat → List Nat → Nat
  | _, [] => 0
  | k, m :: ms => if k < len then m + size * k else block_addr size len (k - len) ms

/-! ## Release, and the loops step by step -/

/-- `slab_destroy`, in the `SLAB_UNIX` build, where the byte count matters:
`munmap(self->map, sizeof(slab_t) + map_align(map_size(len)) + (size * len))`.  The result is
the pair of arguments of the release: the start address and the byte count.  (The other two
builds release `self->map` without a byte count.) -/
def slab_destroy (self : slab_t) (size len : Nat) : Nat × Nat :=
  let total_size := add64 (add64 sizeof_slab_t (map_align (map_size len))) (mul64 size len)
  (self.map_addr, total_size)

/-- `slab_pool_destroy` (for a non-null `self`): the releases it makes, in chain order. -/
def slab_pool_destroy (self : slab_pool_t) : List (Nat × Nat) :=
  self.head.map fun curr => slab_destroy curr self.size self.len

/-- The position `pos = ((uintptr_t)mem - start) / size` that `slab_free` computes after its
range check. -/
def slab_free_pos (self : slab_t) (mem size : Nat) : Nat := sub64 mem self.mem / size

/-- The number of slabs that the loop of `slab_pool_free` visits (calls `slab_free` on), started
at the slab that heads the list. -/
def slab_pool_free_visits (mem size len : Nat) : List slab_t → Nat
  | [] => 0
  | curr :: next =>
    if (slab_free curr mem size len).2 = 1 then 1
    else 1 + slab_pool_free_visits mem size len next

/-- The state of the loop of `slab_pool_alloc` when its condition `while (curr)` is tested: the
provider's call count, the slabs before `curr` as the loop left them, and the chain from `curr`
on (`[]` when `curr` is `NULL`). -/
structure loop_state where
  calls : Nat
  visited : List slab_t
  rest : List slab_t
deriving DecidableEq, Repr

/-- One test of the condition and one run of the body of the loop of `slab_pool_alloc`: the
state at the next test, or the end of the call (call count, chain, how it ended). -/
def slab_pool_alloc_iter (reserve : PageProvider) (size len : Nat) (st : loop_state) :
    loop_state ⊕ (Nat × List slab_t × Ret) :=
  match st.rest with
  | [] => Sum.inr (st.calls, st.visited, Ret.fallthrough)
  | curr :: next =>
    let r := slab_alloc curr size len
    if r.2 ≠ 0 then Sum.inr (st.calls, st.visited ++ r.1 :: next, Ret.ptr r.2)
    else
      let grown : Nat × List slab_t :=
        match next with
        | [] => let n := slab_init reserve st.calls size len; (n.1, n.2.toList)
        | _ :: _ => (st.calls, next)
      Sum.inl { calls := grown.1, visited := st.visited ++ [r.1], rest := grown.2 }

/-- The state of the loop after `n` iterations, or `none` when the call has ended before. -/
def slab_pool_alloc_iters (reserve : PageProvider) (size len : Nat) :
    Nat → loop_state → Option loop_state
  | 0, st => some st
  | n + 1, st =>
    match slab_pool_alloc_iter reserve size len st with
    | Sum.inl st' => slab_pool_alloc_iters reserve size len n st'
    | Sum.inr _ => none

/-- A provider for the examples that never fails. -/
def endless_provider : PageProvider := fun n _ => some (4096 + n * 65536)

instance (map : List Nat) : Decidable (Bytes map) := by unfold Bytes; infer_instance

instance (len : Nat) (s : slab_t) (q : Nat) : Decidable (lowest_clear len s q) := by
  unfold lowest_clear; infer_instance

/-! ## The header and the bitmap in memory -/

/-- Byte-addressed memory: the byte stored at each address.  A header `slab_t` at the address
`self` holds `next` in the bytes `self .. self + 7` and `map` in the bytes
`self + 8 .. self + 15` (LP64, little-endian), and the arena `self->mem` starts at
`self + 16`. -/
abbrev Memory := Nat → Nat

/-- Reads the 8-byte little-endian word at the address `a`. -/
def load64 (m : Memory) (a : Nat) : Nat :=
  (List.range 8).foldr (fun j acc => m (a + j) % 256 + 256 * acc) 0

/-- Stores the 8-byte little-endian word `v` at the address `a`. -/
def store64 (m : Memory) (a v : Nat) : Memory :=
  fun x => if a ≤ x ∧ x < a + 8 then v / 256 ^ (x - a) % 256 else m x

/-- Stores the byte `v` at the address `a`. -/
def store8 (m : Memory) (a v : Nat) : Memory := fun x => if x = a then v % 256 else m x

/-- The call `memset(a, 0, n)`. -/
def memset_zero (m : Memory) (a n : Nat) : Memory :=
  fun x => if a ≤ x ∧ x < a + n then 0 else m x

/-- `slab_init` on byte-addressed memory: the provider's call count, the memory afterwards and
the returned pointer `slab` (`0` is `NULL`). -/
def slab_init_bytes (reserve : PageProvider) (calls : Nat) (m : Memory)
    (slab_size slab_len : Nat) : Nat × Memory × Nat :=
  let map_len := map_size slab_len
  let map_sz := map_align map_len
  let total_size := add64 (add64 map_sz sizeof_slab_t) (mul64 slab_size slab_len)
  match reserve calls total_size with
  | none => (calls + 1, m, 0)
  | some mem =>
    let slab := add64 mem map_sz
    let m1 := store64 m slab 0
    let m2 := store64 m1 (add64 slab 8) mem
    (calls + 1, memset_zero m2 (load64 m2 (add64 slab 8)) map_sz, slab)

/-- `slab_free` on byte-addressed memory, for the header at the address `self`: the memory
afterwards and the returned `int`.  The store `self->map[pos / 8] &= ~(1 << (pos % 8))` goes to
the address `self->map + pos / 8`, whatever lies there. -/
def slab_free_bytes (m : Memory) (self mem size len : Nat) : Memory × Nat :=
  let start := add64 self sizeof_slab_t
  let end_ := add64 start (mul64 size len)
  if mem < start ∨ mem ≥ end_ then (m, 0)
  else
    let pos := sub64 mem start / size
    let at_ := add64 (load64 m (add64 self 8)) (pos / 8)
    (store8 m at_ (m at_ &&& (0xFFFFFFFF - 1 <<< (pos % 8))), 1)

/-- `slab_destroy` (`SLAB_UNIX` build) on byte-addressed memory: the start address `self->map`
and the byte count of the release. -/
def slab_destroy_bytes (m : Memory) (self size len : Nat) : Nat × Nat :=
  let total_size := add64 (add64 sizeof_slab_t (map_align (map_size len))) (mul64 size len)
  (load64 m (add64 self 8), total_size)

/-- The memory `m` holds the slab `s` with its header at the address `self`: the arena of `s`
starts right after the header, the bytes `self + 8 .. self + 15` hold the pointer `s.map_addr`,
the bytes of the bitmap are the bytes at `s.map_addr`, `s.map_addr + 1`, ..., and the bitmap
ends before the header. -/
def represents (m : Memory) (self : Nat) (s : slab_t) : Prop :=
  self + 16 < 2 ^ 64 ∧ s.mem = self + 16 ∧ load64 m (self + 8) = s.map_addr ∧
    s.map_addr + s.map.length ≤ self ∧
    ∀ i, i < s.map.length → m (s.map_addr + i) = s.map.getD i 0

/-! ## Theorems -/

/-! ### The bit scanner -/

theorem and_compl_eq_zero (n a : Nat) (h : a < 2 ^ n) : a &&& (2 ^ n - (a + 1)) = 0 := by
  apply Nat.eq_of_testBit_eq
  intro i
  rw [Nat.testBit_and, Nat.testBit_two_pow_sub_succ h]
  cases a.testBit i <;> simp

theorem lowbit_isolate (n : Nat) : ∀ y : Nat, 0 < y → y < 2 ^ n →
    ∃ k, k < n ∧ y &&& (2 ^ n - y) = 2 ^ k ∧ y.testBit k = true ∧
      ∀ j, j < k → y.testBit j = false := by
  induction n with
  | zero => intro y h0 h1; simp at h1; omega
  | succ n ih =>
    intro y h0 h1
    have hdm : ∀ z : Nat, z = 2 * (z / 2) + z % 2 := fun z => by omega
    rcases Nat.mod_two_eq_zero_or_one y with hev | hodd
    · have ha0 : 0 < y / 2 := by omega
      have ha1 : y / 2 < 2 ^ n := by rw [pow_succ] at h1; omega
      obtain ⟨k, hk, hand, hbit, hlow⟩ := ih (y / 2) ha0 ha1
      refine ⟨k + 1, by omega, ?_, ?_, ?_⟩
      · have h2 : (y &&& (2 ^ (n + 1) - y)) / 2 = 2 ^ k := by
          rw [Nat.and_div_two]
          have : (2 ^ (n + 1) - y) / 2 = 2 ^ n - y / 2 := by rw [pow_succ]; omega
          rw [this, hand]
        have h3 : (y &&& (2 ^ (n + 1) - y)) % 2 = 0 := by
          have := @Nat.and_mod_two_eq_one y (2 ^ (n + 1) - y)
          rcases Nat.mod_two_eq_zero_or_one (y &&& (2 ^ (n + 1) - y)) with h | h
          · exact h
          · have := this.mp h; omega
        rw [hdm (y &&& (2 ^ (n + 1) - y)), h2, h3, pow_succ]; omega
      · rw [Nat.testBit_succ]; exact hbit
      · intro j hj
        cases j with
        | zero => simp [hev]
        | succ j => rw [Nat.testBit_succ]; exact hlow j (by omega)
    · refine ⟨0, by omega, ?_, ?_, ?_⟩
      · have h2 : (y &&& (2 ^ (n + 1) - y)) / 2 = 0 := by
          rw [Nat.and_div_two]
          have : (2 ^ (n + 1) - y) / 2 = 2 ^ n - (y / 2 + 1) := by rw [pow_succ]; omega
          rw [this]
          exact and_compl_eq_zero n (y / 2) (by rw [pow_succ] at h1; omega)
        have h3 : (y &&& (2 ^ (n + 1) - y)) % 2 = 1 := by
          apply Nat.and_mod_two_eq_one.mpr
          refine ⟨hodd, ?_⟩
          rw [pow_succ]; omega
        rw [hdm (y &&& (2 ^ (n + 1) - y)), h2, h3]; rfl
      · simp [hodd]
      · intro j hj; omega

theorem bruijin_table_lookup :
    ∀ k, k < 64 → bruijin_table.getD (mul64 (2 ^ k) 0x045FBAC7992A70DA >>> 58) 0 = k := by
  decide

theorem clz_full : modified_bruijin_clz (2 ^ 64 - 1) = 64 := by decide

theorem clz_not_full (x : Nat) (hx : x < 2 ^ 64) (hne : x ≠ 2 ^ 64 - 1) :
    modified_bruijin_clz x < 64 ∧ x.testBit (modified_bruijin_clz x) = false ∧
      ∀ j, j < modified_bruijin_clz x → x.testBit j = true := by
  have hy : not64 x = 2 ^ 64 - (x + 1) := by
    simp only [not64, u64, WORD, Nat.mod_eq_of_lt hx]; omega
  have hy0 : 0 < not64 x := by rw [hy]; omega
  have hy1 : not64 x < 2 ^ 64 := by rw [hy]; omega
  have hneg : neg64 (not64 x) = 2 ^ 64 - not64 x := by
    simp only [neg64, u64, WORD, Nat.mod_eq_of_lt hy1]
    apply Nat.mod_eq_of_lt; omega
  obtain ⟨k, hk, hand, hbit, hlow⟩ := lowbit_isolate 64 (not64 x) hy0 hy1
  have hclz : modified_bruijin_clz x = k := by
    unfold modified_bruijin_clz
    rw [if_neg (by omega), hneg, hand, bruijin_table_lookup k hk]; simp
  have hflip : ∀ i, i < 64 → (not64 x).testBit i = !x.testBit i := by
    intro i hi
    rw [hy, Nat.testBit_two_pow_sub_succ hx]; simp [hi]
  rw [hclz]
  refine ⟨hk, ?_, ?_⟩
  · have := hflip k hk; rw [hbit] at this; simpa using this.symm
  · intro j hj
    have := hflip j (by omega); rw [hlow j hj] at this; simpa using this.symm

/-- C1: for every 64-bit word `x`, when `x` has a zero bit `modified_bruijin_clz x` is the index
(below 64) of its least-significant zero bit, and the result is the sentinel `64` exactly when
all 64 bits of `x` are set. -/
theorem modified_bruijin_clz_spec (x : Nat) (hx : x < 2 ^ 64) :
    ((∃ i, i < 64 ∧ x.testBit i = false) →
      modified_bruijin_clz x < 64 ∧ x.testBit (modified_bruijin_clz x) = false ∧
        ∀ j, j < modified_bruijin_clz x → x.testBit j = true) ∧
    (modified_bruijin_clz x = 64 ↔ ∀ i, i < 64 → x.testBit i = true) := by
  have hall : x = 2 ^ 64 - 1 ↔ ∀ i, i < 64 → x.testBit i = true := by
    constructor
    · intro h i hi; rw [h, Nat.testBit_two_pow_sub_one]; simp [hi]
    · intro h
      apply Nat.eq_of_testBit_eq
      intro i
      rw [Nat.testBit_two_pow_sub_one]
      by_cases hi : i < 64
      · simp [hi, h i hi]
      · simp only [hi, decide_False]
        exact Nat.testBit_lt_two_pow
          (Nat.lt_of_lt_of_le hx (Nat.pow_le_pow_right (by omega) (by omega)))
  constructor
  · rintro ⟨i, hi, hbit⟩
    apply clz_not_full x hx
    intro h
    have := hall.mp h i hi
    rw [hbit] at this; cases this
  · constructor
    · intro h
      by_cases hfull : x = 2 ^ 64 - 1
      · exact hall.mp hfull
      · have := (clz_not_full x hx hfull).1; omega
    · intro h
      rw [hall.mpr h]; exact clz_full

/-- Witness of C1 at the word `0b1011`, whose lowest zero bit is bit 2. -/
theorem modified_bruijin_clz_spec_witness :
    modified_bruijin_clz 11 = 2 ∧ (modified_bruijin_clz 11 = 64 ↔
      ∀ i, i < 64 → (11 : Nat).testBit i = true) :=
  ⟨by decide, (modified_bruijin_clz_spec 11 (by decide)).2⟩

/-! ### Bits of a bitmap -/

theorem bit_set_bit (map : List Nat) (pos q : Nat) (h : pos / 8 < map.length) :
    bit (set_bit map pos) q = (decide (q = pos) || bit map q) := by
  unfold bit set_bit
  rw [List.getD_eq_getElem?_getD, List.getD_eq_getElem?_getD, List.getElem?_set]
  by_cases hq : pos / 8 = q / 8
  · rw [if_pos hq, if_pos h]
    simp only [Option.getD_some]
    rw [show (256 : Nat) = 2 ^ 8 from rfl, Nat.testBit_mod_two_pow, Nat.testBit_or,
      Nat.one_shiftLeft, Nat.testBit_two_pow, ← hq, ← List.getD_eq_getElem?_getD]
    have h8 : q % 8 < 8 := Nat.mod_lt _ (by omega)
    have : (pos % 8 = q % 8) ↔ (q = pos) := by omega
    simp only [h8, decide_True, Bool.true_and, Bool.or_comm, decide_eq_decide.mpr this]
  · rw [if_neg hq]
    have : q ≠ pos := fun h => hq (by rw [h])
    simp [this]

theorem bit_clear_bit (map : List Nat) (pos q : Nat) (h : pos / 8 < map.length) :
    bit (clear_bit map pos) q = (decide (q ≠ pos) && bit map q) := by
  unfold bit clear_bit
  rw [List.getD_eq_getElem?_getD, List.getD_eq_getElem?_getD, List.getElem?_set]
  by_cases hq : pos / 8 = q / 8
  · rw [if_pos hq, if_pos h]
    simp only [Option.getD_some]
    have hk : pos % 8 < 8 := Nat.mod_lt _ (by omega)
    have hmask : (0xFFFFFFFF - 1 <<< (pos % 8)) = 2 ^ 32 - (2 ^ (pos % 8) + 1) := by
      rw [Nat.one_shiftLeft]; norm_num; omega
    have hlt : 2 ^ (pos % 8) < 2 ^ 32 := Nat.pow_lt_pow_right (by omega) (by omega)
    rw [show (256 : Nat) = 2 ^ 8 from rfl, Nat.testBit_mod_two_pow, Nat.testBit_and, hmask,
      Nat.testBit_two_pow_sub_succ hlt, Nat.testBit_two_pow, ← hq, ← List.getD_eq_getElem?_getD]
    have h8 : q % 8 < 8 := Nat.mod_lt _ (by omega)
    have h32 : q % 8 < 32 := by omega
    have : (pos % 8 = q % 8) ↔ (q = pos) := by omega
    by_cases hqp : q = pos
    · simp [h8, h32, hqp]
    · have : ¬ pos % 8 = q % 8 := fun h => hqp (this.mp h)
      simp [h8, h32, hqp, this]
  · rw [if_neg hq]
    have : q ≠ pos := fun h => hq (by rw [h])
    simp [this]

theorem bit_clear_bit_out (map : List Nat) (pos : Nat) (h : map.length ≤ pos / 8) :
    clear_bit map pos = map := by
  unfold clear_bit
  apply List.ext_getElem?
  intro n
  rw [List.getElem?_set]
  by_cases hn : pos / 8 = n
  · subst hn
    rw [if_pos rfl, if_neg (by omega), List.getElem?_eq_none h]
  · rw [if_neg hn]

theorem Bytes_getD (map : List Nat) (hb : Bytes map) (n : Nat) : map.getD n 0 < 256 := by
  rw [List.getD_eq_getElem?_getD]
  cases h : map[n]? with
  | none => simp
  | some b => exact hb b (List.mem_iff_getElem?.mpr ⟨n, h⟩)

theorem Bytes_set (map : List Nat) (hb : Bytes map) (n b : Nat) (h : b < 256) :
    Bytes (map.set n b) := by
  intro c hc
  rcases List.mem_or_eq_of_mem_set hc with h1 | h1
  · exact hb c h1
  · rw [h1]; exact h

theorem Bytes_set_bit (map : List Nat) (hb : Bytes map) (pos : Nat) : Bytes (set_bit map pos) :=
  Bytes_set map hb _ _ (Nat.mod_lt _ (by omega))

theorem Bytes_clear_bit (map : List Nat) (hb : Bytes map) (pos : Nat) :
    Bytes (clear_bit map pos) :=
  Bytes_set map hb _ _ (Nat.mod_lt _ (by omega))

/-! ### The scan of `slab_alloc` -/

theorem byte_shift_testBit (b j t : Nat) (hb : b < 256) (hj : j < 8) :
    (u64 (u64 b <<< (j * 8))).testBit t = true ↔ (t / 8 = j ∧ b.testBit (t % 8) = true) := by
  have hb64 : u64 b = b := Nat.mod_eq_of_lt (by unfold WORD; omega)
  unfold u64 at *
  rw [hb64]
  unfold WORD
  rw [Nat.testBit_mod_two_pow, Nat.testBit_shiftLeft]
  constructor
  · intro h
    simp only [Bool.and_eq_true, decide_eq_true_eq] at h
    obtain ⟨h1, h2, h3⟩ := h
    have h4 : t - j * 8 < 8 := by
      by_contra hc
      have : b < 2 ^ (t - j * 8) :=
        Nat.lt_of_lt_of_le hb (by
          rw [show (256 : Nat) = 2 ^ 8 from rfl]
          exact Nat.pow_le_pow_right (by omega) (by omega))
      rw [Nat.testBit_lt_two_pow this] at h3
      cases h3
    have h5 : t % 8 = t - j * 8 := by omega
    exact ⟨by omega, by rw [h5]; exact h3⟩
  · rintro ⟨h1, h2⟩
    have h5 : t - j * 8 = t % 8 := by omega
    simp only [Bool.and_eq_true, decide_eq_true_eq]
    exact ⟨by omega, by omega, by rw [h5]; exact h2⟩

theorem slab_alloc_word_testBit (map : List Nat) (hb : Bytes map) (bites i t : Nat) :
    ∀ k j word, j + k = 8 →
      ((slab_alloc_word map bites i k j word).testBit t = true ↔
        (word.testBit t = true ∨
          (j ≤ t / 8 ∧ t < 64 ∧ i + t / 8 < bites ∧ bit map (8 * i + t) = true))) := by
  intro k
  induction k with
  | zero =>
    intro j word hj
    simp only [slab_alloc_word]
    constructor
    · intro h; exact Or.inl h
    · rintro (h | ⟨h1, h2, _⟩)
      · exact h
      · omega
  | succ k ih =>
    intro j word hj
    simp only [slab_alloc_word]
    have hbit : bit map (8 * i + t) = (map.getD (i + t / 8) 0).testBit (t % 8) := by
      unfold bit
      rw [show (8 * i + t) / 8 = i + t / 8 by omega, show (8 * i + t) % 8 = t % 8 by omega]
    by_cases hc : i + j < bites
    · rw [if_pos hc, ih (j + 1) _ (by omega), Nat.testBit_or, Bool.or_eq_true,
        byte_shift_testBit _ j t (Bytes_getD map hb _) (by omega), hbit]
      constructor
      · rintro ((h | ⟨h1, h2⟩) | ⟨h1, h2, h3, h4⟩)
        · exact Or.inl h
        · refine Or.inr ⟨by omega, by omega, by omega, ?_⟩
          rw [h1]; exact h2
        · exact Or.inr ⟨by omega, h2, h3, h4⟩
      · rintro (h | ⟨h1, h2, h3, h4⟩)
        · exact Or.inl (Or.inl h)
        · by_cases he : t / 8 = j
          · refine Or.inl (Or.inr ⟨he, ?_⟩)
            rw [← he]; exact h4
          · exact Or.inr ⟨by omega, h2, h3, h4⟩
    · rw [if_neg hc]
      constructor
      · intro h; exact Or.inl h
      · rintro (h | ⟨h1, h2, h3, _⟩)
        · exact h
        · omega

/-- The 64-bit window that `slab_alloc` assembles at byte `i`: its bit `t` is bit `8 * i + t` of
the bitmap when that bit lies in the first `bites` bytes, and `0` otherwise. -/
theorem window_testBit (map : List Nat) (hb : Bytes map) (bites i t : Nat) :
    (slab_alloc_word map bites i 8 0 0).testBit t = true ↔
      (t < 64 ∧ i + t / 8 < bites ∧ bit map (8 * i + t) = true) := by
  rw [slab_alloc_word_testBit map hb bites i t 8 0 0 (by omega)]
  simp

theorem window_lt (map : List Nat) (hb : Bytes map) (bites i : Nat) :
    slab_alloc_word map bites i 8 0 0 < 2 ^ 64 := by
  apply Nat.lt_pow_two_of_testBit
  intro t ht
  cases h : (slab_alloc_word map bites i 8 0 0).testBit t with
  | false => rfl
  | true =>
    have := (window_testBit map hb bites i t).mp h
    omega

theorem pos_no_wrap (i z : Nat) (h : 8 * i + z < 2 ^ 64) :
    add64 (mul64 i 8) z = 8 * i + z := by
  unfold add64 mul64 WORD
  rw [Nat.mod_eq_of_lt (by omega), Nat.mod_eq_of_lt (by omega)]
  omega

/-- When every bit below `len` is set, the scan returns `NULL` and leaves the slab alone. -/
theorem slab_alloc_loop_full (self : slab_t) (size len bites : Nat) (hb : Bytes self.map)
    (hbites : 8 * bites < 2 ^ 64) (hlen : len ≤ 8 * bites)
    (hfull : ∀ p, p < len → bit self.map p = true) :
    ∀ k i, i + k = bites → slab_alloc_loop self size len bites k i = (self, 0) := by
  intro k
  induction k with
  | zero => intro i _; rfl
  | succ k ih =>
    intro i hi
    simp only [slab_alloc_loop]
    by_cases hz : modified_bruijin_clz (slab_alloc_word self.map bites i 8 0 0) < 64
    · have hw := window_lt self.map hb bites i
      have hne : slab_alloc_word self.map bites i 8 0 0 ≠ 2 ^ 64 - 1 := by
        intro h; rw [h, clz_full] at hz; omega
      have hclr := (clz_not_full _ hw hne).2.1
      have hset := (clz_not_full _ hw hne).2.2
      have hin : 8 * i + modified_bruijin_clz (slab_alloc_word self.map bites i 8 0 0) ≤
          8 * bites := by
        by_cases h0 : modified_bruijin_clz (slab_alloc_word self.map bites i 8 0 0) = 0
        · omega
        · have := ((window_testBit self.map hb bites i _).mp
            (hset (modified_bruijin_clz (slab_alloc_word self.map bites i 8 0 0) - 1)
              (by omega))).2.1
          omega
      rw [if_pos hz, pos_no_wrap i _ (by omega)]
      by_cases hpos :
          8 * i + modified_bruijin_clz (slab_alloc_word self.map bites i 8 0 0) ≥ len
      · rw [if_pos hpos]
      · exfalso
        have := (window_testBit self.map hb bites i _).mpr
          ⟨hz, by omega, hfull _ (by omega)⟩
        rw [hclr] at this; cases this
    · rw [if_neg hz]
      exact ih (i + 1) (by omega)

/-- When `p` is the lowest clear bit and `p < len`, the scan sets bit `p` and returns the address
of block `p`. -/
theorem slab_alloc_loop_found (self : slab_t) (size len bites p : Nat) (hb : Bytes self.map)
    (hbites : 8 * bites < 2 ^ 64) (hlen : len ≤ 8 * bites) (hp : p < len)
    (hclear : bit self.map p = false) (hlow : ∀ q, q < p → bit self.map q = true) :
    ∀ k i, i + k = bites → 8 * i ≤ p →
      slab_alloc_loop self size len bites k i =
        ({ self with map := set_bit self.map p }, add64 self.mem (mul64 size p)) := by
  intro k
  induction k with
  | zero => intro i hi h8; omega
  | succ k ih =>
    intro i hi h8
    simp only [slab_alloc_loop]
    have hw := window_lt self.map hb bites i
    by_cases ht : p - 8 * i < 64
    · have hwt : (slab_alloc_word self.map bites i 8 0 0).testBit (p - 8 * i) = false := by
        cases h : (slab_alloc_word self.map bites i 8 0 0).testBit (p - 8 * i) with
        | false => rfl
        | true =>
          have := ((window_testBit self.map hb bites i _).mp h).2.2
          rw [show 8 * i + (p - 8 * i) = p by omega, hclear] at this; cases this
      have hne : slab_alloc_word self.map bites i 8 0 0 ≠ 2 ^ 64 - 1 := by
        intro h
        rw [h, Nat.testBit_two_pow_sub_one] at hwt
        simp at hwt; omega
      obtain ⟨hz, hclr, hset⟩ := clz_not_full _ hw hne
      have hzle : modified_bruijin_clz (slab_alloc_word self.map bites i 8 0 0) ≤ p - 8 * i := by
        by_contra hc
        have := hset (p - 8 * i) (by omega)
        rw [hwt] at this; cases this
      have hzeq : modified_bruijin_clz (slab_alloc_word self.map bites i 8 0 0) = p - 8 * i := by
        by_contra hc
        have := (window_testBit self.map hb bites i _).mpr
          ⟨hz, by omega, hlow _ (by omega)⟩
        rw [hclr] at this; cases this
      rw [if_pos hz, pos_no_wrap i _ (by omega), hzeq, show 8 * i + (p - 8 * i) = p by omega,
        if_neg (by omega)]
      rfl
    · have hfullw : slab_alloc_word self.map bites i 8 0 0 = 2 ^ 64 - 1 := by
        apply Nat.eq_of_testBit_eq
        intro t
        rw [Nat.testBit_two_pow_sub_one]
        by_cases h64 : t < 64
        · rw [(window_testBit self.map hb bites i t).mpr ⟨h64, by omega, hlow _ (by omega)⟩]
          simp [h64]
        · simp only [h64, decide_False]
          exact Nat.testBit_lt_two_pow
            (Nat.lt_of_lt_of_le hw (Nat.pow_le_pow_right (by omega) (by omega)))
      rw [hfullw, clz_full, if_neg (by omega)]
      exact ih (i + 1) (by omega) (by omega)

theorem map_size_eq (len : Nat) (h : len + 7 < 2 ^ 64) : map_size len = (len + 7) / 8 := by
  unfold map_size add64 u64 WORD
  rw [Nat.mod_eq_of_lt (show len < 2 ^ 64 by omega), Nat.mod_eq_of_lt h]

/-- The slab reports full, unchanged, when all of its `len` bits are set. -/
theorem slab_alloc_full (self : slab_t) (size len : Nat) (hb : Bytes self.map)
    (hlen : len + 7 < 2 ^ 64) (hfull : ∀ p, p < len → bit self.map p = true) :
    slab_alloc self size len = (self, 0) := by
  unfold slab_alloc
  simp only [map_size_eq len hlen]
  exact slab_alloc_loop_full self size len _ hb (by omega) (by omega) hfull _ 0 (by omega)

/-- The slab hands out its lowest free block. -/
theorem slab_alloc_found (self : slab_t) (size len p : Nat) (hb : Bytes self.map)
    (hlen : len + 7 < 2 ^ 64) (hp : p < len)
    (hclear : bit self.map p = false) (hlow : ∀ q, q < p → bit self.map q = true) :
    slab_alloc self size len =
      ({ self with map := set_bit self.map p }, add64 self.mem (mul64 size p)) := by
  unfold slab_alloc
  simp only [map_size_eq len hlen]
  exact slab_alloc_loop_found self size len _ p hb (by omega) (by omega) hp hclear hlow _ 0
    (by omega) (by omega)

/-! ### `slab_free` -/

theorem slab_free_out (self : slab_t) (p size len : Nat) (hfit : self.mem + size * len < 2 ^ 64)
    (hout : ¬ in_arena self size len p) : slab_free self p size len = (self, 0) := by
  unfold in_arena at hout
  have h1 : size * len < 2 ^ 64 := by omega
  simp only [slab_free, add64, mul64, WORD, Nat.mod_eq_of_lt h1, Nat.mod_eq_of_lt hfit]
  rw [if_pos (by omega)]

theorem slab_free_in (self : slab_t) (p size len : Nat) (hfit : self.mem + size * len < 2 ^ 64)
    (hin : in_arena self size len p) :
    slab_free self p size len =
      ({ self with map := clear_bit self.map ((p - self.mem) / size) }, 1) := by
  unfold in_arena at hin
  have h1 : size * len < 2 ^ 64 := by omega
  have h2 : (2 ^ 64 + p % 2 ^ 64 - self.mem % 2 ^ 64) % 2 ^ 64 = p - self.mem := by omega
  simp only [slab_free, add64, mul64, sub64, u64, WORD, Nat.mod_eq_of_lt h1,
    Nat.mod_eq_of_lt hfit, h2]
  rw [if_neg (by omega)]
  rfl

/-! ### `slab_init` -/

theorem and_mask_eq (y : Nat) (hy : y < 2 ^ 64) : y &&& (2 ^ 64 - 8) = 8 * (y / 8) := by
  apply Nat.eq_of_testBit_eq
  intro i
  rw [Nat.testBit_and, show (2 : Nat) ^ 64 - 8 = 2 ^ 64 - (7 + 1) from rfl,
    Nat.testBit_two_pow_sub_succ (by norm_num), show (7 : Nat) = 2 ^ 3 - 1 from rfl,
    Nat.testBit_two_pow_sub_one, show (8 : Nat) = 2 ^ 3 from rfl, Nat.testBit_mul_pow_two,
    Nat.testBit_to_div_mod, Nat.testBit_to_div_mod]
  by_cases h3 : i < 3
  · have : ¬ 3 ≤ i := by omega
    simp [h3, this]
  · have h3' : 3 ≤ i := by omega
    by_cases h64 : i < 64
    · have hpow : 2 ^ i = 2 ^ 3 * 2 ^ (i - 3) := by rw [← pow_add]; congr 1; omega
      simp only [h3, h3', h64, decide_True, decide_False, Bool.not_false, Bool.and_true,
        Bool.true_and]
      rw [hpow, Nat.div_div_eq_div_mul]
    · have hlt : y < 2 ^ i :=
        Nat.lt_of_lt_of_le hy (Nat.pow_le_pow_right (by omega) (by omega))
      have hlt2 : y / 8 < 2 ^ (i - 3) := by
        rw [Nat.div_lt_iff_lt_mul (by norm_num), show (8 : Nat) = 2 ^ 3 from rfl, ← pow_add]
        rw [show i - 3 + 3 = i by omega]; exact hlt
      simp [h64, Nat.div_eq_of_lt hlt, Nat.div_eq_of_lt hlt2]

theorem map_align_eq (x : Nat) (hx : x + 7 < 2 ^ 64) : map_align x = 8 * ((x + 7) / 8) := by
  unfold map_align
  have h1 : sub64 (add64 x alignment) 1 = x + 7 := by
    unfold sub64 add64 u64 alignment WORD
    omega
  have h2 : not64 (sub64 alignment 1) = 2 ^ 64 - 8 := by decide
  rw [h1, h2, and_mask_eq _ hx]

theorem NoWrap_map_size (size len : Nat) (h : NoWrap size len) :
    map_size len = (len + 7) / 8 := by
  obtain ⟨h1, h2, h3⟩ := h
  have : len ≤ size * len := Nat.le_mul_of_pos_left len h1
  exact map_size_eq len (by omega)

theorem NoWrap_map_align (size len : Nat) (h : NoWrap size len) :
    map_align (map_size len) = 8 * (((len + 7) / 8 + 7) / 8) := by
  rw [NoWrap_map_size size len h]
  obtain ⟨h1, h2, h3⟩ := h
  exact map_align_eq _ (by omega)

theorem NoWrap_total_size (size len : Nat) (h : NoWrap size len) :
    slab_init_total_size size len = map_align (map_size len) + sizeof_slab_t + size * len := by
  have hm := NoWrap_map_align size len h
  obtain ⟨h1, h2, h3⟩ := h
  unfold slab_init_total_size add64 mul64 sizeof_slab_t WORD
  rw [hm, Nat.mod_eq_of_lt (show size * len < 2 ^ 64 by omega),
    Nat.mod_eq_of_lt (show 8 * (((len + 7) / 8 + 7) / 8) + 16 < 2 ^ 64 by omega),
    Nat.mod_eq_of_lt (by omega)]

theorem slab_init_some (reserve : PageProvider) (calls size len a : Nat)
    (h : reserve calls (slab_init_total_size size len) = some a) :
    slab_init reserve calls size len = (calls + 1, some (fresh_slab len a)) := by
  unfold slab_init_total_size at h
  simp only [slab_init, h]
  rfl

theorem slab_init_none (reserve : PageProvider) (calls size len : Nat)
    (h : reserve calls (slab_init_total_size size len) = none) :
    slab_init reserve calls size len = (calls + 1, none) := by
  unfold slab_init_total_size at h
  simp only [slab_init, h]

theorem bit_replicate_zero (n q : Nat) : bit (List.replicate n 0) q = false := by
  unfold bit
  rw [List.getD_eq_getElem?_getD, List.getElem?_replicate]
  by_cases h : q / 8 < n <;> simp [h]

theorem fresh_slab_mem (size len a : Nat) (hw : NoWrap size len)
    (hfit : a + slab_init_total_size size len < 2 ^ 64) :
    (fresh_slab len a).mem = a + map_align (map_size len) + sizeof_slab_t := by
  rw [NoWrap_total_size size len hw] at hfit
  unfold fresh_slab add64 WORD
  simp only
  rw [Nat.mod_eq_of_lt (show a + map_align (map_size len) < 2 ^ 64 by omega),
    Nat.mod_eq_of_lt (by omega)]

theorem fresh_slab_ok (size len a : Nat) (hw : NoWrap size len) (ha : 0 < a)
    (hfit : a + slab_init_total_size size len < 2 ^ 64) :
    SlabOK size len (fresh_slab len a) := by
  have hmem := fresh_slab_mem size len a hw hfit
  rw [NoWrap_total_size size len hw] at hfit
  refine ⟨by omega, by omega, ?_, ?_⟩
  · intro b hb
    rw [List.eq_of_mem_replicate hb]; omega
  · show _ ≤ (List.replicate _ _).length
    rw [List.length_replicate, NoWrap_map_align size len hw]
    omega

theorem fresh_slab_bit (len a q : Nat) : bit (fresh_slab len a).map q = false :=
  bit_replicate_zero _ q

theorem fresh_slab_lowest_clear (len a : Nat) (hlen : 1 ≤ len) :
    lowest_clear len (fresh_slab len a) 0 :=
  ⟨by omega, fresh_slab_bit len a 0, fun i hi => by omega⟩

/-! ### The loop of `slab_pool_alloc` -/

theorem slab_alloc_take (s : slab_t) (size len q : Nat) (hw : NoWrap size len)
    (hs : SlabOK size len s) (hq : lowest_clear len s q) :
    slab_alloc s size len = (take s q, s.mem + size * q) := by
  obtain ⟨h1, h2, h3⟩ := hw
  obtain ⟨hm, hfit, hb, hl⟩ := hs
  obtain ⟨hq1, hq2, hq3⟩ := hq
  have hle : size * q ≤ size * len := Nat.mul_le_mul_left size (by omega)
  rw [slab_alloc_found s size len q hb (by
    have : len ≤ size * len := Nat.le_mul_of_pos_left len h1
    omega) hq1 hq2 hq3]
  unfold take add64 mul64 WORD
  rw [Nat.mod_eq_of_lt (show size * q < 2 ^ 64 by omega), Nat.mod_eq_of_lt (by omega)]

theorem slab_alloc_is_full (s : slab_t) (size len : Nat) (hw : NoWrap size len)
    (hs : SlabOK size len s) (hf : full len s) : slab_alloc s size len = (s, 0) := by
  obtain ⟨h1, h2, h3⟩ := hw
  have : len ≤ size * len := Nat.le_mul_of_pos_left len h1
  exact slab_alloc_full s size len hs.2.2.1 (by omega) hf

theorem alloc_loop_head_found (reserve : PageProvider) (size len fuel calls q : Nat)
    (s : slab_t) (post : List slab_t) (hw : NoWrap size len) (hs : SlabOK size len s)
    (hq : lowest_clear len s q) :
    slab_pool_alloc_loop reserve size len (fuel + 1) calls (s :: post) =
      some (calls, take s q :: post, Ret.ptr (s.mem + size * q)) := by
  simp only [slab_pool_alloc_loop, slab_alloc_take s size len q hw hs hq]
  rw [if_pos (by have := hs.1; omega)]

theorem alloc_loop_head_full (reserve : PageProvider) (size len fuel calls : Nat)
    (s t : slab_t) (next : List slab_t) (hw : NoWrap size len) (hs : SlabOK size len s)
    (hf : full len s) :
    slab_pool_alloc_loop reserve size len (fuel + 1) calls (s :: t :: next) =
      (slab_pool_alloc_loop reserve size len fuel calls (t :: next)).map
        fun r => (r.1, s :: r.2.1, r.2.2) := by
  simp only [slab_pool_alloc_loop, slab_alloc_is_full s size len hw hs hf]
  simp

theorem alloc_loop_last_full (reserve : PageProvider) (size len fuel calls : Nat)
    (s : slab_t) (hw : NoWrap size len) (hs : SlabOK size len s) (hf : full len s) :
    slab_pool_alloc_loop reserve size len (fuel + 1) calls [s] =
      (slab_pool_alloc_loop reserve size len fuel (slab_init reserve calls size len).1
        (slab_init reserve calls size len).2.toList).map
        fun r => (r.1, s :: r.2.1, r.2.2) := by
  simp only [slab_pool_alloc_loop, slab_alloc_is_full s size len hw hs hf]
  simp

/-- First fit: the slabs of `pre` are full and `s` has a free block, so block `q` of `s` is
handed out. -/
theorem alloc_loop_found (reserve : PageProvider) (size len calls q : Nat) (s : slab_t)
    (post : List slab_t) (hw : NoWrap size len) (hs : SlabOK size len s)
    (hq : lowest_clear len s q) :
    ∀ (pre : List slab_t) (fuel : Nat),
      (∀ t, t ∈ pre → SlabOK size len t ∧ full len t) → pre.length + 1 ≤ fuel →
      slab_pool_alloc_loop reserve size len fuel calls (pre ++ s :: post) =
        some (calls, pre ++ take s q :: post, Ret.ptr (s.mem + size * q)) := by
  intro pre
  induction pre with
  | nil =>
    intro fuel _ hfuel
    obtain ⟨f, rfl⟩ : ∃ f, fuel = f + 1 := ⟨fuel - 1, by simp at hfuel; omega⟩
    exact alloc_loop_head_found reserve size len f calls q s post hw hs hq
  | cons t pre ih =>
    intro fuel hpre hfuel
    obtain ⟨f, rfl⟩ : ∃ f, fuel = f + 1 := ⟨fuel - 1, by simp at hfuel; omega⟩
    have ht := hpre t (List.mem_cons_self _ _)
    have hrest : ∀ u, u ∈ pre → SlabOK size len u ∧ full len u :=
      fun u hu => hpre u (List.mem_cons_of_mem _ hu)
    have hf : pre.length + 1 ≤ f := by simp at hfuel; omega
    cases hpre' : pre ++ s :: post with
    | nil => simp at hpre'
    | cons u next =>
      rw [List.cons_append, hpre', alloc_loop_head_full reserve size len f calls t u next hw
        ht.1 ht.2, ← hpre', ih f hrest hf]
      rfl

/-- Growth: every slab is full and the provider supplies a region at `a`; the new slab is
appended and its block 0 is handed out. -/
theorem alloc_loop_grow (reserve : PageProvider) (size len calls a : Nat)
    (hw : NoWrap size len)
    (hr : reserve calls (slab_init_total_size size len) = some a)
    (hnew : SlabOK size len (fresh_slab len a)) :
    ∀ (chain : List slab_t) (fuel : Nat), chain ≠ [] →
      (∀ t, t ∈ chain → SlabOK size len t ∧ full len t) → chain.length + 1 ≤ fuel →
      slab_pool_alloc_loop reserve size len fuel calls chain =
        some (calls + 1, chain ++ [take (fresh_slab len a) 0],
          Ret.ptr (fresh_slab len a).mem) := by
  intro chain
  induction chain with
  | nil => intro fuel h; exact absurd rfl h
  | cons t chain ih =>
    intro fuel _ hall hfuel
    obtain ⟨f, rfl⟩ : ∃ f, fuel = f + 1 := ⟨fuel - 1, by simp at hfuel; omega⟩
    have ht := hall t (List.mem_cons_self _ _)
    have hf : chain.length + 1 ≤ f := by simp at hfuel; omega
    cases chain with
    | nil =>
      rw [alloc_loop_last_full reserve size len f calls t hw ht.1 ht.2,
        slab_init_some reserve calls size len a hr]
      obtain ⟨g, rfl⟩ : ∃ g, f = g + 1 := ⟨f - 1, by simp at hf; omega⟩
      simp only [Option.toList]
      rw [alloc_loop_head_found reserve size len g (calls + 1) 0 _ [] hw hnew
        (fresh_slab_lowest_clear len a hw.2.1)]
      simp
    | cons u next =>
      rw [alloc_loop_head_full reserve size len f calls t u next hw ht.1 ht.2,
        ih f (by simp) (fun v hv => hall v (List.mem_cons_of_mem _ hv)) hf]
      rfl

/-- Exhaustion: every slab is full and the provider fails; control leaves the loop and reaches
the end of the function, and the chain is as before. -/
theorem alloc_loop_fail (reserve : PageProvider) (size len calls : Nat)
    (hw : NoWrap size len)
    (hr : reserve calls (slab_init_total_size size len) = none) :
    ∀ (chain : List slab_t) (fuel : Nat), chain ≠ [] →
      (∀ t, t ∈ chain → SlabOK size len t ∧ full len t) → chain.length + 1 ≤ fuel →
      slab_pool_alloc_loop reserve size len fuel calls chain =
        some (calls + 1, chain, Ret.fallthrough) := by
  intro chain
  induction chain with
  | nil => intro fuel h; exact absurd rfl h
  | cons t chain ih =>
    intro fuel _ hall hfuel
    obtain ⟨f, rfl⟩ : ∃ f, fuel = f + 1 := ⟨fuel - 1, by simp at hfuel; omega⟩
    have ht := hall t (List.mem_cons_self _ _)
    have hf : chain.length + 1 ≤ f := by simp at hfuel; omega
    cases chain with
    | nil =>
      rw [alloc_loop_last_full reserve size len f calls t hw ht.1 ht.2,
        slab_init_none reserve calls size len hr]
      obtain ⟨g, rfl⟩ : ∃ g, f = g + 1 := ⟨f - 1, by simp at hf; omega⟩
      simp [Option.toList, slab_pool_alloc_loop]
    | cons u next =>
      rw [alloc_loop_head_full reserve size len f calls t u next hw ht.1 ht.2,
        ih f (by simp) (fun v hv => hall v (List.mem_cons_of_mem _ hv)) hf]
      rfl

theorem exists_lowest_clear (len : Nat) (s : slab_t) (h : ¬ full len s) :
    ∃ q, lowest_clear len s q := by
  have hex : ∃ q, q < len ∧ bit s.map q = false := by
    unfold full at h
    by_contra hc
    apply h
    intro p hp
    cases hb : bit s.map p with
    | true => rfl
    | false => exact absurd ⟨p, hp, hb⟩ hc
  refine ⟨Nat.find hex, (Nat.find_spec hex).1, (Nat.find_spec hex).2, ?_⟩
  intro i hi
  cases hb : bit s.map i with
  | true => rfl
  | false =>
    exact absurd ⟨by have := (Nat.find_spec hex).1; omega, hb⟩ (Nat.find_min hex hi)

theorem first_nonfull (len : Nat) (chain : List slab_t) :
    AllFull len chain ∨ ∃ pre s post q, chain = pre ++ s :: post ∧ AllFull len pre ∧
      lowest_clear len s q := by
  induction chain with
  | nil => left; intro t ht; cases ht
  | cons t chain ih =>
    by_cases hf : full len t
    · rcases ih with h | ⟨pre, s, post, q, h1, h2, h3⟩
      · left
        intro u hu
        rcases List.mem_cons.mp hu with rfl | hu
        · exact hf
        · exact h u hu
      · right
        refine ⟨t :: pre, s, post, q, by rw [h1]; rfl, ?_, h3⟩
        intro u hu
        rcases List.mem_cons.mp hu with rfl | hu
        · exact hf
        · exact h2 u hu
    · right
      obtain ⟨q, hq⟩ := exists_lowest_clear len t hf
      exact ⟨[], t, chain, q, rfl, fun u hu => absurd hu (List.not_mem_nil u), hq⟩

/-- The loop of `slab_pool_alloc` terminates within `chain.length + 2` tests of its condition and
does one of the four things of `AllocStep`. -/
theorem alloc_loop_step (reserve : PageProvider) (size len calls fuel : Nat)
    (chain : List slab_t) (hw : NoWrap size len)
    (hp : ProviderOK reserve (slab_init_total_size size len))
    (hok : ∀ s, s ∈ chain → SlabOK size len s) (hfuel : chain.length + 2 ≤ fuel) :
    ∃ calls' chain' r, slab_pool_alloc_loop reserve size len fuel calls chain =
        some (calls', chain', r) ∧ AllocStep reserve size len calls chain calls' chain' r := by
  rcases first_nonfull len chain with hall | ⟨pre, s, post, q, h1, h2, h3⟩
  · by_cases hne : chain = []
    · subst hne
      obtain ⟨f, rfl⟩ : ∃ f, fuel = f + 1 := ⟨fuel - 1, by omega⟩
      exact ⟨calls, [], Ret.fallthrough, rfl, AllocStep.empty calls⟩
    · cases hr : reserve calls (slab_init_total_size size len) with
      | none =>
        exact ⟨_, _, _, alloc_loop_fail reserve size len calls hw hr chain fuel hne
          (fun t ht => ⟨hok t ht, hall t ht⟩) (by omega), AllocStep.fail calls chain hne hall hr⟩
      | some a =>
        have ha := hp.1 calls a hr
        exact ⟨_, _, _, alloc_loop_grow reserve size len calls a hw hr
          (fresh_slab_ok size len a hw ha.1 ha.2) chain fuel hne
          (fun t ht => ⟨hok t ht, hall t ht⟩) (by omega), AllocStep.grow calls chain a hne hall hr⟩
  · subst h1
    refine ⟨_, _, _, alloc_loop_found reserve size len calls q s post hw
      (hok s (by simp)) h3 pre fuel
      (fun t ht => ⟨hok t (by simp [ht]), h2 t ht⟩) ?_, AllocStep.found calls pre s post q h2 h3⟩
    simp at hfuel; omega

/-! ### The loop of `slab_pool_free` -/

theorem free_loop_step (size len p : Nat) (chain : List slab_t)
    (hfit : ∀ s, s ∈ chain → s.mem + size * len < 2 ^ 64) :
    FreeStep size len p chain (slab_pool_free_loop p size len chain) := by
  induction chain with
  | nil => exact FreeStep.unowned [] (fun t ht => absurd ht (List.not_mem_nil t))
  | cons t chain ih =>
    have ht := hfit t (List.mem_cons_self _ _)
    by_cases hin : in_arena t size len p
    · simp only [slab_pool_free_loop, slab_free_in t p size len ht hin]
      exact FreeStep.owned [] t chain (fun u hu => absurd hu (List.not_mem_nil u)) hin
    · simp only [slab_pool_free_loop, slab_free_out t p size len ht hin]
      rw [if_neg (by omega)]
      have h := ih (fun s hs => hfit s (List.mem_cons_of_mem _ hs))
      generalize slab_pool_free_loop p size len chain = out at h
      cases h with
      | unowned _ hall =>
        refine FreeStep.unowned (t :: chain) ?_
        intro u hu
        rcases List.mem_cons.mp hu with rfl | hu
        · exact hin
        · exact hall u hu
      | owned pre s post hpre hs =>
        refine FreeStep.owned (t :: pre) s post ?_ hs
        intro u hu
        rcases List.mem_cons.mp hu with rfl | hu
        · exact hin
        · exact hpre u hu

/-! ### The invariant -/

theorem SlabOK_take (size len q : Nat) (s : slab_t) (h : SlabOK size len s) :
    SlabOK size len (take s q) :=
  ⟨h.1, h.2.1, Bytes_set_bit s.map h.2.2.1 q, by
    show _ ≤ (set_bit s.map q).length
    unfold set_bit; rw [List.length_set]; exact h.2.2.2⟩

theorem SlabOK_give (size len q : Nat) (s : slab_t) (h : SlabOK size len s) :
    SlabOK size len (give s q) :=
  ⟨h.1, h.2.1, Bytes_clear_bit s.map h.2.2.1 q, by
    show _ ≤ (clear_bit s.map q).length
    unfold clear_bit; rw [List.length_set]; exact h.2.2.2⟩

theorem forall_mem_replace {Q : slab_t → Prop} (pre post : List slab_t) (s s' : slab_t)
    (h : ∀ t, t ∈ pre ++ s :: post → Q t) (hs : Q s') :
    ∀ t, t ∈ pre ++ s' :: post → Q t := by
  intro t ht
  rcases List.mem_append.mp ht with h1 | h1
  · exact h t (List.mem_append_left _ h1)
  · rcases List.mem_cons.mp h1 with rfl | h2
    · exact hs
    · exact h t (List.mem_append_right _ (List.mem_cons_of_mem _ h2))

theorem ArenasDisjoint_replace (size len : Nat) (pre post : List slab_t) (s s' : slab_t)
    (hm : s'.mem = s.mem) (h : ArenasDisjoint size len (pre ++ s :: post)) :
    ArenasDisjoint size len (pre ++ s' :: post) := by
  unfold ArenasDisjoint at *
  simpa [hm] using h

theorem disjoint_of_mem (size len : Nat) (pre post : List slab_t) (s t : slab_t)
    (h : ArenasDisjoint size len (pre ++ s :: post)) (ht : t ∈ pre ∨ t ∈ post) :
    t.mem + size * len ≤ s.mem ∨ s.mem + size * len ≤ t.mem := by
  unfold ArenasDisjoint at h
  rw [List.map_append, List.map_cons, List.pairwise_append] at h
  obtain ⟨_, h2, h3⟩ := h
  rcases ht with ht | ht
  · exact h3 t.mem (List.mem_map_of_mem _ ht) s.mem (List.mem_cons_self _ _)
  · have := (List.pairwise_cons.mp h2).1 t.mem (List.mem_map_of_mem _ ht)
    omega

theorem ArenasDisjoint_append (size len : Nat) (chain : List slab_t) (s : slab_t)
    (h : ArenasDisjoint size len chain)
    (hs : ∀ t, t ∈ chain → t.mem + size * len ≤ s.mem ∨ s.mem + size * len ≤ t.mem) :
    ArenasDisjoint size len (chain ++ [s]) := by
  unfold ArenasDisjoint at *
  rw [List.map_append, List.pairwise_append]
  refine ⟨h, by simp, ?_⟩
  intro a ha b hb
  obtain ⟨t, ht, rfl⟩ := List.mem_map.mp ha
  simp at hb
  subst hb
  exact hs t ht

/-- A slab built in the region of a later reservation is well formed, comes from the provider
and its arena is disjoint from the arenas of the chain. -/
theorem Inv_append_fresh (reserve : PageProvider) (calls a : Nat) (self : slab_pool_t)
    (h : Inv reserve calls self)
    (hr : reserve calls (slab_init_total_size self.size self.len) = some a) :
    Inv reserve (calls + 1) { self with head := self.head ++ [fresh_slab self.len a] } := by
  obtain ⟨⟨hw, hok, hdis⟩, hfrom, hp⟩ := h
  have ha := hp.1 calls a hr
  have hmem := fresh_slab_mem self.size self.len a hw ha.2
  have htot := NoWrap_total_size self.size self.len hw
  refine ⟨⟨hw, ?_, ?_⟩, ?_, hp⟩
  · intro s hs
    rcases List.mem_append.mp hs with h1 | h1
    · exact hok s h1
    · simp at h1; subst h1
      exact fresh_slab_ok self.size self.len a hw ha.1 ha.2
  · apply ArenasDisjoint_append _ _ _ _ hdis
    intro t ht
    obtain ⟨n, hn, hrn, hmt⟩ := hfrom t ht
    have := hp.2 n calls t.map_addr a (by omega) hrn hr
    rw [hmem, hmt]
    rw [htot] at this
    omega
  · intro s hs
    rcases List.mem_append.mp hs with h1 | h1
    · obtain ⟨n, hn, h2⟩ := hfrom s h1
      exact ⟨n, by omega, h2⟩
    · simp at h1; subst h1
      exact ⟨calls, by omega, hr, hmem⟩

theorem Inv_replace (reserve : PageProvider) (calls : Nat) (self : slab_pool_t)
    (pre post : List slab_t) (s s' : slab_t) (hhead : self.head = pre ++ s :: post)
    (hmem : s'.mem = s.mem) (haddr : s'.map_addr = s.map_addr)
    (hok : SlabOK self.size self.len s → SlabOK self.size self.len s')
    (h : Inv reserve calls self) :
    Inv reserve calls { self with head := pre ++ s' :: post } := by
  obtain ⟨⟨hw, hsl, hdis⟩, hfrom, hp⟩ := h
  rw [hhead] at hsl hdis hfrom
  refine ⟨⟨hw, ?_, ArenasDisjoint_replace _ _ pre post s s' hmem hdis⟩, ?_, hp⟩
  · exact forall_mem_replace pre post s s' hsl (hok (hsl s (by simp)))
  · apply @forall_mem_replace (fun s => ∃ n, n < calls ∧
      reserve n (slab_init_total_size self.size self.len) = some s.map_addr ∧
      s.mem = s.map_addr + map_align (map_size self.len) + sizeof_slab_t) pre post s s' hfrom
    rw [hmem, haddr]
    exact hfrom s (by simp)

theorem Inv_calls_succ (reserve : PageProvider) (calls : Nat) (self : slab_pool_t)
    (h : Inv reserve calls self) : Inv reserve (calls + 1) self := by
  obtain ⟨h1, hfrom, hp⟩ := h
  refine ⟨h1, ?_, hp⟩
  intro s hs
  obtain ⟨n, hn, h2⟩ := hfrom s hs
  exact ⟨n, by omega, h2⟩

theorem AllocStep_Inv (reserve : PageProvider) (calls calls' : Nat) (self : slab_pool_t)
    (chain' : List slab_t) (r : Ret) (h : Inv reserve calls self)
    (hstep : AllocStep reserve self.size self.len calls self.head calls' chain' r) :
    Inv reserve calls' { self with head := chain' } := by
  generalize hc : self.head = chain at hstep
  cases hstep with
  | found pre s post q hpre hq =>
    exact Inv_replace reserve calls self pre post s (take s q) hc rfl rfl
      (SlabOK_take _ _ q s) h
  | grow _ a hne hall hr =>
    have h1 := Inv_append_fresh reserve calls a self h hr
    have h2 := Inv_replace reserve (calls + 1)
      { self with head := self.head ++ [fresh_slab self.len a] } self.head []
      (fresh_slab self.len a) (take (fresh_slab self.len a) 0) rfl rfl rfl
      (SlabOK_take _ _ 0 _) h1
    rw [← hc]
    exact h2
  | fail _ hne hall hr =>
    have := Inv_calls_succ reserve calls self h
    rw [← hc]
    exact this
  | empty =>
    rw [← hc]
    exact h

/-- One call of `slab_pool_alloc` on a well-formed pool returns within `length + 2` tests of the
loop condition, does one of the four things of `AllocStep`, keeps `size` and `len`, and leaves a
well-formed pool. -/
theorem slab_pool_alloc_step (reserve : PageProvider) (fuel calls : Nat) (self : slab_pool_t)
    (h : Inv reserve calls self) (hfuel : self.head.length + 2 ≤ fuel) :
    ∃ calls' chain' r,
      slab_pool_alloc reserve fuel calls self = some (calls', { self with head := chain' }, r) ∧
      AllocStep reserve self.size self.len calls self.head calls' chain' r ∧
      Inv reserve calls' { self with head := chain' } := by
  obtain ⟨calls', chain', r, h1, h2⟩ :=
    alloc_loop_step reserve self.size self.len calls fuel self.head h.1.1 h.2.2 h.1.2.1 hfuel
  refine ⟨calls', chain', r, ?_, h2, AllocStep_Inv reserve calls calls' self chain' r h h2⟩
  unfold slab_pool_alloc
  rw [h1]
  rfl

theorem FreeStep_Inv (reserve : PageProvider) (calls p : Nat) (self : slab_pool_t)
    (chain' : List slab_t) (h : Inv reserve calls self)
    (hstep : FreeStep self.size self.len p self.head chain') :
    Inv reserve calls { self with head := chain' } := by
  generalize hc : self.head = chain at hstep
  cases hstep with
  | unowned hall => rw [← hc]; exact h
  | owned pre s post hpre hs =>
    exact Inv_replace reserve calls self pre post s _ hc rfl rfl (SlabOK_give _ _ _ s) h

/-- One call of `slab_pool_free` on a well-formed pool does one of the two things of `FreeStep`
and leaves a well-formed pool. -/
theorem slab_pool_free_step (reserve : PageProvider) (calls p : Nat) (self : slab_pool_t)
    (h : Inv reserve calls self) :
    FreeStep self.size self.len p self.head (slab_pool_free self p).head ∧
      Inv reserve calls (slab_pool_free self p) := by
  have h1 : FreeStep self.size self.len p self.head (slab_pool_free self p).head :=
    free_loop_step self.size self.len p self.head (fun s hs => (h.1.2.1 s hs).2.1)
  exact ⟨h1, FreeStep_Inv reserve calls p self _ h h1⟩

/-- A pool just initialised, on a provider that keeps its contract and for parameters that do
not wrap, is well formed. -/
theorem slab_pool_init_Inv (reserve : PageProvider) (calls size len : Nat)
    (hw : NoWrap size len) (hp : ProviderOK reserve (slab_init_total_size size len)) :
    Inv reserve (slab_pool_init reserve calls size len).1
      (slab_pool_init reserve calls size len).2 := by
  have hempty : Inv reserve calls { head := [], size := size, len := len } :=
    ⟨⟨hw, fun s hs => absurd hs (List.not_mem_nil s), List.Pairwise.nil⟩,
      fun s hs => absurd hs (List.not_mem_nil s), hp⟩
  cases hr : reserve calls (slab_init_total_size size len) with
  | none =>
    simp only [slab_pool_init, slab_init_none reserve calls size len hr, Option.toList]
    exact Inv_calls_succ reserve calls _ hempty
  | some a =>
    simp only [slab_pool_init, slab_init_some reserve calls size len a hr, Option.toList]
    exact Inv_append_fresh reserve calls a _ hempty hr

theorem slab_pool_init_some (reserve : PageProvider) (calls size len a : Nat)
    (hr : reserve calls (slab_init_total_size size len) = some a) :
    slab_pool_init reserve calls size len =
      (calls + 1, { head := [fresh_slab len a], size := size, len := len }) := by
  simp only [slab_pool_init, slab_init_some reserve calls size len a hr, Option.toList]

theorem slab_pool_init_none (reserve : PageProvider) (calls size len : Nat)
    (hr : reserve calls (slab_init_total_size size len) = none) :
    slab_pool_init reserve calls size len =
      (calls + 1, { head := [], size := size, len := len }) := by
  simp only [slab_pool_init, slab_init_none reserve calls size len hr, Option.toList]

/-! ### Bitmaps and outstanding addresses -/

theorem block_end_le (size len i : Nat) (hi : i < len) : size * i + size ≤ size * len := by
  have := Nat.mul_le_mul_left size (show i + 1 ≤ len by omega)
  rw [Nat.mul_add, Nat.mul_one] at this
  exact this

theorem block_inj (size i j : Nat) (hs : 1 ≤ size) (h : size * i = size * j) : i = j :=
  Nat.eq_of_mul_eq_mul_left (by omega) h

theorem block_in_arena (size len i : Nat) (s : slab_t) (hs : 1 ≤ size) (hi : i < len) :
    in_arena s size len (s.mem + size * i) := by
  have := block_end_le size len i hi
  unfold in_arena
  omega

theorem block_index (size i : Nat) (m : Nat) (hs : 1 ≤ size) :
    (m + size * i - m) / size = i := by
  rw [Nat.add_sub_cancel_left, Nat.mul_div_cancel_left i (by omega)]

theorem not_in_arena_of_disjoint (size len p : Nat) (s t : slab_t)
    (hd : t.mem + size * len ≤ s.mem ∨ s.mem + size * len ≤ t.mem)
    (hs : in_arena s size len p) : ¬ in_arena t size len p := by
  unfold in_arena at *
  omega

theorem mem_split {t : slab_t} {pre post : List slab_t} {s : slab_t}
    (h : t ∈ pre ++ s :: post) : t = s ∨ t ∈ pre ∨ t ∈ post := by
  rcases List.mem_append.mp h with h1 | h1
  · exact Or.inr (Or.inl h1)
  · rcases List.mem_cons.mp h1 with h2 | h2
    · exact Or.inl h2
    · exact Or.inr (Or.inr h2)

/-- Handing out block `q` of `s` adds its address to the outstanding addresses, and that address
was not outstanding before. -/
theorem alloc_Occupancy (size len q : Nat) (pre post : List slab_t) (s : slab_t)
    (out : List Nat) (hsize : 1 ≤ size) (hdis : ArenasDisjoint size len (pre ++ s :: post))
    (hlen : (len + 7) / 8 ≤ s.map.length) (hq : lowest_clear len s q)
    (hocc : Occupancy size len (pre ++ s :: post) out) :
    Occupancy size len (pre ++ take s q :: post) ((s.mem + size * q) :: out) ∧
      s.mem + size * q ∉ out := by
  obtain ⟨hq1, hq2, hq3⟩ := hq
  have hnot : s.mem + size * q ∉ out := by
    intro h
    have := (hocc s (by simp) q).mpr ⟨hq1, h⟩
    rw [hq2] at this; cases this
  refine ⟨?_, hnot⟩
  intro t ht i
  rcases mem_split ht with h1 | h1
  · subst h1
    show bit (set_bit s.map q) i = true ↔ _
    rw [bit_set_bit s.map q i (by omega), Bool.or_eq_true, decide_eq_true_eq,
      hocc s (by simp) i, List.mem_cons]
    show _ ↔ (i < len ∧ (s.mem + size * i = s.mem + size * q ∨ _))
    constructor
    · rintro (h | ⟨h2, h3⟩)
      · subst h; exact ⟨hq1, Or.inl rfl⟩
      · exact ⟨h2, Or.inr h3⟩
    · rintro ⟨h2, h3 | h3⟩
      · exact Or.inl (block_inj size i q hsize (by omega))
      · exact Or.inr ⟨h2, h3⟩
  · have hd := disjoint_of_mem size len pre post s t hdis h1
    have htm : t ∈ pre ++ s :: post := by
      rcases h1 with h1 | h1
      · exact List.mem_append_left _ h1
      · exact List.mem_append_right _ (List.mem_cons_of_mem _ h1)
    rw [hocc t htm i, List.mem_cons]
    constructor
    · rintro ⟨h2, h3⟩; exact ⟨h2, Or.inr h3⟩
    · rintro ⟨h2, h3 | h3⟩
      · exfalso
        have ha := block_in_arena size len q s hsize hq1
        have hb := block_in_arena size len i t hsize h2
        rw [h3] at hb
        exact not_in_arena_of_disjoint size len _ s t hd ha hb
      · exact ⟨h2, h3⟩

theorem Owned_alloc (size len q : Nat) (pre post : List slab_t) (s : slab_t) (out : List Nat)
    (hq : q < len) (h : Owned size len (pre ++ s :: post) out) :
    Owned size len (pre ++ take s q :: post) ((s.mem + size * q) :: out) := by
  intro p hp
  rcases List.mem_cons.mp hp with rfl | hp
  · exact ⟨take s q, by simp, q, hq, rfl⟩
  · obtain ⟨t, ht, i, hi, hpi⟩ := h p hp
    rcases mem_split ht with h1 | h1
    · subst h1; exact ⟨take t q, by simp, i, hi, hpi⟩
    · refine ⟨t, ?_, i, hi, hpi⟩
      rcases h1 with h1 | h1
      · exact List.mem_append_left _ h1
      · exact List.mem_append_right _ (List.mem_cons_of_mem _ h1)

/-- A slab with an empty bitmap whose arena is disjoint from the others can join the chain. -/
theorem Occupancy_append (size len : Nat) (chain : List slab_t) (s : slab_t) (out : List Nat)
    (hsize : 1 ≤ size) (hdis : ArenasDisjoint size len (chain ++ [s]))
    (hclear : ∀ i, bit s.map i = false) (hown : Owned size len chain out)
    (hocc : Occupancy size len chain out) :
    Occupancy size len (chain ++ [s]) out ∧ Owned size len (chain ++ [s]) out := by
  constructor
  · intro t ht i
    rcases mem_split ht with h1 | h1 | h1
    · subst h1
      rw [hclear i]
      constructor
      · intro h; cases h
      · rintro ⟨h2, h3⟩
        exfalso
        obtain ⟨u, hu, j, hj, hpj⟩ := hown _ h3
        have hd := disjoint_of_mem size len chain [] t u hdis (Or.inl hu)
        have ha := block_in_arena size len i t hsize h2
        have hb := block_in_arena size len j u hsize hj
        rw [← hpj] at hb
        exact not_in_arena_of_disjoint size len _ t u hd ha hb
    · exact hocc t h1 i
    · cases h1
  · intro p hp
    obtain ⟨u, hu, j, hj, hpj⟩ := hown p hp
    exact ⟨u, List.mem_append_left _ hu, j, hj, hpj⟩

/-- Freeing the start of a block, or an address outside every arena, removes that address from
the outstanding addresses and changes nothing else. -/
theorem free_Occupancy (size len p : Nat) (chain chain' : List slab_t) (out : List Nat)
    (hsize : 1 ≤ size) (hdis : ArenasDisjoint size len chain)
    (hlen : ∀ s, s ∈ chain → (len + 7) / 8 ≤ s.map.length)
    (hp : BlockStart size len chain p ∨ ∀ t, t ∈ chain → ¬ in_arena t size len p)
    (hown : Owned size len chain out) (hocc : Occupancy size len chain out)
    (hstep : FreeStep size len p chain chain') :
    Occupancy size len chain' (out.filter fun x => decide (x ≠ p)) ∧
      Owned size len chain' (out.filter fun x => decide (x ≠ p)) := by
  cases hstep with
  | unowned _ hall =>
    have hnot : p ∉ out := by
      intro h
      obtain ⟨u, hu, j, hj, hpj⟩ := hown p h
      exact hall u hu (by rw [hpj]; exact block_in_arena size len j u hsize hj)
    have hf : (out.filter fun x => decide (x ≠ p)) = out := by
      rw [List.filter_eq_self]
      intro a ha
      simp only [decide_eq_true_eq]
      intro h; subst h; exact hnot ha
    rw [hf]
    exact ⟨hocc, hown⟩
  | owned pre s post hpre hs =>
    have hblock : ∃ i, i < len ∧ p = s.mem + size * i := by
      rcases hp with ⟨u, hu, j, hj, hpj⟩ | hout
      · have hu_in := block_in_arena size len j u hsize hj
        rw [← hpj] at hu_in
        rcases mem_split hu with h1 | h1
        · subst h1; exact ⟨j, hj, hpj⟩
        · exfalso
          rcases h1 with h1 | h1
          · exact hpre u h1 hu_in
          · exact not_in_arena_of_disjoint size len p s u
              (disjoint_of_mem size len pre post s u hdis (Or.inr h1)) hs hu_in
      · exact absurd hs (hout s (by simp))
    obtain ⟨i, hi, hpi⟩ := hblock
    have hidx : (p - s.mem) / size = i := by rw [hpi]; exact block_index size i s.mem hsize
    rw [hidx]
    constructor
    · intro t ht j
      rw [List.mem_filter]
      simp only [decide_eq_true_eq]
      rcases mem_split ht with h1 | h1
      · subst h1
        show bit (clear_bit s.map i) j = true ↔ _
        have hl := hlen s (by simp)
        rw [bit_clear_bit s.map i j (by omega), Bool.and_eq_true, decide_eq_true_eq,
          hocc s (by simp) j]
        show _ ↔ (j < len ∧ s.mem + size * j ∈ out ∧ s.mem + size * j ≠ p)
        constructor
        · rintro ⟨h1, h2, h3⟩
          refine ⟨h2, h3, ?_⟩
          intro h; apply h1
          exact block_inj size j i hsize (by omega)
        · rintro ⟨h1, h2, h3⟩
          refine ⟨?_, h1, h2⟩
          intro h; subst h; exact h3 hpi.symm
      · have hd := disjoint_of_mem size len pre post s t hdis h1
        have htm : t ∈ pre ++ s :: post := by
          rcases h1 with h1 | h1
          · exact List.mem_append_left _ h1
          · exact List.mem_append_right _ (List.mem_cons_of_mem _ h1)
        rw [hocc t htm j]
        constructor
        · rintro ⟨h2, h3⟩
          refine ⟨h2, h3, ?_⟩
          intro h
          have hb := block_in_arena size len j t hsize h2
          rw [h] at hb
          exact not_in_arena_of_disjoint size len _ s t hd hs hb
        · rintro ⟨h2, h3, _⟩; exact ⟨h2, h3⟩
    · intro x hx
      rw [List.mem_filter] at hx
      obtain ⟨t, ht, j, hj, hxj⟩ := hown x hx.1
      rcases mem_split ht with h1 | h1
      · subst h1; exact ⟨give t i, by simp, j, hj, hxj⟩
      · refine ⟨t, ?_, j, hj, hxj⟩
        rcases h1 with h1 | h1
        · exact List.mem_append_left _ h1
        · exact List.mem_append_right _ (List.mem_cons_of_mem _ h1)

/-! ### Fuel -/

theorem alloc_loop_fuel_succ (reserve : PageProvider) (size len : Nat) :
    ∀ (fuel calls : Nat) (chain : List slab_t) (r : Nat × List slab_t × Ret),
      slab_pool_alloc_loop reserve size len fuel calls chain = some r →
      slab_pool_alloc_loop reserve size len (fuel + 1) calls chain = some r := by
  intro fuel
  induction fuel with
  | zero => intro calls chain r h; simp [slab_pool_alloc_loop] at h
  | succ fuel ih =>
    intro calls chain r h
    cases chain with
    | nil => simpa [slab_pool_alloc_loop] using h
    | cons curr next =>
      simp only [slab_pool_alloc_loop] at h ⊢
      by_cases hres : (slab_alloc curr size len).2 ≠ 0
      · rw [if_pos hres] at h ⊢; exact h
      · rw [if_neg hres] at h ⊢
        rw [Option.map_eq_some'] at h ⊢
        obtain ⟨t, ht, hr⟩ := h
        exact ⟨t, ih _ _ t ht, hr⟩

theorem alloc_loop_fuel_le (reserve : PageProvider) (size len fuel calls : Nat)
    (chain : List slab_t) (r : Nat × List slab_t × Ret)
    (h : slab_pool_alloc_loop reserve size len fuel calls chain = some r) :
    ∀ k, slab_pool_alloc_loop reserve size len (fuel + k) calls chain = some r := by
  intro k
  induction k with
  | zero => exact h
  | succ k ih => exact alloc_loop_fuel_succ reserve size len (fuel + k) calls chain r ih

/-- The result of `slab_pool_alloc` does not depend on the bound, once it returns. -/
theorem alloc_fuel_irrelevant (reserve : PageProvider) (fuel fuel' calls : Nat)
    (self : slab_pool_t) (r r' : Nat × slab_pool_t × Ret)
    (h : slab_pool_alloc reserve fuel calls self = some r)
    (h' : slab_pool_alloc reserve fuel' calls self = some r') : r = r' := by
  unfold slab_pool_alloc at h h'
  rw [Option.map_eq_some'] at h h'
  obtain ⟨t, ht, hr⟩ := h
  obtain ⟨t', ht', hr'⟩ := h'
  have h1 := alloc_loop_fuel_le reserve self.size self.len fuel calls self.head t ht fuel'
  have h2 := alloc_loop_fuel_le reserve self.size self.len fuel' calls self.head t' ht' fuel
  rw [Nat.add_comm] at h2
  rw [h1] at h2
  cases h2
  rw [← hr, ← hr']

/-- A call of `slab_pool_alloc` that returns, on a well-formed pool, did one of the four things
of `AllocStep` and left a well-formed pool. -/
theorem alloc_returns (reserve : PageProvider) (fuel calls calls' : Nat)
    (self self' : slab_pool_t) (r : Ret) (h : Inv reserve calls self)
    (hret : slab_pool_alloc reserve fuel calls self = some (calls', self', r)) :
    self' = { self with head := self'.head } ∧
      AllocStep reserve self.size self.len calls self.head calls' self'.head r ∧
      Inv reserve calls' self' := by
  obtain ⟨c, chain, r0, h1, h2, h3⟩ :=
    slab_pool_alloc_step reserve (self.head.length + 2) calls self h (Nat.le_refl _)
  have := alloc_fuel_irrelevant reserve _ _ calls self _ _ hret h1
  cases this
  exact ⟨rfl, h2, h3⟩

/-- Reachable pools are well formed and keep their parameters. -/
theorem Reach_Inv (reserve : PageProvider) (size len calls : Nat) (self : slab_pool_t)
    (ever : List Nat) (hw : NoWrap size len)
    (hp : ProviderOK reserve (slab_init_total_size size len))
    (h : Reach reserve size len calls self ever) :
    Inv reserve calls self ∧ self.size = size ∧ self.len = len := by
  induction h with
  | init calls => exact ⟨slab_pool_init_Inv reserve calls size len hw hp, rfl, rfl⟩
  | alloc fuel calls calls' self self' ever r _ hret ih =>
    obtain ⟨h1, h2, h3⟩ := alloc_returns reserve fuel calls calls' self self' r ih.1 hret
    refine ⟨h3, ?_, ?_⟩
    · rw [h1]; exact ih.2.1
    · rw [h1]; exact ih.2.2
  | free calls self ever p _ ih =>
    exact ⟨(slab_pool_free_step reserve calls p self ih.1).2, ih.2.1, ih.2.2⟩

/-! ### Giving a block back and taking it again -/

theorem free_loop_at (size len p : Nat) (s : slab_t) (post : List slab_t)
    (hs : s.mem + size * len < 2 ^ 64) (hin : in_arena s size len p) :
    ∀ pre : List slab_t,
      (∀ t, t ∈ pre → t.mem + size * len < 2 ^ 64 ∧ ¬ in_arena t size len p) →
      slab_pool_free_loop p size len (pre ++ s :: post) =
        pre ++ give s ((p - s.mem) / size) :: post := by
  intro pre
  induction pre with
  | nil =>
    intro _
    simp only [List.nil_append, slab_pool_free_loop, slab_free_in s p size len hs hin]
    rfl
  | cons t pre ih =>
    intro h
    have ht := h t (List.mem_cons_self _ _)
    have hih := ih (fun u hu => h u (List.mem_cons_of_mem _ hu))
    rw [List.cons_append]
    simp only [slab_pool_free_loop, slab_free_out t p size len ht.1 ht.2]
    rw [if_neg (by omega), hih]
    rfl

theorem bit_give_take (s : slab_t) (q i : Nat) (hlen : q / 8 < s.map.length)
    (hq : bit s.map q = false) : bit (give (take s q) q).map i = bit s.map i := by
  show bit (clear_bit (set_bit s.map q) q) i = _
  rw [bit_clear_bit _ q i (by unfold set_bit; rw [List.length_set]; exact hlen),
    bit_set_bit _ q i hlen]
  by_cases h : i = q
  · subst h; simp [hq]
  · simp [h]

/-- In a chain with disjoint arenas, freeing block `q` of the slab `s` that has just handed it
out gives it back to `s`, and the next allocation hands it out again. -/
theorem free_then_alloc (reserve : PageProvider) (size len calls q fuel : Nat)
    (pre post : List slab_t) (s : slab_t) (hw : NoWrap size len)
    (hok : ∀ t, t ∈ pre ++ take s q :: post → SlabOK size len t)
    (hdis : ArenasDisjoint size len (pre ++ take s q :: post))
    (hfull : AllFull len pre) (hq : lowest_clear len s q)
    (hfuel : pre.length + 1 ≤ fuel) :
    ∃ chain', slab_pool_alloc_loop reserve size len fuel calls
        (slab_pool_free_loop (s.mem + size * q) size len (pre ++ take s q :: post)) =
      some (calls, chain', Ret.ptr (s.mem + size * q)) := by
  have hs := hok (take s q) (by simp)
  have hin : in_arena (take s q) size len (s.mem + size * q) :=
    block_in_arena size len q (take s q) hw.1 hq.1
  have hlen : q / 8 < s.map.length := by
    have h1 : (len + 7) / 8 ≤ (take s q).map.length := hs.2.2.2
    have h2 : (take s q).map.length = s.map.length := by
      show (set_bit s.map q).length = _
      unfold set_bit; rw [List.length_set]
    have := hq.1
    omega
  rw [free_loop_at size len _ (take s q) post hs.2.1 hin pre (fun t ht =>
    ⟨(hok t (List.mem_append_left _ ht)).2.1,
      not_in_arena_of_disjoint size len _ (take s q) t
        (disjoint_of_mem size len pre post (take s q) t hdis (Or.inl ht)) hin⟩)]
  have hidx : (s.mem + size * q - (take s q).mem) / size = q := block_index size q s.mem hw.1
  rw [hidx]
  have hq' : lowest_clear len (give (take s q) q) q := by
    refine ⟨hq.1, ?_, ?_⟩
    · rw [bit_give_take s q q hlen hq.2.1]; exact hq.2.1
    · intro i hi
      rw [bit_give_take s q i hlen hq.2.1]; exact hq.2.2 i hi
  have := alloc_loop_found reserve size len calls q (give (take s q) q) post hw
    (SlabOK_give size len q _ hs) hq' pre fuel
    (fun t ht => ⟨hok t (List.mem_append_left _ ht), hfull t ht⟩) hfuel
  exact ⟨_, this⟩

/-! ### The example providers -/

theorem demo_provider_ok (bytes : Nat) (h : bytes ≤ 65536) : ProviderOK demo_provider bytes := by
  constructor
  · intro n a hn
    unfold demo_provider at hn
    split at hn
    · cases hn; omega
    · cases hn
  · intro n m a b hnm hn hm
    unfold demo_provider at hn hm
    split at hn
    · split at hm
      · cases hn; cases hm; omega
      · cases hm
    · cases hn

theorem one_region_ok (bytes : Nat) (h : bytes < 2 ^ 63) : ProviderOK one_region bytes := by
  constructor
  · intro n a hn
    unfold one_region at hn
    split at hn
    · cases hn; omega
    · cases hn
  · intro n m a b hnm hn hm
    unfold one_region at hn hm
    split at hn
    · split at hm
      · omega
      · cases hm
    · cases hn

/-! ### C4: allocate, free, allocate -/

/-- C4 (as amended): in a pool reachable from a fresh pool whose parameters do not wrap
(`NoWrap`) and whose provider keeps its contract, when `slab_pool_alloc` returns `p1` and
`slab_pool_free p1` follows, the next `slab_pool_alloc` returns `p1` again, without a new
reservation. -/
theorem alloc_free_alloc_same_pointer (reserve : PageProvider)
    (size len calls c1 p1 fuel fuel' : Nat) (self self1 : slab_pool_t) (ever : List Nat)
    (hw : NoWrap size len) (hp : ProviderOK reserve (slab_init_total_size size len))
    (hreach : Reach reserve size len calls self ever)
    (h1 : slab_pool_alloc reserve fuel calls self = some (c1, self1, Ret.ptr p1))
    (hfuel : self1.head.length + 1 ≤ fuel') :
    ∃ self2, slab_pool_alloc reserve fuel' c1 (slab_pool_free self1 p1) =
      some (c1, self2, Ret.ptr p1) := by
  obtain ⟨hinv, hsize, hlen⟩ := Reach_Inv reserve size len calls self ever hw hp hreach
  obtain ⟨hself1, hstep, hinv1⟩ := alloc_returns reserve fuel calls c1 self self1 _ hinv h1
  have hsz1 : self1.size = size := by rw [hself1]; exact hsize
  have hln1 : self1.len = len := by rw [hself1]; exact hlen
  obtain ⟨⟨_, hok1, hdis1⟩, _, _⟩ := hinv1
  rw [hsz1, hln1] at hok1 hdis1
  rw [hsize, hlen] at hstep
  have key : ∃ chain', slab_pool_alloc_loop reserve size len fuel' c1
      (slab_pool_free_loop p1 size len self1.head) = some (c1, chain', Ret.ptr p1) := by
    generalize hr : Ret.ptr p1 = r at hstep
    generalize hc : self.head = chain at hstep
    generalize hc1 : self1.head = chain1 at hstep hok1 hdis1 hfuel
    cases hstep with
    | found pre s post q hpre hq =>
      cases hr
      exact free_then_alloc reserve size len calls q fuel' pre post s hw hok1 hdis1 hpre hq
        (by simp at hfuel; omega)
    | grow _ a hne hall hres =>
      cases hr
      have := free_then_alloc reserve size len (calls + 1) 0 fuel' chain [] (fresh_slab len a)
        hw hok1 hdis1 hall (fresh_slab_lowest_clear len a hw.2.1) (by simp at hfuel; omega)
      simpa using this
    | fail _ hne hall hres => cases hr
    | empty => cases hr
  obtain ⟨chain', hk⟩ := key
  refine ⟨{ self1 with head := chain' }, ?_⟩
  unfold slab_pool_alloc slab_pool_free
  simp only [hsz1, hln1, hk]
  rfl

/-- Witness of C4 (as amended): a fresh pool of 8 blocks of 16 bytes. -/
theorem alloc_free_alloc_same_pointer_witness :
    ∃ self2, slab_pool_alloc demo_provider 2 1
        (slab_pool_free
          { head := [{ map_addr := 4096, map := [1, 0, 0, 0, 0, 0, 0, 0], mem := 4120 }],
            size := 16, len := 8 } 4120) =
      some (1, self2, Ret.ptr 4120) :=
  alloc_free_alloc_same_pointer demo_provider 16 8 1 1 4120 2 2 _ _ [] (by decide)
    (demo_provider_ok _ (by decide)) (Reach.init 0) (by decide) (by decide)

/-- Counterexample to C4 as stated: `element_size = 2 ^ 61`, `elements_per_slab = 8`, one slab.
`size * len` wraps to `0`, `slab_free` sees an empty range and frees nothing, and the second
allocation returns the next block. -/
theorem round_trip_fails_when_size_wraps :
    Reach demo_provider (2 ^ 61) 8 1
        { head := [{ map_addr := 4096, map := [0, 0, 0, 0, 0, 0, 0, 0], mem := 4120 }],
          size := 2 ^ 61, len := 8 } [] ∧
      slab_pool_alloc demo_provider 2 1
        { head := [{ map_addr := 4096, map := [0, 0, 0, 0, 0, 0, 0, 0], mem := 4120 }],
          size := 2 ^ 61, len := 8 } =
        some (1, { head := [{ map_addr := 4096, map := [1, 0, 0, 0, 0, 0, 0, 0], mem := 4120 }],
                   size := 2 ^ 61, len := 8 }, Ret.ptr 4120) ∧
      slab_pool_alloc demo_provider 2 1
        (slab_pool_free
          { head := [{ map_addr := 4096, map := [1, 0, 0, 0, 0, 0, 0, 0], mem := 4120 }],
            size := 2 ^ 61, len := 8 } 4120) =
        some (1, { head := [{ map_addr := 4096, map := [3, 0, 0, 0, 0, 0, 0, 0], mem := 4120 }],
                   size := 2 ^ 61, len := 8 }, Ret.ptr (4120 + 2 ^ 61)) ∧
      (4120 : Nat) ≠ 4120 + 2 ^ 61 :=
  ⟨Reach.init 0, by decide, by decide, by decide⟩

/-! ### C10: first fit and lazy growth -/

/-- C7 (the code at the failing inputs): on a pool whose chain is empty, and on a full pool
whose provider fails, `slab_pool_alloc` leaves its loop and reaches the closing brace of the
function: no `return` statement is executed, so no null pointer is returned.  The bitmaps are
unchanged. -/
theorem slab_pool_alloc_falls_off_the_end :
    slab_pool_init one_region 1 16 8 = (2, { head := [], size := 16, len := 8 }) ∧
      slab_pool_alloc one_region 1 2 { head := [], size := 16, len := 8 } =
        some (2, { head := [], size := 16, len := 8 }, Ret.fallthrough) ∧
      slab_pool_alloc one_region 3 1
        { head := [{ map_addr := 4096, map := [255, 0, 0, 0, 0, 0, 0, 0], mem := 4120 }],
          size := 16, len := 8 } =
        some (2, { head := [{ map_addr := 4096, map := [255, 0, 0, 0, 0, 0, 0, 0], mem := 4120 }],
                   size := 16, len := 8 }, Ret.fallthrough) :=
  ⟨by decide, by decide, by decide⟩

/-! ### C9: padding bits -/

theorem slab_alloc_loop_cases (self : slab_t) (size len bites : Nat) :
    ∀ k i, slab_alloc_loop self size len bites k i = (self, 0) ∨
      ∃ pos, pos < len ∧
        slab_alloc_loop self size len bites k i =
          (take self pos, add64 self.mem (mul64 size pos)) := by
  intro k
  induction k with
  | zero => intro i; left; rfl
  | succ k ih =>
    intro i
    simp only [slab_alloc_loop]
    by_cases hz : modified_bruijin_clz (slab_alloc_word self.map bites i 8 0 0) < 64
    · rw [if_pos hz]
      by_cases hpos : add64 (mul64 i 8)
          (modified_bruijin_clz (slab_alloc_word self.map bites i 8 0 0)) ≥ len
      · rw [if_pos hpos]; left; rfl
      · rw [if_neg hpos]
        right
        exact ⟨_, by omega, rfl⟩
    · rw [if_neg hz]
      exact ih (i + 1)

/-- Whatever the parameters, `slab_alloc` either reports full and leaves the slab alone, or sets
the bit of a position below `len` and returns the address computed from that position. -/
theorem slab_alloc_cases (self : slab_t) (size len : Nat) :
    slab_alloc self size len = (self, 0) ∨
      ∃ pos, pos < len ∧
        slab_alloc self size len = (take self pos, add64 self.mem (mul64 size pos)) :=
  slab_alloc_loop_cases self size len (map_size len) (map_size len) 0

theorem set_out_of_range (map : List Nat) (n b : Nat) (h : map.length ≤ n) :
    map.set n b = map := by
  apply List.ext_getElem?
  intro m
  rw [List.getElem?_set]
  by_cases hn : n = m
  · subst hn
    rw [if_pos rfl, if_neg (by omega), List.getElem?_eq_none h]
  · rw [if_neg hn]

theorem bit_set_bit_imp (map : List Nat) (pos q : Nat) (h : bit (set_bit map pos) q = true) :
    q = pos ∨ bit map q = true := by
  by_cases hl : pos / 8 < map.length
  · rw [bit_set_bit map pos q hl, Bool.or_eq_true, decide_eq_true_eq] at h
    exact h
  · right
    unfold set_bit at h
    rw [set_out_of_range map _ _ (by omega)] at h
    exact h

theorem bit_clear_bit_imp (map : List Nat) (pos q : Nat) (h : bit (clear_bit map pos) q = true) :
    bit map q = true := by
  by_cases hl : pos / 8 < map.length
  · rw [bit_clear_bit map pos q hl, Bool.and_eq_true] at h
    exact h.2
  · rw [bit_clear_bit_out map pos (by omega)] at h
    exact h

/-- Whatever the arguments, `slab_free` leaves the bitmap alone or clears one bit of it. -/
theorem slab_free_cases (self : slab_t) (mem size len : Nat) :
    (slab_free self mem size len).1 = self ∨
      ∃ pos, (slab_free self mem size len).1 = give self pos := by
  unfold slab_free
  simp only
  split
  · left; rfl
  · right; exact ⟨_, rfl⟩

theorem slab_alloc_pad (self : slab_t) (size len : Nat)
    (h : ∀ q, len ≤ q → bit self.map q = false) :
    (slab_alloc self size len).1.mem = self.mem ∧
      ∀ q, len ≤ q → bit (slab_alloc self size len).1.map q = false := by
  rcases slab_alloc_cases self size len with h1 | ⟨pos, hpos, h1⟩
  · rw [h1]; exact ⟨rfl, h⟩
  · rw [h1]
    refine ⟨rfl, ?_⟩
    intro q hq
    cases hb : bit (take self pos).map q with
    | false => rfl
    | true =>
      rcases bit_set_bit_imp self.map pos q hb with h2 | h2
      · omega
      · rw [h q hq] at h2; cases h2

theorem slab_free_pad (self : slab_t) (mem size len : Nat)
    (h : ∀ q, len ≤ q → bit self.map q = false) :
    (slab_free self mem size len).1.mem = self.mem ∧
      ∀ q, len ≤ q → bit (slab_free self mem size len).1.map q = false := by
  rcases slab_free_cases self mem size len with h1 | ⟨pos, h1⟩
  · rw [h1]; exact ⟨rfl, h⟩
  · rw [h1]
    refine ⟨rfl, ?_⟩
    intro q hq
    cases hb : bit (give self pos).map q with
    | false => rfl
    | true =>
      have h2 := bit_clear_bit_imp self.map pos q hb
      rw [h q hq] at h2; cases h2

theorem wrapped_address_ne (mem size pos pos' : Nat) (hs : 1 ≤ size) (h : pos < pos') :
    add64 mem (mul64 size pos) ≠ mem + size * pos' := by
  have h1 := block_end_le size pos' pos h
  unfold add64 mul64 WORD
  generalize size * pos = x at *
  generalize size * pos' = y at *
  omega

theorem slab_run_pad (size len : Nat) :
    ∀ (ops : List SlabOp) (s : slab_t), (∀ q, len ≤ q → bit s.map q = false) →
      (∀ q, len ≤ q → bit (slab_run size len ops s).1.map q = false) ∧
      (∀ r, r ∈ (slab_run size len ops s).2 →
        r = 0 ∨ ∃ pos, pos < len ∧ r = add64 s.mem (mul64 size pos)) := by
  intro ops
  induction ops with
  | nil =>
    intro s h
    exact ⟨h, fun r hr => absurd hr (List.not_mem_nil r)⟩
  | cons op ops ih =>
    intro s h
    cases op with
    | alloc =>
      have h1 := slab_alloc_pad s size len h
      obtain ⟨h2, h3⟩ := ih (slab_alloc s size len).1 h1.2
      refine ⟨h2, ?_⟩
      intro r hr
      rcases List.mem_cons.mp hr with h4 | h4
      · rcases slab_alloc_cases s size len with h5 | ⟨pos, hpos, h5⟩
        · left; rw [h4, h5]
        · right; exact ⟨pos, hpos, by rw [h4, h5]⟩
      · have := h3 r h4
        rw [h1.1] at this
        exact this
    | free mem =>
      have h1 := slab_free_pad s mem size len h
      obtain ⟨h2, h3⟩ := ih (slab_free s mem size len).1 h1.2
      refine ⟨h2, ?_⟩
      intro r hr
      have := h3 r hr
      rw [h1.1] at this
      exact this

/-- C9 (as amended): for a slab that `slab_init` has just created and any sequence of calls of
`slab_alloc` and of `slab_free` with any addresses, no bit at a position `>= len` is set
afterwards, and every non-null pointer that `slab_alloc` returned is
`mem + size * pos` modulo `2 ^ 64` for a position `pos < len`.  For `size >= 1` it is not the
address `mem + size * pos` (a natural number, computed without wrap-around) of any position
`pos >= len`; in particular it is not the 64-bit value of `mem + size * pos` for a position
`pos >= len` at which that value does not wrap. -/
theorem padding_bits_never_set (reserve : PageProvider) (calls size len : Nat) (s : slab_t)
    (ops : List SlabOp) (hinit : (slab_init reserve calls size len).2 = some s) :
    (∀ q, len ≤ q → bit (slab_run size len ops s).1.map q = false) ∧
    (∀ r, r ∈ (slab_run size len ops s).2 → r ≠ 0 →
      ∃ pos, pos < len ∧ r = add64 s.mem (mul64 size pos)) ∧
    (1 ≤ size → ∀ r, r ∈ (slab_run size len ops s).2 → r ≠ 0 →
      ∀ pos, len ≤ pos → r ≠ s.mem + size * pos) ∧
    (1 ≤ size → ∀ r, r ∈ (slab_run size len ops s).2 → r ≠ 0 →
      ∀ pos, len ≤ pos → s.mem + size * pos < 2 ^ 64 →
        r ≠ add64 s.mem (mul64 size pos)) := by
  have hfresh : ∀ q, bit s.map q = false := by
    unfold slab_init at hinit
    simp only at hinit
    split at hinit
    · cases hinit
    · cases hinit
      exact fun q => bit_replicate_zero _ q
  obtain ⟨h1, h2⟩ := slab_run_pad size len ops s (fun q _ => hfresh q)
  have h3 : 1 ≤ size → ∀ r, r ∈ (slab_run size len ops s).2 → r ≠ 0 →
      ∀ pos, len ≤ pos → r ≠ s.mem + size * pos := by
    intro hs r hr hne pos hpos
    rcases h2 r hr with h3 | ⟨p, hp, h3⟩
    · exact absurd h3 hne
    · rw [h3]
      exact wrapped_address_ne s.mem size p pos hs (by omega)
  refine ⟨h1, ?_, h3, ?_⟩
  · intro r hr hne
    rcases h2 r hr with h4 | h4
    · exact absurd h4 hne
    · exact h4
  · intro hs r hr hne pos hpos hno
    have h5 : add64 s.mem (mul64 size pos) = s.mem + size * pos := by
      have := Nat.le_add_left (size * pos) s.mem
      unfold add64 mul64 WORD
      rw [Nat.mod_eq_of_lt (show size * pos < 2 ^ 64 by omega), Nat.mod_eq_of_lt hno]
    rw [h5]
    exact h3 hs r hr hne pos hpos

/-- Witness of C9 (as amended): a slab of 5 blocks of 16 bytes, after seven allocations and two
frees; no padding bit is set, and the pointer 4184 of block 4 is not the address
`4120 + 16 * 5` of the padding position 5. -/
theorem padding_bits_never_set_witness :
    (slab_init demo_provider 0 16 5).2 = some (fresh_slab 5 4096) ∧
    (slab_run 16 5
      [SlabOp.alloc, SlabOp.alloc, SlabOp.free 4137, SlabOp.alloc, SlabOp.alloc, SlabOp.alloc,
        SlabOp.alloc, SlabOp.free 99, SlabOp.alloc] (fresh_slab 5 4096)).2 =
      [4120, 4136, 4136, 4152, 4168, 4184, 0] ∧
    (∀ q, 5 ≤ q → bit (slab_run 16 5
      [SlabOp.alloc, SlabOp.alloc, SlabOp.free 4137, SlabOp.alloc, SlabOp.alloc, SlabOp.alloc,
        SlabOp.alloc, SlabOp.free 99, SlabOp.alloc] (fresh_slab 5 4096)).1.map q = false) ∧
    4184 ≠ (fresh_slab 5 4096).mem + 16 * 5 :=
  have w := padding_bits_never_set demo_provider 0 16 5 (fresh_slab 5 4096)
    [SlabOp.alloc, SlabOp.alloc, SlabOp.free 4137, SlabOp.alloc, SlabOp.alloc, SlabOp.alloc,
      SlabOp.alloc, SlabOp.free 99, SlabOp.alloc] (by decide)
  ⟨by decide, by decide, w.1,
    w.2.2.1 (by decide) 4184 (by decide) (by decide) 5 (by decide)⟩

/-- Counterexample to C9 as stated.  With `element_size = 0` and `elements_per_slab = 5`, the
first `slab_alloc` on the fresh slab returns the arena base 4120, which is
`arena_base + pos * element_size` for the position `pos = 7 >= 5`.  With
`element_size = 2 ^ 63` and `elements_per_slab = 1`, it returns 4120, which is
`arena_base + pos * element_size` in 64-bit arithmetic for the position `pos = 2 >= 1`. -/
theorem slab_alloc_returns_padding_address_when_size_is_zero :
    ((slab_init demo_provider 0 0 5).2 = some (fresh_slab 5 4096) ∧
      (slab_run 0 5 [SlabOp.alloc] (fresh_slab 5 4096)).2 = [4120] ∧
      5 ≤ 7 ∧ 4120 = (fresh_slab 5 4096).mem + 0 * 7) ∧
    ((slab_init demo_provider 0 (2 ^ 63) 1).2 = some (fresh_slab 1 4096) ∧
      (slab_run (2 ^ 63) 1 [SlabOp.alloc] (fresh_slab 1 4096)).2 = [4120] ∧
      1 ≤ 2 ∧ 4120 = add64 (fresh_slab 1 4096).mem (mul64 (2 ^ 63) 2)) :=
  ⟨⟨by decide, by decide, by decide, by decide⟩, by decide, by decide, by decide, by decide⟩

/-! ### C6: freeing an address that was never returned -/

theorem clear_bit_eq_self (map : List Nat) (q : Nat) (hb : Bytes map)
    (h : bit map q = false) : clear_bit map q = map := by
  by_cases hl : q / 8 < map.length
  · unfold clear_bit
    apply List.ext_getElem?
    intro n
    rw [List.getElem?_set]
    by_cases hn : q / 8 = n
    · subst hn
      rw [if_pos rfl, if_pos hl]
      have hbyte : map.getD (q / 8) 0 < 256 := Bytes_getD map hb _
      have hget : map[q / 8]? = some (map.getD (q / 8) 0) := by
        rw [List.getD_eq_getElem?_getD, List.getElem?_eq_getElem hl]; rfl
      rw [hget]
      congr 1
      unfold bit at h
      generalize map.getD (q / 8) 0 = byte at *
      have hk : q % 8 < 8 := Nat.mod_lt _ (by omega)
      have hmask : (0xFFFFFFFF - 1 <<< (q % 8)) = 2 ^ 32 - (2 ^ (q % 8) + 1) := by
        rw [Nat.one_shiftLeft]; norm_num; omega
      have hlt : 2 ^ (q % 8) < 2 ^ 32 := Nat.pow_lt_pow_right (by omega) (by omega)
      apply Nat.eq_of_testBit_eq
      intro j
      rw [show (256 : Nat) = 2 ^ 8 from rfl, Nat.testBit_mod_two_pow, Nat.testBit_and, hmask,
        Nat.testBit_two_pow_sub_succ hlt, Nat.testBit_two_pow]
      by_cases hj : j < 8
      · by_cases hjq : q % 8 = j
        · subst hjq; simp [h]
        · have : j < 32 := by omega
          simp [hj, hjq, this]
      · have : byte.testBit j = false :=
          Nat.testBit_lt_two_pow (Nat.lt_of_lt_of_le hbyte (by
            rw [show (256 : Nat) = 2 ^ 8 from rfl]
            exact Nat.pow_le_pow_right (by omega) (by omega)))
        simp [hj, this]
    · rw [if_neg hn]
  · exact bit_clear_bit_out map q (by omega)

/-- The bits that are set belong to addresses that `slab_pool_alloc` has returned. -/
theorem Reach_ever (reserve : PageProvider) (size len calls : Nat) (self : slab_pool_t)
    (ever : List Nat) (hw : NoWrap size len)
    (hp : ProviderOK reserve (slab_init_total_size size len))
    (h : Reach reserve size len calls self ever) :
    ∀ s, s ∈ self.head → ∀ i, bit s.map i = true → i < len ∧ s.mem + size * i ∈ ever := by
  induction h with
  | init calls =>
    intro s hs i hi
    exfalso
    cases hr : reserve calls (slab_init_total_size size len) with
    | none =>
      rw [slab_pool_init_none reserve calls size len hr] at hs
      cases hs
    | some a =>
      rw [slab_pool_init_some reserve calls size len a hr] at hs
      simp at hs
      subst hs
      rw [fresh_slab_bit len a i] at hi
      cases hi
  | alloc fuel calls calls' self self' ever r hreach hret ih =>
    obtain ⟨hinv, hsize, hlen⟩ := Reach_Inv reserve size len calls self ever hw hp hreach
    obtain ⟨_, hstep, _⟩ := alloc_returns reserve fuel calls calls' self self' r hinv hret
    rw [hsize, hlen] at hstep
    generalize hc : self.head = chain at hstep ih
    generalize hc' : self'.head = chain' at hstep
    cases hstep with
    | found pre s post q hpre hq =>
      intro t ht i hi
      simp only [ptrs, List.cons_append, List.nil_append, List.mem_cons]
      rcases mem_split ht with h1 | h1
      · subst h1
        rcases bit_set_bit_imp s.map q i hi with h2 | h2
        · subst h2; exact ⟨hq.1, Or.inl rfl⟩
        · have := ih s (by simp) i h2
          exact ⟨this.1, Or.inr this.2⟩
      · have htm : t ∈ pre ++ s :: post := by
          rcases h1 with h1 | h1
          · exact List.mem_append_left _ h1
          · exact List.mem_append_right _ (List.mem_cons_of_mem _ h1)
        have := ih t htm i hi
        exact ⟨this.1, Or.inr this.2⟩
    | grow _ a hne hall hres =>
      intro t ht i hi
      simp only [ptrs, List.cons_append, List.nil_append, List.mem_cons]
      rcases List.mem_append.mp ht with h1 | h1
      · have := ih t h1 i hi
        exact ⟨this.1, Or.inr this.2⟩
      · simp at h1
        subst h1
        rcases bit_set_bit_imp _ 0 i hi with h2 | h2
        · subst h2; exact ⟨hw.2.1, Or.inl (by simp [take])⟩
        · rw [fresh_slab_bit len a i] at h2; cases h2
    | fail _ hne hall hres => exact ih
    | empty => exact ih
  | free calls self ever p hreach ih =>
    obtain ⟨hinv, hsize, hlen⟩ := Reach_Inv reserve size len calls self ever hw hp hreach
    have hstep := (slab_pool_free_step reserve calls p self hinv).1
    generalize hc : self.head = chain at hstep ih
    generalize hc' : (slab_pool_free self p).head = chain' at hstep
    cases hstep with
    | unowned _ hall => exact ih
    | owned pre s post hpre hs =>
      intro t ht i hi
      rcases mem_split ht with h1 | h1
      · subst h1
        exact ih s (by simp) i (bit_clear_bit_imp s.map _ i hi)
      · have htm : t ∈ pre ++ s :: post := by
          rcases h1 with h1 | h1
          · exact List.mem_append_left _ h1
          · exact List.mem_append_right _ (List.mem_cons_of_mem _ h1)
        exact ih t htm i hi

/-- C6 (as amended): in a pool reachable from a fresh pool (parameters without wrap-around,
provider keeping its contract), `slab_pool_free p` changes nothing when `p` was never returned by
`slab_pool_alloc` and `p` is the start of a block or lies outside every arena. -/
theorem free_of_never_returned (reserve : PageProvider) (size len calls p : Nat)
    (self : slab_pool_t) (ever : List Nat) (hw : NoWrap size len)
    (hp : ProviderOK reserve (slab_init_total_size size len))
    (hreach : Reach reserve size len calls self ever) (hnever : p ∉ ever)
    (hwhere : BlockStart size len self.head p ∨
      ∀ t, t ∈ self.head → ¬ in_arena t size len p) :
    slab_pool_free self p = self := by
  obtain ⟨hinv, hsize, hlen⟩ := Reach_Inv reserve size len calls self ever hw hp hreach
  have hever := Reach_ever reserve size len calls self ever hw hp hreach
  have hstep := (slab_pool_free_step reserve calls p self hinv).1
  obtain ⟨⟨_, hok, hdis⟩, _, _⟩ := hinv
  rw [hsize, hlen] at hstep hok hdis
  have key : (slab_pool_free self p).head = self.head := by
    generalize hc : self.head = chain at hstep hever hwhere hok hdis
    generalize hc' : (slab_pool_free self p).head = chain' at hstep
    cases hstep with
    | unowned _ hall => rfl
    | owned pre s post hpre hs =>
      have hblock : ∃ i, i < len ∧ p = s.mem + size * i := by
        rcases hwhere with ⟨u, hu, j, hj, hpj⟩ | hout
        · have hu_in := block_in_arena size len j u hw.1 hj
          rw [← hpj] at hu_in
          rcases mem_split hu with h1 | h1
          · subst h1; exact ⟨j, hj, hpj⟩
          · exfalso
            rcases h1 with h1 | h1
            · exact hpre u h1 hu_in
            · exact not_in_arena_of_disjoint size len p s u
                (disjoint_of_mem size len pre post s u hdis (Or.inr h1)) hs hu_in
        · exact absurd hs (hout s (by simp))
      obtain ⟨i, hi, hpi⟩ := hblock
      have hidx : (p - s.mem) / size = i := by rw [hpi]; exact block_index size i s.mem hw.1
      have hclear : bit s.map i = false := by
        cases hb : bit s.map i with
        | false => rfl
        | true =>
          have := (hever s (by simp) i hb).2
          rw [← hpi] at this
          exact absurd this hnever
      rw [hidx]
      unfold give
      rw [clear_bit_eq_self s.map i (hok s (by simp)).2.2.1 hclear]
  show { self with head := (slab_pool_free self p).head } = self
  rw [key]

/-- Witness of C6 (as amended): after one allocation from a pool of 8 blocks of 16 bytes,
freeing the start of block 3, which was never returned, changes nothing. -/
theorem free_of_never_returned_witness :
    slab_pool_free
      { head := [{ map_addr := 4096, map := [1, 0, 0, 0, 0, 0, 0, 0], mem := 4120 }],
        size := 16, len := 8 } 4168 =
      { head := [{ map_addr := 4096, map := [1, 0, 0, 0, 0, 0, 0, 0], mem := 4120 }],
        size := 16, len := 8 } :=
  free_of_never_returned demo_provider 16 8 1 4168 _ [4120] (by decide)
    (demo_provider_ok _ (by decide))
    (Reach.alloc 2 1 1 (slab_pool_init demo_provider 0 16 8).2 _ [] (Ret.ptr 4120)
      (Reach.init 0) (by decide))
    (by decide)
    (Or.inl ⟨_, List.mem_cons_self _ _, 3, by decide, by decide⟩)

/-- Counterexample to C6 as stated: after one allocation (which returned 4120) from a pool of 8
blocks of 16 bytes, the address 4121 has never been returned and lies inside the arena at an
offset that is not a multiple of 16; `slab_pool_free` clears the bit of block 0. -/
theorem free_inside_block_clears_bit :
    Reach demo_provider 16 8 1
        { head := [{ map_addr := 4096, map := [1, 0, 0, 0, 0, 0, 0, 0], mem := 4120 }],
          size := 16, len := 8 } [4120] ∧
      4121 ∉ [4120] ∧
      slab_pool_free
        { head := [{ map_addr := 4096, map := [1, 0, 0, 0, 0, 0, 0, 0], mem := 4120 }],
          size := 16, len := 8 } 4121 =
        { head := [{ map_addr := 4096, map := [0, 0, 0, 0, 0, 0, 0, 0], mem := 4120 }],
          size := 16, len := 8 } :=
  ⟨Reach.alloc 2 1 1 (slab_pool_init demo_provider 0 16 8).2 _ [] (Ret.ptr 4120)
      (Reach.init 0) (by decide), by decide, by decide⟩

/-! ### C8: bitmaps and outstanding addresses -/

theorem erase_eq_filter_ne (out : List Nat) (p : Nat) (h : out.Nodup) :
    out.erase p = out.filter fun x => decide (x ≠ p) := by
  rw [List.Nodup.erase_eq_filter h]
  apply List.filter_congr
  intro x _
  by_cases hx : x = p <;> simp [hx]

/-- Along a run in which only outstanding pointers are freed, the pool stays well formed, the
bitmaps agree with the outstanding addresses, every outstanding address is the start of a block,
and no address is outstanding twice. -/
theorem Run_invariant (reserve : PageProvider) (size len calls : Nat) (self : slab_pool_t)
    (out : List Nat) (hw : NoWrap size len)
    (hp : ProviderOK reserve (slab_init_total_size size len))
    (h : Run reserve size len calls self out) :
    (Inv reserve calls self ∧ self.size = size ∧ self.len = len) ∧
      Occupancy size len self.head out ∧ Owned size len self.head out ∧ out.Nodup := by
  induction h with
  | init calls =>
    refine ⟨⟨slab_pool_init_Inv reserve calls size len hw hp, rfl, rfl⟩, ?_,
      fun p hp => absurd hp (List.not_mem_nil p), List.nodup_nil⟩
    intro s hs i
    cases hr : reserve calls (slab_init_total_size size len) with
    | none =>
      rw [slab_pool_init_none reserve calls size len hr] at hs
      cases hs
    | some a =>
      rw [slab_pool_init_some reserve calls size len a hr] at hs
      simp at hs
      subst hs
      rw [fresh_slab_bit len a i]
      simp
  | alloc fuel calls calls' self self' out r hrun hret ih =>
    obtain ⟨⟨hinv, hsize, hlen⟩, hocc, hown, hnd⟩ := ih
    obtain ⟨hself', hstep, hinv'⟩ := alloc_returns reserve fuel calls calls' self self' r hinv hret
    have hsz' : self'.size = size := by rw [hself']; exact hsize
    have hln' : self'.len = len := by rw [hself']; exact hlen
    refine ⟨⟨hinv', hsz', hln'⟩, ?_⟩
    obtain ⟨⟨_, hok, hdis⟩, hfrom, _⟩ := hinv
    rw [hsize, hlen] at hstep hok hdis
    generalize hc : self.head = chain at hstep hocc hown hok hdis
    generalize hc' : self'.head = chain' at hstep
    cases hstep with
    | found pre s post q hpre hq =>
      have h1 := alloc_Occupancy size len q pre post s out hw.1 hdis (hok s (by simp)).2.2.2 hq
        hocc
      exact ⟨h1.1, Owned_alloc size len q pre post s out hq.1 hown,
        List.nodup_cons.mpr ⟨h1.2, hnd⟩⟩
    | grow _ a hne hall hres =>
      have hinvf := Inv_append_fresh reserve calls a self ⟨⟨by rw [hsize, hlen]; exact hw,
        by rw [hsize, hlen, hc]; exact hok, by rw [hsize, hlen, hc]; exact hdis⟩, hfrom,
        by rw [hsize, hlen]; exact hp⟩ (by rw [hsize, hlen]; exact hres)
      obtain ⟨⟨_, hokf, hdisf⟩, _, _⟩ := hinvf
      simp only [hsize, hlen, hc] at hokf hdisf
      have h0 := Occupancy_append size len chain (fresh_slab len a) out hw.1 hdisf
        (fresh_slab_bit len a) hown hocc
      have h1 := alloc_Occupancy size len 0 chain [] (fresh_slab len a) out hw.1 hdisf
        (hokf _ (by simp)).2.2.2 (fresh_slab_lowest_clear len a hw.2.1) h0.1
      have h2 := Owned_alloc size len 0 chain [] (fresh_slab len a) out hw.2.1 h0.2
      simp only [Nat.mul_zero, Nat.add_zero] at h1 h2
      exact ⟨h1.1, h2, List.nodup_cons.mpr ⟨h1.2, hnd⟩⟩
    | fail _ hne hall hres => exact ⟨hocc, hown, hnd⟩
    | empty => exact ⟨hocc, hown, hnd⟩
  | free calls self out p hrun hmem ih =>
    obtain ⟨⟨hinv, hsize, hlen⟩, hocc, hown, hnd⟩ := ih
    obtain ⟨hstep, hinv'⟩ := slab_pool_free_step reserve calls p self hinv
    refine ⟨⟨hinv', hsize, hlen⟩, ?_⟩
    obtain ⟨⟨_, hok, hdis⟩, _, _⟩ := hinv
    rw [hsize, hlen] at hstep hok hdis
    rw [erase_eq_filter_ne out p hnd]
    have := free_Occupancy size len p self.head _ out hw.1 hdis
      (fun s hs => (hok s hs).2.2.2) (Or.inl (hown p hmem)) hown hocc hstep
    exact ⟨this.1, this.2, List.Nodup.filter _ hnd⟩

/-- C8 (as amended): for every sequence of `slab_pool_alloc` and `slab_pool_free` calls from a
fresh pool (parameters without wrap-around, provider keeping its contract) in which every freed
pointer is outstanding, after each call bit `i < len` of a slab is set exactly when the address
`mem + size * i` of that slab is outstanding, no bit at a position `>= len` is set, and
`slab_pool_alloc` never returns an address that is outstanding. -/
theorem bitmap_matches_outstanding (reserve : PageProvider) (size len calls : Nat)
    (self : slab_pool_t) (out : List Nat) (hw : NoWrap size len)
    (hp : ProviderOK reserve (slab_init_total_size size len))
    (h : Run reserve size len calls self out) :
    (∀ s, s ∈ self.head → ∀ i, i < len → (bit s.map i = true ↔ s.mem + size * i ∈ out)) ∧
    (∀ s, s ∈ self.head → ∀ i, len ≤ i → bit s.map i = false) ∧
    (∀ fuel calls' self' p,
      slab_pool_alloc reserve fuel calls self = some (calls', self', Ret.ptr p) → p ∉ out) := by
  obtain ⟨_, hocc, _, _⟩ := Run_invariant reserve size len calls self out hw hp h
  refine ⟨?_, ?_, ?_⟩
  · intro s hs i hi
    rw [hocc s hs i]
    exact ⟨fun h => h.2, fun h => ⟨hi, h⟩⟩
  · intro s hs i hi
    cases hb : bit s.map i with
    | false => rfl
    | true => have := ((hocc s hs i).mp hb).1; omega
  · intro fuel calls' self' p hret
    have h' := Run.alloc fuel calls calls' self self' out (Ret.ptr p) h hret
    have hnd := (Run_invariant reserve size len calls' self' _ hw hp h').2.2.2
    exact (List.nodup_cons.mp hnd).1

/-- Witness of C8 (as amended): a pool of 8 blocks of 16 bytes after two allocations and the
free of the first pointer; bit 1 is set and 4136 is outstanding, bit 0 is clear and 4120 is
not. -/
theorem bitmap_matches_outstanding_witness :
    (bit [2, 0, 0, 0, 0, 0, 0, 0] 1 = true ↔ 4120 + 16 * 1 ∈ [4136]) ∧
      (bit [2, 0, 0, 0, 0, 0, 0, 0] 0 = true ↔ 4120 + 16 * 0 ∈ [4136]) :=
  have w := (bitmap_matches_outstanding demo_provider 16 8 1
    { head := [{ map_addr := 4096, map := [2, 0, 0, 0, 0, 0, 0, 0], mem := 4120 }],
      size := 16, len := 8 } [4136] (by decide) (demo_provider_ok _ (by decide))
    (Run.free 1
      { head := [{ map_addr := 4096, map := [3, 0, 0, 0, 0, 0, 0, 0], mem := 4120 }],
        size := 16, len := 8 } [4136, 4120] 4120
      (@Run.alloc demo_provider 16 8 2 1 1
        { head := [{ map_addr := 4096, map := [1, 0, 0, 0, 0, 0, 0, 0], mem := 4120 }],
          size := 16, len := 8 }
        { head := [{ map_addr := 4096, map := [3, 0, 0, 0, 0, 0, 0, 0], mem := 4120 }],
          size := 16, len := 8 } [4120] (Ret.ptr 4136)
        (@Run.alloc demo_provider 16 8 2 1 1 (slab_pool_init demo_provider 0 16 8).2
          { head := [{ map_addr := 4096, map := [1, 0, 0, 0, 0, 0, 0, 0], mem := 4120 }],
            size := 16, len := 8 } [] (Ret.ptr 4120)
          (Run.init 0) (by decide))
        (by decide))
      (by decide))).1
  ⟨w { map_addr := 4096, map := [2, 0, 0, 0, 0, 0, 0, 0], mem := 4120 }
      (List.mem_cons_self _ _) 1 (by decide),
    w { map_addr := 4096, map := [2, 0, 0, 0, 0, 0, 0, 0], mem := 4120 }
      (List.mem_cons_self _ _) 0 (by decide)⟩

/-- Counterexample to C8 as stated: `element_size = 2 ^ 61`, `elements_per_slab = 8`.  After one
allocation, which returned 4120, and the free of 4120, nothing is outstanding, yet bit 0 of the
slab is still set: `size * len` wraps to `0` and `slab_free` owns no address. -/
theorem bit_stays_set_when_size_wraps :
    Run demo_provider (2 ^ 61) 8 1
        { head := [{ map_addr := 4096, map := [1, 0, 0, 0, 0, 0, 0, 0], mem := 4120 }],
          size := 2 ^ 61, len := 8 } [] ∧
      bit [1, 0, 0, 0, 0, 0, 0, 0] 0 = true ∧ 4120 + 2 ^ 61 * 0 ∉ ([] : List Nat) :=
  ⟨Run.free 1
      { head := [{ map_addr := 4096, map := [1, 0, 0, 0, 0, 0, 0, 0], mem := 4120 }],
        size := 2 ^ 61, len := 8 } [4120] 4120
      (Run.alloc 2 1 1 (slab_pool_init demo_provider 0 (2 ^ 61) 8).2 _ [] (Ret.ptr 4120)
        (Run.init 0) (by decide))
      (by decide), by decide, by decide⟩

/-! ### Bursts of allocations -/

theorem Filled_le (len : Nat) : ∀ (chain : List slab_t) (k : Nat), Filled len k chain →
    k ≤ chain.length * len := by
  intro chain
  induction chain with
  | nil => intro k h; simp only [Filled] at h; omega
  | cons s rest ih =>
    intro k h
    have := ih (k - len) h.2
    rw [List.length_cons, Nat.add_mul, Nat.one_mul]
    omega

theorem Filled_zero (len : Nat) : ∀ chain : List slab_t,
    (∀ s, s ∈ chain → ∀ i, bit s.map i = false) → Filled len 0 chain := by
  intro chain
  induction chain with
  | nil => intro _; rfl
  | cons s rest ih =>
    intro h
    refine ⟨?_, ?_⟩
    · intro i
      rw [h s (List.mem_cons_self _ _) i]
      simp
    · rw [Nat.zero_sub]
      exact ih (fun t ht => h t (List.mem_cons_of_mem _ ht))

theorem Filled_full_eq (len : Nat) (hlen : 1 ≤ len) : ∀ (chain : List slab_t) (k : Nat),
    Filled len k chain → AllFull len chain → k = chain.length * len := by
  intro chain
  induction chain with
  | nil => intro k h _; simp only [Filled] at h; simp [h]
  | cons s rest ih =>
    intro k h hall
    have hs := hall s (List.mem_cons_self _ _)
    have hk : len ≤ k := by
      have := hs (len - 1) (by omega)
      rw [h.1 (len - 1)] at this
      simp only [decide_eq_true_eq] at this
      omega
    have := ih (k - len) h.2 (fun t ht => hall t (List.mem_cons_of_mem _ ht))
    rw [List.length_cons, Nat.add_mul, Nat.one_mul]
    omega

theorem Filled_append (len : Nat) (s0 : slab_t)
    (hclear : ∀ i, bit s0.map i = false) : ∀ (chain : List slab_t) (k : Nat),
    Filled len k chain → AllFull len chain → Filled len k (chain ++ [s0]) := by
  intro chain
  induction chain with
  | nil =>
    intro k h _
    simp only [Filled] at h
    subst h
    exact Filled_zero len [s0] (fun t ht i => by simp at ht; subst ht; exact hclear i)
  | cons s rest ih =>
    intro k h hall
    exact ⟨h.1, ih (k - len) h.2 (fun t ht => hall t (List.mem_cons_of_mem _ ht))⟩

/-- In a chain that holds the first `k` blocks, first fit finds block `k`. -/
theorem Filled_found (size len q : Nat) (s : slab_t) (post : List slab_t) (hlen : 1 ≤ len)
    (hmap : q / 8 < s.map.length) (hq : lowest_clear len s q) :
    ∀ (pre : List slab_t) (k : Nat), Filled len k (pre ++ s :: post) → AllFull len pre →
      Filled len (k + 1) (pre ++ take s q :: post) ∧
        block_addr size len k ((pre ++ s :: post).map slab_t.mem) = s.mem + size * q := by
  intro pre
  induction pre with
  | nil =>
    intro k h _
    obtain ⟨hq1, hq2, hq3⟩ := hq
    have hkq : q = k := by
      have h1 := h.1 q
      rw [hq2] at h1
      have h2 : ¬ (q < len ∧ q < k) := by
        intro hc
        have : decide (q < len ∧ q < k) = true := decide_eq_true hc
        rw [← h1] at this; cases this
      by_contra hne
      have hlt : k < q := by omega
      have h3 := hq3 k hlt
      rw [h.1 k] at h3
      simp only [decide_eq_true_eq] at h3
      omega
    subst hkq
    refine ⟨⟨?_, ?_⟩, ?_⟩
    · intro i
      show bit (set_bit s.map q) i = _
      rw [bit_set_bit s.map q i hmap, h.1 i]
      by_cases hi : i = q
      · subst hi; simp [hq1]
      · by_cases hi2 : i < q
        · have : i < q + 1 := by omega
          simp [hi, hi2, this]
        · have : ¬ i < q + 1 := by omega
          simp [hi, hi2, this]
    · have h2 := h.2
      rw [show q - len = 0 by omega] at h2
      rw [show q + 1 - len = 0 by omega]
      exact h2
    · simp only [List.nil_append, List.map_cons, block_addr]
      rw [if_pos hq1]
  | cons t pre ih =>
    intro k h hall
    have ht := hall t (List.mem_cons_self _ _)
    have hk : len ≤ k := by
      have := ht (len - 1) (by omega)
      rw [h.1 (len - 1)] at this
      simp only [decide_eq_true_eq] at this
      omega
    obtain ⟨h1, h2⟩ := ih (k - len) h.2 (fun u hu => hall u (List.mem_cons_of_mem _ hu))
    refine ⟨⟨?_, ?_⟩, ?_⟩
    · intro i
      rw [h.1 i]
      by_cases hi : i < len
      · have a1 : i < k := by omega
        have a2 : i < k + 1 := by omega
        simp [hi, a1, a2]
      · simp [hi]
    · rw [show k + 1 - len = k - len + 1 by omega]
      exact h1
    · simp only [List.cons_append, List.map_cons, block_addr]
      rw [if_neg (by omega)]
      exact h2

theorem block_addr_append (size len : Nat) (extra : List Nat) :
    ∀ (ms : List Nat) (k : Nat), k < ms.length * len →
      block_addr size len k (ms ++ extra) = block_addr size len k ms := by
  intro ms
  induction ms with
  | nil => intro k h; simp at h
  | cons m ms ih =>
    intro k h
    simp only [List.cons_append, block_addr]
    by_cases hk : k < len
    · rw [if_pos hk, if_pos hk]
    · rw [if_neg hk, if_neg hk]
      apply ih
      rw [List.length_cons, Nat.add_mul, Nat.one_mul] at h
      omega

theorem map_mem_replace (pre post : List slab_t) (s s' : slab_t) (h : s'.mem = s.mem) :
    (pre ++ s' :: post).map slab_t.mem = (pre ++ s :: post).map slab_t.mem := by
  simp [h]

/-- One allocation from a chain that holds the first `k` blocks: when a pointer is returned it
is the address of block `k`, and the chain then holds the first `k + 1` blocks; as long as
`k` is below the capacity of the chain, a pointer is returned and nothing is reserved. -/
theorem alloc_Filled (reserve : PageProvider) (size len fuel calls calls' k : Nat)
    (self self' : slab_pool_t) (r : Ret) (hinv : Inv reserve calls self)
    (hsize : self.size = size) (hlen : self.len = len) (hfill : Filled len k self.head)
    (hret : slab_pool_alloc reserve fuel calls self = some (calls', self', r)) :
    (∃ extra, self'.head.map slab_t.mem = self.head.map slab_t.mem ++ extra) ∧
    (∀ p, r = Ret.ptr p →
      Filled len (k + 1) self'.head ∧ p = block_addr size len k (self'.head.map slab_t.mem)) ∧
    (k < self.head.length * len →
      calls' = calls ∧ self'.head.map slab_t.mem = self.head.map slab_t.mem ∧
        r ≠ Ret.fallthrough) := by
  obtain ⟨_, hstep, _⟩ := alloc_returns reserve fuel calls calls' self self' r hinv hret
  obtain ⟨⟨hw, hok, _⟩, _, hp⟩ := hinv
  rw [hsize, hlen] at hstep hok hw hp
  generalize hc : self.head = chain at hstep hfill hok
  generalize hc' : self'.head = chain' at hstep
  cases hstep with
  | found pre s post q hpre hq =>
    have hs := hok s (by simp)
    have hf := Filled_found size len q s post hw.2.1 (by
      have := hs.2.2.2; have := hq.1; omega) hq pre k hfill hpre
    have hm := map_mem_replace pre post s (take s q) rfl
    refine ⟨⟨[], by rw [hm]; simp⟩, ?_, ?_⟩
    · intro p hp'
      cases hp'
      exact ⟨hf.1, by rw [hm]; exact hf.2.symm⟩
    · intro _
      exact ⟨rfl, hm, fun h => by cases h⟩
  | grow _ a hne hall hres =>
    have ha := hp.1 calls a hres
    have hs := fresh_slab_ok size len a hw ha.1 ha.2
    have hq := fresh_slab_lowest_clear len a hw.2.1
    have hf := Filled_found size len 0 (fresh_slab len a) [] hw.2.1 (by
      have := hs.2.2.2; have := hw.2.1; omega) hq chain k
      (Filled_append len _ (fresh_slab_bit len a) chain k hfill hall) hall
    have hm := map_mem_replace chain [] (fresh_slab len a) (take (fresh_slab len a) 0) rfl
    refine ⟨⟨[(fresh_slab len a).mem], by simp [take]⟩, ?_, ?_⟩
    · intro p hp'
      cases hp'
      refine ⟨hf.1, ?_⟩
      rw [hm, hf.2]
      simp
    · intro hk
      have := Filled_full_eq len hw.2.1 chain k hfill hall
      omega
  | fail _ hne hall hres =>
    refine ⟨⟨[], by simp⟩, fun p hp' => Ret.noConfusion hp', ?_⟩
    intro hk
    have := Filled_full_eq len hw.2.1 chain k hfill hall
    omega
  | empty =>
    refine ⟨⟨[], by simp⟩, fun p hp' => Ret.noConfusion hp', ?_⟩
    intro hk
    simp at hk

/-- A call of `slab_pool_alloc` only appends to the chain. -/
theorem alloc_only_appends (reserve : PageProvider) (fuel calls calls' : Nat)
    (self self' : slab_pool_t) (r : Ret) (hinv : Inv reserve calls self)
    (hret : slab_pool_alloc reserve fuel calls self = some (calls', self', r)) :
    ∃ extra, self'.head.map slab_t.mem = self.head.map slab_t.mem ++ extra := by
  obtain ⟨_, hstep, _⟩ := alloc_returns reserve fuel calls calls' self self' r hinv hret
  generalize hc : self.head = chain at hstep
  generalize hc' : self'.head = chain' at hstep
  cases hstep with
  | found pre s post q _ _ => exact ⟨[], by simp [take]⟩
  | grow _ a _ _ _ => exact ⟨[(fresh_slab self.len a).mem], by simp [take]⟩
  | fail _ _ _ _ => exact ⟨[], by simp⟩
  | empty => exact ⟨[], by simp⟩

theorem burst_succ (reserve : PageProvider) (fuel n calls calls' : Nat)
    (self self' : slab_pool_t) (rets : List Ret)
    (h : alloc_burst reserve fuel (n + 1) calls self = some (calls', self', rets)) :
    ∃ c1 P1 r rets', slab_pool_alloc reserve fuel calls self = some (c1, P1, r) ∧
      alloc_burst reserve fuel n c1 P1 = some (calls', self', rets') ∧ rets = r :: rets' := by
  simp only [alloc_burst] at h
  split at h
  · cases h
  · rename_i c1 P1 r heq
    rw [Option.map_eq_some'] at h
    obtain ⟨⟨c2, P2, rets'⟩, h1, h2⟩ := h
    simp only [Prod.mk.injEq] at h2
    obtain ⟨rfl, rfl, rfl⟩ := h2
    exact ⟨c1, P1, r, rets', heq, h1, rfl⟩

theorem AllocStep_length (reserve : PageProvider) (size len calls calls' : Nat)
    (chain chain' : List slab_t) (r : Ret)
    (h : AllocStep reserve size len calls chain calls' chain' r) :
    chain'.length ≤ chain.length + 1 := by
  cases h with
  | found pre s post q _ _ => simp
  | grow _ a _ _ _ => simp
  | fail _ _ _ _ => omega
  | empty => simp

/-- With a bound of `length + n + 2`, a burst of `n` allocations returns. -/
theorem burst_exists (reserve : PageProvider) (fuel : Nat) :
    ∀ (n calls : Nat) (self : slab_pool_t), Inv reserve calls self →
      self.head.length + n + 2 ≤ fuel →
      ∃ t, alloc_burst reserve fuel n calls self = some t := by
  intro n
  induction n with
  | zero => intro calls self _ _; exact ⟨_, rfl⟩
  | succ n ih =>
    intro calls self hinv hfuel
    obtain ⟨c1, chain1, r, h1, h2, h3⟩ :=
      slab_pool_alloc_step reserve fuel calls self hinv (by omega)
    have hl := AllocStep_length reserve _ _ _ _ _ _ _ h2
    obtain ⟨t, ht⟩ := ih c1 { self with head := chain1 } h3 (by simp only; omega)
    refine ⟨(t.1, t.2.1, r :: t.2.2), ?_⟩
    simp only [alloc_burst, h1, ht]
    rfl

/-- A burst keeps the pool well formed, keeps its parameters, returns one result for each call,
and only appends to the chain. -/
theorem burst_basic (reserve : PageProvider) (size len fuel : Nat) :
    ∀ (n calls calls' : Nat) (self self' : slab_pool_t) (rets : List Ret),
      Inv reserve calls self → self.size = size → self.len = len →
      alloc_burst reserve fuel n calls self = some (calls', self', rets) →
      Inv reserve calls' self' ∧ self'.size = size ∧ self'.len = len ∧ rets.length = n ∧
        ∃ extra, self'.head.map slab_t.mem = self.head.map slab_t.mem ++ extra := by
  intro n
  induction n with
  | zero =>
    intro calls calls' self self' rets hinv hsize hlen h
    simp only [alloc_burst] at h
    cases h
    exact ⟨hinv, hsize, hlen, rfl, [], by simp⟩
  | succ n ih =>
    intro calls calls' self self' rets hinv hsize hlen h
    obtain ⟨c1, P1, r, rets', h1, h2, rfl⟩ := burst_succ reserve fuel n calls calls' self self' rets h
    obtain ⟨hP1, _, hinv1⟩ := alloc_returns reserve fuel calls c1 self P1 r hinv h1
    have hsz1 : P1.size = size := by rw [hP1]; exact hsize
    have hln1 : P1.len = len := by rw [hP1]; exact hlen
    obtain ⟨e1, he1⟩ := (alloc_only_appends reserve fuel calls c1 self P1 r hinv h1)
    obtain ⟨a1, a2, a3, a4, e2, he2⟩ := ih c1 calls' P1 self' rets' hinv1 hsz1 hln1 h2
    refine ⟨a1, a2, a3, by simp [a4], e1 ++ e2, ?_⟩
    rw [he2, he1, List.append_assoc]

/-- A burst in which every call returns a pointer, from a chain that holds the first `k` blocks,
returns the addresses of blocks `k`, `k + 1`, ... in first-fit order. -/
theorem burst_ptrs (reserve : PageProvider) (size len fuel : Nat) :
    ∀ (n k calls calls' : Nat) (self self' : slab_pool_t) (rets : List Ret),
      Inv reserve calls self → self.size = size → self.len = len → Filled len k self.head →
      alloc_burst reserve fuel n calls self = some (calls', self', rets) →
      (∀ r, r ∈ rets → r ≠ Ret.fallthrough) →
      Filled len (k + n) self'.head ∧
        rets = (List.range n).map fun j =>
          Ret.ptr (block_addr size len (k + j) (self'.head.map slab_t.mem)) := by
  intro n
  induction n with
  | zero =>
    intro k calls calls' self self' rets hinv hsize hlen hfill h _
    simp only [alloc_burst] at h
    cases h
    exact ⟨hfill, rfl⟩
  | succ n ih =>
    intro k calls calls' self self' rets hinv hsize hlen hfill h hall
    obtain ⟨c1, P1, r, rets', h1, h2, rfl⟩ := burst_succ reserve fuel n calls calls' self self' rets h
    obtain ⟨hP1, _, hinv1⟩ := alloc_returns reserve fuel calls c1 self P1 r hinv h1
    have hsz1 : P1.size = size := by rw [hP1]; exact hsize
    have hln1 : P1.len = len := by rw [hP1]; exact hlen
    obtain ⟨_, hptr, _⟩ := alloc_Filled reserve size len fuel calls c1 k self P1 r hinv hsize hlen
      hfill h1
    cases r with
    | fallthrough => exact absurd rfl (hall Ret.fallthrough (List.mem_cons_self _ _))
    | ptr p =>
      obtain ⟨hf1, hp⟩ := hptr p rfl
      obtain ⟨hfn, hrets⟩ := ih (k + 1) c1 calls' P1 self' rets' hinv1 hsz1 hln1 hf1 h2
        (fun r hr => hall r (List.mem_cons_of_mem _ hr))
      obtain ⟨_, _, _, _, e2, he2⟩ := burst_basic reserve size len fuel n c1 calls' P1 self' rets'
        hinv1 hsz1 hln1 h2
      refine ⟨by rw [show k + (n + 1) = k + 1 + n by omega]; exact hfn, ?_⟩
      rw [List.range_succ_eq_map, List.map_cons, List.map_map, hrets]
      congr 1
      · rw [hp, he2, Nat.add_zero, block_addr_append size len e2 (P1.head.map slab_t.mem) k (by
          have := Filled_le len P1.head (k + 1) hf1
          rw [List.length_map]; omega)]
      · apply List.map_congr_left
        intro j _
        show _ = Ret.ptr (block_addr size len (k + (j + 1)) _)
        rw [show k + 1 + j = k + (j + 1) by omega]

/-- A burst that fits into the free blocks of the chain reserves nothing, appends nothing, and
every call returns a pointer. -/
theorem burst_within (reserve : PageProvider) (size len fuel : Nat) :
    ∀ (n k calls calls' : Nat) (self self' : slab_pool_t) (rets : List Ret),
      Inv reserve calls self → self.size = size → self.len = len → Filled len k self.head →
      alloc_burst reserve fuel n calls self = some (calls', self', rets) →
      k + n ≤ self.head.length * len →
      calls' = calls ∧ self'.head.map slab_t.mem = self.head.map slab_t.mem ∧
        ∀ r, r ∈ rets → r ≠ Ret.fallthrough := by
  intro n
  induction n with
  | zero =>
    intro k calls calls' self self' rets hinv hsize hlen hfill h _
    simp only [alloc_burst] at h
    cases h
    exact ⟨rfl, rfl, fun r hr => absurd hr (List.not_mem_nil r)⟩
  | succ n ih =>
    intro k calls calls' self self' rets hinv hsize hlen hfill h hcap
    obtain ⟨c1, P1, r, rets', h1, h2, rfl⟩ := burst_succ reserve fuel n calls calls' self self' rets h
    obtain ⟨hP1, _, hinv1⟩ := alloc_returns reserve fuel calls c1 self P1 r hinv h1
    have hsz1 : P1.size = size := by rw [hP1]; exact hsize
    have hln1 : P1.len = len := by rw [hP1]; exact hlen
    obtain ⟨_, hptr, hin⟩ := alloc_Filled reserve size len fuel calls c1 k self P1 r hinv hsize
      hlen hfill h1
    obtain ⟨hc, hm, hr⟩ := hin (by omega)
    cases r with
    | fallthrough => exact absurd rfl hr
    | ptr p =>
      have hl : P1.head.length = self.head.length := by
        have := congrArg List.length hm
        simpa using this
      obtain ⟨a1, a2, a3⟩ := ih (k + 1) c1 calls' P1 self' rets' hinv1 hsz1 hln1 (hptr p rfl).1 h2
        (by rw [hl]; omega)
      refine ⟨by rw [a1, hc], by rw [a2, hm], ?_⟩
      intro r hr'
      rcases List.mem_cons.mp hr' with h3 | h3
      · rw [h3]; exact fun h => Ret.noConfusion h
      · exact a3 r h3

theorem ptrs_cons (r : Ret) (rs : List Ret) : ptrs (r :: rs) = ptrs [r] ++ ptrs rs := by
  cases r <;> rfl

theorem ptrs_single_reverse (r : Ret) : (ptrs [r]).reverse = ptrs [r] := by
  cases r <;> rfl

/-- A burst from a run is a run; the pointers it returned become outstanding. -/
theorem burst_Run (reserve : PageProvider) (size len fuel : Nat) :
    ∀ (n calls calls' : Nat) (self self' : slab_pool_t) (rets : List Ret) (out : List Nat),
      Run reserve size len calls self out →
      alloc_burst reserve fuel n calls self = some (calls', self', rets) →
      Run reserve size len calls' self' ((ptrs rets).reverse ++ out) := by
  intro n
  induction n with
  | zero =>
    intro calls calls' self self' rets out hrun h
    simp only [alloc_burst] at h
    cases h
    exact hrun
  | succ n ih =>
    intro calls calls' self self' rets out hrun h
    obtain ⟨c1, P1, r, rets', h1, h2, rfl⟩ := burst_succ reserve fuel n calls calls' self self' rets h
    have hrun1 := Run.alloc fuel calls c1 self P1 out r hrun h1
    have := ih c1 calls' P1 self' rets' _ hrun1 h2
    rw [ptrs_cons, List.reverse_append, ptrs_single_reverse, List.append_assoc]
    exact this

/-- Freeing distinct outstanding pointers, in any order, is a run; what stays outstanding is
what was not freed. -/
theorem free_all_Run (reserve : PageProvider) (size len calls : Nat) (hw : NoWrap size len)
    (hp : ProviderOK reserve (slab_init_total_size size len)) :
    ∀ (ps : List Nat) (self : slab_pool_t) (out : List Nat),
      Run reserve size len calls self out → ps.Nodup → (∀ p, p ∈ ps → p ∈ out) →
      ∃ out', Run reserve size len calls (free_all self ps) out' ∧
        (∀ x, x ∈ out' ↔ x ∈ out ∧ x ∉ ps) ∧
        (free_all self ps).head.map slab_t.mem = self.head.map slab_t.mem := by
  intro ps
  induction ps with
  | nil =>
    intro self out hrun _ _
    exact ⟨out, hrun, fun x => by simp, rfl⟩
  | cons p ps ih =>
    intro self out hrun hnd hsub
    have hpo := hsub p (List.mem_cons_self _ _)
    have hnd_out := (Run_invariant reserve size len calls self out hw hp hrun).2.2.2
    have hinv := (Run_invariant reserve size len calls self out hw hp hrun).1.1
    have hrun1 := Run.free calls self out p hrun hpo
    obtain ⟨hnp, hnd'⟩ := List.nodup_cons.mp hnd
    obtain ⟨out', h1, h2, h3⟩ := ih (slab_pool_free self p) (out.erase p) hrun1 hnd' (by
      intro x hx
      rw [List.Nodup.mem_erase_iff hnd_out]
      exact ⟨fun h => hnp (h ▸ hx), hsub x (List.mem_cons_of_mem _ hx)⟩)
    refine ⟨out', h1, ?_, ?_⟩
    · intro x
      rw [h2 x, List.Nodup.mem_erase_iff hnd_out, List.mem_cons]
      constructor
      · rintro ⟨⟨a, b⟩, c⟩
        exact ⟨b, fun h => h.elim a c⟩
      · rintro ⟨a, b⟩
        exact ⟨⟨fun h => b (Or.inl h), a⟩, fun h => b (Or.inr h)⟩
    · show (free_all (slab_pool_free self p) ps).head.map slab_t.mem = _
      rw [h3]
      have hstep := (slab_pool_free_step reserve calls p self hinv).1
      generalize hc : self.head = chain at hstep
      generalize hc' : (slab_pool_free self p).head = chain' at hstep
      cases hstep with
      | unowned _ _ => rfl
      | owned pre s post _ _ => simp [give]

theorem init_head_fresh (reserve : PageProvider) (calls size len c0 : Nat) (P0 : slab_pool_t)
    (h : slab_t) (hinit : slab_pool_init reserve calls size len = (c0, P0))
    (hhead : P0.head = [h]) :
    ∃ a, reserve calls (slab_init_total_size size len) = some a ∧ h = fresh_slab len a ∧
      c0 = calls + 1 ∧ P0 = { head := [fresh_slab len a], size := size, len := len } := by
  cases hr : reserve calls (slab_init_total_size size len) with
  | none =>
    rw [slab_pool_init_none reserve calls size len hr] at hinit
    cases hinit
    cases hhead
  | some a =>
    rw [slab_pool_init_some reserve calls size len a hr] at hinit
    cases hinit
    simp only [List.cons.injEq, and_true] at hhead
    exact ⟨a, rfl, hhead.symm, rfl, rfl⟩

/-! ### C2: the first `elements_per_slab` allocations -/

/-- C2 (as amended): for parameters without wrap-around (`NoWrap`: `size >= 1`, `len >= 1` and
`total_size` below `2 ^ 64`) and a provider that keeps its contract, on a fresh pool whose first
slab `h` was created, the first `n <= len` calls of `slab_pool_alloc` return `h.mem + size * k`
for `k = 0, ..., n - 1`, reserve nothing and leave one slab.  These addresses lie in the arena of
`h` at offsets that are multiples of `size`, and they are pairwise distinct. -/
theorem first_slab_allocations (reserve : PageProvider) (size len calls fuel n c0 : Nat)
    (P0 : slab_pool_t) (h : slab_t) (hw : NoWrap size len)
    (hp : ProviderOK reserve (slab_init_total_size size len))
    (hinit : slab_pool_init reserve calls size len = (c0, P0)) (hhead : P0.head = [h])
    (hfuel : n + 3 ≤ fuel) (hn : n ≤ len) :
    (∃ P', alloc_burst reserve fuel n c0 P0 =
        some (c0, P', (List.range n).map fun k => Ret.ptr (h.mem + size * k)) ∧
      P'.head.map slab_t.mem = [h.mem]) ∧
    (∀ k, k < len →
      in_arena h size len (h.mem + size * k) ∧ (h.mem + size * k - h.mem) % size = 0) ∧
    (∀ j k, j < len → k < len → j ≠ k → h.mem + size * j ≠ h.mem + size * k) := by
  have hinv0 := slab_pool_init_Inv reserve calls size len hw hp
  rw [hinit] at hinv0
  obtain ⟨a, _, hfresh, _, hP0⟩ := init_head_fresh reserve calls size len c0 P0 h hinit hhead
  have hsz : P0.size = size := by rw [hP0]
  have hln : P0.len = len := by rw [hP0]
  have hfill : Filled len 0 P0.head := by
    apply Filled_zero
    intro s hs i
    rw [hhead] at hs
    simp at hs
    rw [hs, hfresh]
    exact fresh_slab_bit len a i
  refine ⟨?_, ?_, ?_⟩
  · obtain ⟨⟨c', P', rets⟩, hb⟩ := burst_exists reserve fuel n c0 P0 hinv0 (by
      rw [hhead]; simp; omega)
    obtain ⟨hc, hm, hall⟩ := burst_within reserve size len fuel n 0 c0 c' P0 P' rets hinv0 hsz hln
      hfill hb (by rw [hhead]; simp; omega)
    obtain ⟨_, hrets⟩ := burst_ptrs reserve size len fuel n 0 c0 c' P0 P' rets hinv0 hsz hln hfill
      hb hall
    rw [hhead] at hm
    refine ⟨P', ?_, hm⟩
    rw [hb, hc, hrets, hm]
    congr 3
    apply List.map_congr_left
    intro j hj
    rw [List.mem_range] at hj
    simp only [List.map_cons, List.map_nil, block_addr, Nat.zero_add]
    rw [if_pos (by omega)]
  · intro k hk
    refine ⟨block_in_arena size len k h hw.1 hk, ?_⟩
    rw [Nat.add_sub_cancel_left]
    exact Nat.mul_mod_right size k
  · intro j k _ _ hjk heq
    exact hjk (block_inj size j k hw.1 (by omega))

/-- Witness of C2 (as amended): `element_size = 16`, `elements_per_slab = 8`; the 8 pointers are
16 bytes apart and start at the arena base 4120. -/
theorem first_slab_allocations_witness :
    ∃ P', alloc_burst demo_provider 11 8 1
        { head := [fresh_slab 8 4096], size := 16, len := 8 } =
        some (1, P', (List.range 8).map fun k => Ret.ptr ((fresh_slab 8 4096).mem + 16 * k)) ∧
      P'.head.map slab_t.mem = [(fresh_slab 8 4096).mem] :=
  (first_slab_allocations demo_provider 16 8 0 11 8 1
    { head := [fresh_slab 8 4096], size := 16, len := 8 } (fresh_slab 8 4096) (by decide)
    (demo_provider_ok _ (by decide)) (by decide) rfl (by decide) (by decide)).1

/-- Counterexample to C2 as stated: `element_size = 2 ^ 63`, `elements_per_slab = 4`, first slab
created (in 24 bytes, since `size * len` wraps to `0`).  The first four calls return 4120,
`4120 + 2 ^ 63`, 4120 and `4120 + 2 ^ 63`: the first and the third pointer are equal, and the
third is not `4120 + 2 * 2 ^ 63`. -/
theorem first_allocations_repeat_when_size_wraps :
    slab_pool_init demo_provider 0 (2 ^ 63) 4 =
        (1, { head := [{ map_addr := 4096, map := [0, 0, 0, 0, 0, 0, 0, 0], mem := 4120 }],
              size := 2 ^ 63, len := 4 }) ∧
      alloc_burst demo_provider 3 4 1
          { head := [{ map_addr := 4096, map := [0, 0, 0, 0, 0, 0, 0, 0], mem := 4120 }],
            size := 2 ^ 63, len := 4 } =
        some (1, { head := [{ map_addr := 4096, map := [15, 0, 0, 0, 0, 0, 0, 0], mem := 4120 }],
                   size := 2 ^ 63, len := 4 },
          [Ret.ptr 4120, Ret.ptr (4120 + 2 ^ 63), Ret.ptr 4120, Ret.ptr (4120 + 2 ^ 63)]) ∧
      (4120 : Nat) ≠ 4120 + 2 * 2 ^ 63 :=
  ⟨by decide, by decide, by decide⟩

/-! ### C3: the allocation after the first slab is full -/

theorem Filled_cap_full (len : Nat) (s : slab_t) (h : Filled len len [s]) : full len s := by
  intro p hp
  rw [h.1 p]
  simp [hp]

/-- C3 (as amended): for parameters without wrap-around and a provider that keeps its contract,
after `len` calls of `slab_pool_alloc` on a fresh single-slab pool (all of which returned a
pointer and left one slab), when the provider supplies one more region, at `a`, the next call
returns: it appends exactly one slab at the tail, so that the chain has two slabs, and returns
the base of the new slab's arena (its block 0), which is not in the arena of the first slab. -/
theorem allocation_after_full_slab (reserve : PageProvider)
    (size len calls fuel fuel' c0 c1 a : Nat) (P0 P1 : slab_pool_t) (h : slab_t)
    (rets : List Ret) (hw : NoWrap size len)
    (hp : ProviderOK reserve (slab_init_total_size size len))
    (hinit : slab_pool_init reserve calls size len = (c0, P0)) (hhead : P0.head = [h])
    (hburst : alloc_burst reserve fuel len c0 P0 = some (c1, P1, rets))
    (hsupply : reserve c1 (slab_init_total_size size len) = some a)
    (hfuel' : 3 ≤ fuel') :
    (∀ r, r ∈ rets → r ≠ Ret.fallthrough) ∧ P1.head.map slab_t.mem = [h.mem] ∧
    slab_pool_alloc reserve fuel' c1 P1 =
      some (c1 + 1, { P1 with head := P1.head ++ [take (fresh_slab len a) 0] },
        Ret.ptr (fresh_slab len a).mem) ∧
    (P1.head ++ [take (fresh_slab len a) 0]).map slab_t.mem = [h.mem, (fresh_slab len a).mem] ∧
    ¬ in_arena h size len (fresh_slab len a).mem ∧
    in_arena (fresh_slab len a) size len (fresh_slab len a).mem := by
  have hinv0 := slab_pool_init_Inv reserve calls size len hw hp
  rw [hinit] at hinv0
  obtain ⟨a0, _, hfresh, _, hP0⟩ := init_head_fresh reserve calls size len c0 P0 h hinit hhead
  have hsz : P0.size = size := by rw [hP0]
  have hln : P0.len = len := by rw [hP0]
  have hfill : Filled len 0 P0.head := by
    apply Filled_zero
    intro s hs i
    rw [hhead] at hs
    simp at hs
    rw [hs, hfresh]
    exact fresh_slab_bit len a0 i
  obtain ⟨hc, hm, hall⟩ := burst_within reserve size len fuel len 0 c0 c1 P0 P1 rets hinv0 hsz
    hln hfill hburst (by rw [hhead]; simp)
  obtain ⟨hfill1, _⟩ := burst_ptrs reserve size len fuel len 0 c0 c1 P0 P1 rets hinv0 hsz hln
    hfill hburst hall
  obtain ⟨hinv1, hsz1, hln1, _, _⟩ := burst_basic reserve size len fuel len c0 c1 P0 P1 rets hinv0
    hsz hln hburst
  rw [hhead] at hm
  simp only [List.map_cons, List.map_nil] at hm
  obtain ⟨s1, hs1⟩ : ∃ s1, P1.head = [s1] := by
    cases hP : P1.head with
    | nil => rw [hP] at hm; cases hm
    | cons s1 rest =>
      cases rest with
      | nil => exact ⟨s1, rfl⟩
      | cons t rest => rw [hP] at hm; simp at hm
  have hs1m : s1.mem = h.mem := by
    rw [hs1] at hm
    simpa using hm
  rw [hs1, Nat.zero_add] at hfill1
  have hfull : full len s1 := Filled_cap_full len s1 hfill1
  have hinvA := Inv_append_fresh reserve c1 a P1 hinv1 (by rw [hsz1, hln1]; exact hsupply)
  obtain ⟨⟨_, hok1, _⟩, _, _⟩ := hinv1
  rw [hsz1, hln1, hs1] at hok1
  have ha := hp.1 c1 a hsupply
  refine ⟨hall, by rw [hs1, ← hs1m]; rfl, ?_, by rw [hs1, ← hs1m]; rfl, ?_,
    ?_⟩
  · unfold slab_pool_alloc
    rw [hsz1, hln1, hs1, alloc_loop_grow reserve size len c1 a hw hsupply
      (fresh_slab_ok size len a hw ha.1 ha.2) [s1] fuel' (by simp)
      (fun t ht => by
        simp at ht
        subst ht
        exact ⟨hok1 t (by simp), hfull⟩) (by simp; omega)]
    rfl
  · obtain ⟨⟨_, _, hdisA⟩, _, _⟩ := hinvA
    simp only [hsz1, hln1, hs1] at hdisA
    have hd := disjoint_of_mem size len [s1] [] (fresh_slab len a) s1 hdisA (Or.inl (by simp))
    rw [hs1m] at hd
    have hself : in_arena (fresh_slab len a) size len (fresh_slab len a).mem := by
      have := block_in_arena size len 0 (fresh_slab len a) hw.1 hw.2.1
      simpa using this
    exact not_in_arena_of_disjoint size len _ (fresh_slab len a) h hd hself
  · have := block_in_arena size len 0 (fresh_slab len a) hw.1 hw.2.1
    simpa using this

/-- Witness of C3 (as amended): `element_size = 16`, `elements_per_slab = 8`; the 9th call
returns 69656, the base of the arena of the second slab. -/
theorem allocation_after_full_slab_witness :
    slab_pool_alloc demo_provider 3 1
        { head := [{ map_addr := 4096, map := [255, 0, 0, 0, 0, 0, 0, 0], mem := 4120 }],
          size := 16, len := 8 } =
      some (2, { head := [{ map_addr := 4096, map := [255, 0, 0, 0, 0, 0, 0, 0], mem := 4120 },
                          take (fresh_slab 8 69632) 0], size := 16, len := 8 },
        Ret.ptr (fresh_slab 8 69632).mem) ∧
      ¬ in_arena (fresh_slab 8 4096) 16 8 (fresh_slab 8 69632).mem :=
  have w := allocation_after_full_slab demo_provider 16 8 0 3 3 1 1 69632
    { head := [fresh_slab 8 4096], size := 16, len := 8 }
    { head := [{ map_addr := 4096, map := [255, 0, 0, 0, 0, 0, 0, 0], mem := 4120 }],
      size := 16, len := 8 } (fresh_slab 8 4096)
    ((List.range 8).map fun k => Ret.ptr (4120 + 16 * k)) (by decide)
    (demo_provider_ok _ (by decide)) (by decide) rfl (by decide) (by decide) (by decide)
  ⟨w.2.2.1, w.2.2.2.2.1⟩

/-- Counterexample to C3 as stated: `element_size = 2 ^ 61`, `elements_per_slab = 8`.  The first
8 calls return pointers from the first slab, whose arena starts at 4120; the 9th call appends a
second slab and returns the base 69656 of its arena, which lies inside the first slab's arena
`[4120, 4120 + 2 ^ 61 * 8)` (in block 0 of the first slab, even). -/
theorem second_slab_inside_first_arena_when_size_wraps :
    slab_pool_init demo_provider 0 (2 ^ 61) 8 =
        (1, { head := [{ map_addr := 4096, map := [0, 0, 0, 0, 0, 0, 0, 0], mem := 4120 }],
              size := 2 ^ 61, len := 8 }) ∧
      alloc_burst demo_provider 3 8 1
          { head := [{ map_addr := 4096, map := [0, 0, 0, 0, 0, 0, 0, 0], mem := 4120 }],
            size := 2 ^ 61, len := 8 } =
        some (1, { head := [{ map_addr := 4096, map := [255, 0, 0, 0, 0, 0, 0, 0], mem := 4120 }],
                   size := 2 ^ 61, len := 8 },
          (List.range 8).map fun k => Ret.ptr (4120 + 2 ^ 61 * k)) ∧
      slab_pool_alloc demo_provider 3 1
          { head := [{ map_addr := 4096, map := [255, 0, 0, 0, 0, 0, 0, 0], mem := 4120 }],
            size := 2 ^ 61, len := 8 } =
        some (2, { head := [{ map_addr := 4096, map := [255, 0, 0, 0, 0, 0, 0, 0], mem := 4120 },
                            { map_addr := 69632, map := [1, 0, 0, 0, 0, 0, 0, 0], mem := 69656 }],
                   size := 2 ^ 61, len := 8 }, Ret.ptr 69656) ∧
      in_arena { map_addr := 4096, map := [255, 0, 0, 0, 0, 0, 0, 0], mem := 4120 } (2 ^ 61) 8
        69656 ∧
      69656 < 4120 + 2 ^ 61 :=
  ⟨by decide, by decide, by decide, by decide, by decide⟩

/-! ### C5: free everything, allocate again -/

/-- C5 (as amended): for parameters without wrap-around and a provider that keeps its contract,
let `n` calls of `slab_pool_alloc` on a fresh pool return the pointers `rets` (every call
returned one).  Freeing these pointers in any order `ps` leaves every bit of every bitmap clear,
and `n` further calls of `slab_pool_alloc` then return the same addresses (in the order of the
first burst), reserve nothing and leave the number of slabs as it was. -/
theorem free_all_then_same_addresses (reserve : PageProvider)
    (size len calls n fuel fuel2 c1 : Nat) (P1 : slab_pool_t) (rets : List Ret)
    (ps : List Nat) (hw : NoWrap size len)
    (hp : ProviderOK reserve (slab_init_total_size size len))
    (hburst : alloc_burst reserve fuel n (slab_pool_init reserve calls size len).1
      (slab_pool_init reserve calls size len).2 = some (c1, P1, rets))
    (hall : ∀ r, r ∈ rets → r ≠ Ret.fallthrough) (hperm : ps.Perm (ptrs rets))
    (hfuel2 : P1.head.length + n + 2 ≤ fuel2) :
    (∀ s, s ∈ (free_all P1 ps).head → ∀ i, bit s.map i = false) ∧
    ∃ P3, alloc_burst reserve fuel2 n c1 (free_all P1 ps) = some (c1, P3, rets) ∧
      P3.head.length = P1.head.length := by
  have hrun0 := @Run.init reserve size len calls
  obtain ⟨⟨hinv0, hsz0, hln0⟩, hocc0, _, _⟩ :=
    Run_invariant reserve size len _ _ _ hw hp hrun0
  have hfill0 : Filled len 0 (slab_pool_init reserve calls size len).2.head := by
    apply Filled_zero
    intro s hs i
    cases hb : bit s.map i with
    | false => rfl
    | true =>
      have := ((hocc0 s hs i).mp hb).2
      cases this
  have hrun1 := burst_Run reserve size len fuel n _ c1 _ P1 rets [] hrun0 hburst
  rw [List.append_nil] at hrun1
  obtain ⟨⟨hinv1, hsz1, hln1⟩, _, _, hnd1⟩ := Run_invariant reserve size len _ _ _ hw hp hrun1
  obtain ⟨hfill1, hrets1⟩ := burst_ptrs reserve size len fuel n 0 _ c1 _ P1 rets hinv0 hsz0 hln0
    hfill0 hburst hall
  have hndp : ps.Nodup := hperm.nodup_iff.mpr (List.nodup_reverse.mp hnd1)
  obtain ⟨out', hrun2, hout', hmems⟩ := free_all_Run reserve size len c1 hw hp ps P1 _ hrun1 hndp
    (fun p hp' => List.mem_reverse.mpr (hperm.mem_iff.mp hp'))
  have hnil : out' = [] := by
    apply List.eq_nil_iff_forall_not_mem.mpr
    intro x hx
    have := (hout' x).mp hx
    exact this.2 (hperm.mem_iff.mpr (List.mem_reverse.mp this.1))
  subst hnil
  obtain ⟨⟨hinv2, hsz2, hln2⟩, hocc2, _, _⟩ := Run_invariant reserve size len _ _ _ hw hp hrun2
  have hclear : ∀ s, s ∈ (free_all P1 ps).head → ∀ i, bit s.map i = false := by
    intro s hs i
    cases hb : bit s.map i with
    | false => rfl
    | true =>
      have := ((hocc2 s hs i).mp hb).2
      cases this
  refine ⟨hclear, ?_⟩
  have hlen2 : (free_all P1 ps).head.length = P1.head.length := by
    have := congrArg List.length hmems
    simpa using this
  have hfill2 := Filled_zero len _ hclear
  obtain ⟨⟨c3, P3, rets3⟩, hb3⟩ := burst_exists reserve fuel2 n c1 (free_all P1 ps) hinv2 (by
    rw [hlen2]; exact hfuel2)
  have hcap : 0 + n ≤ (free_all P1 ps).head.length * len := by
    have := Filled_le len P1.head (0 + n) hfill1
    rw [hlen2]; exact this
  obtain ⟨hc3, hm3, hall3⟩ := burst_within reserve size len fuel2 n 0 c1 c3 _ P3 rets3 hinv2 hsz2
    hln2 hfill2 hb3 hcap
  obtain ⟨_, hrets3⟩ := burst_ptrs reserve size len fuel2 n 0 c1 c3 _ P3 rets3 hinv2 hsz2 hln2
    hfill2 hb3 hall3
  refine ⟨P3, ?_, ?_⟩
  · rw [hb3, hc3, hrets3, hrets1, hm3, hmems]
  · have := congrArg List.length hm3
    rw [List.length_map, List.length_map] at this
    rw [this, hlen2]

/-- Witness of C5 (as amended): 10 allocations from a pool of 8 blocks of 16 bytes (two slabs),
freed in another order. -/
theorem free_all_then_same_addresses_witness :
    ∃ P3, alloc_burst demo_provider 14 10 2
        (free_all
          { head := [{ map_addr := 4096, map := [255, 0, 0, 0, 0, 0, 0, 0], mem := 4120 },
                     { map_addr := 69632, map := [3, 0, 0, 0, 0, 0, 0, 0], mem := 69656 }],
            size := 16, len := 8 }
          [69672, 4120, 4152, 4136, 69656, 4232, 4216, 4200, 4184, 4168]) =
        some (2, P3,
          [Ret.ptr 4120, Ret.ptr 4136, Ret.ptr 4152, Ret.ptr 4168, Ret.ptr 4184, Ret.ptr 4200,
            Ret.ptr 4216, Ret.ptr 4232, Ret.ptr 69656, Ret.ptr 69672]) ∧
      P3.head.length = 2 :=
  (free_all_then_same_addresses demo_provider 16 8 0 10 14 14 2
    { head := [{ map_addr := 4096, map := [255, 0, 0, 0, 0, 0, 0, 0], mem := 4120 },
               { map_addr := 69632, map := [3, 0, 0, 0, 0, 0, 0, 0], mem := 69656 }],
      size := 16, len := 8 }
    [Ret.ptr 4120, Ret.ptr 4136, Ret.ptr 4152, Ret.ptr 4168, Ret.ptr 4184, Ret.ptr 4200,
      Ret.ptr 4216, Ret.ptr 4232, Ret.ptr 69656, Ret.ptr 69672]
    [69672, 4120, 4152, 4136, 69656, 4232, 4216, 4200, 4184, 4168]
    (by decide) (demo_provider_ok _ (by decide)) (by decide) (by decide) (by decide)
    (by decide)).2

/-- Counterexample to C5 as stated: `element_size = 2 ^ 61`, `elements_per_slab = 8`, `n = 1`.
The allocation returns 4120; freeing 4120 leaves bit 0 set, and the next allocation returns
`4120 + 2 ^ 61`, an address that is not in the set `{4120}`. -/
theorem free_all_leaves_bits_when_size_wraps :
    alloc_burst demo_provider 3 1 (slab_pool_init demo_provider 0 (2 ^ 61) 8).1
        (slab_pool_init demo_provider 0 (2 ^ 61) 8).2 =
      some (1, { head := [{ map_addr := 4096, map := [1, 0, 0, 0, 0, 0, 0, 0], mem := 4120 }],
                 size := 2 ^ 61, len := 8 }, [Ret.ptr 4120]) ∧
    free_all { head := [{ map_addr := 4096, map := [1, 0, 0, 0, 0, 0, 0, 0], mem := 4120 }],
               size := 2 ^ 61, len := 8 } [4120] =
      { head := [{ map_addr := 4096, map := [1, 0, 0, 0, 0, 0, 0, 0], mem := 4120 }],
        size := 2 ^ 61, len := 8 } ∧
    bit [1, 0, 0, 0, 0, 0, 0, 0] 0 = true ∧
    alloc_burst demo_provider 3 1 1
        { head := [{ map_addr := 4096, map := [1, 0, 0, 0, 0, 0, 0, 0], mem := 4120 }],
          size := 2 ^ 61, len := 8 } =
      some (1, { head := [{ map_addr := 4096, map := [3, 0, 0, 0, 0, 0, 0, 0], mem := 4120 }],
                 size := 2 ^ 61, len := 8 }, [Ret.ptr (4120 + 2 ^ 61)]) ∧
    4120 + 2 ^ 61 ∉ [4120] :=
  ⟨by decide, by decide, by decide, by decide, by decide⟩

/-! ### C11: freeing an address that no slab owns -/

/-- Whatever the parameters, `slab_free` rejects an address outside the arena: the end that it
computes, reduced modulo `2 ^ 64`, is at most the end of the arena. -/
theorem slab_free_outside (s : slab_t) (p size len : Nat) (h : ¬ in_arena s size len p) :
    slab_free s p size len = (s, 0) := by
  unfold in_arena at h
  have hend : add64 s.mem (mul64 size len) ≤ s.mem + size * len := by
    unfold add64 mul64 WORD
    generalize size * len = x
    omega
  simp only [slab_free]
  rw [if_pos (by omega)]

theorem free_loop_outside (p size len : Nat) :
    ∀ chain : List slab_t, (∀ s, s ∈ chain → ¬ in_arena s size len p) →
      slab_pool_free_loop p size len chain = chain ∧
        slab_pool_free_visits p size len chain = chain.length := by
  intro chain
  induction chain with
  | nil => intro _; exact ⟨rfl, rfl⟩
  | cons t chain ih =>
    intro h
    have ht := slab_free_outside t p size len (h t (List.mem_cons_self _ _))
    obtain ⟨h1, h2⟩ := ih (fun s hs => h s (List.mem_cons_of_mem _ hs))
    simp only [slab_pool_free_loop, slab_pool_free_visits, ht]
    rw [if_neg (by omega), if_neg (by omega), h1, h2, List.length_cons]
    exact ⟨rfl, by omega⟩

/-- C11: for every pool state and every address `p` outside the arena
`[mem, mem + size * len)` of every slab of the chain, `slab_pool_free p` visits each slab once
(`slab_free` returns `0` and leaves the slab alone each time) and changes nothing: the bitmaps,
the chain and the fields `size` and `len` are as before. -/
theorem free_outside_every_arena (self : slab_pool_t) (p : Nat)
    (h : ∀ s, s ∈ self.head → ¬ in_arena s self.size self.len p) :
    slab_pool_free self p = self ∧
      slab_pool_free_visits p self.size self.len self.head = self.head.length ∧
      ∀ s, s ∈ self.head → slab_free s p self.size self.len = (s, 0) := by
  obtain ⟨h1, h2⟩ := free_loop_outside p self.size self.len self.head h
  refine ⟨?_, h2, fun s hs => slab_free_outside s p self.size self.len (h s hs)⟩
  show { self with head := slab_pool_free_loop p self.size self.len self.head } = self
  rw [h1]

/-- Witness of C11: a pool of two slabs of 8 blocks of 16 bytes, and the address 5000 between
the two arenas. -/
theorem free_outside_every_arena_witness :
    slab_pool_free
        { head := [{ map_addr := 4096, map := [255, 0, 0, 0, 0, 0, 0, 0], mem := 4120 },
                   { map_addr := 69632, map := [3, 0, 0, 0, 0, 0, 0, 0], mem := 69656 }],
          size := 16, len := 8 } 5000 =
      { head := [{ map_addr := 4096, map := [255, 0, 0, 0, 0, 0, 0, 0], mem := 4120 },
                 { map_addr := 69632, map := [3, 0, 0, 0, 0, 0, 0, 0], mem := 69656 }],
        size := 16, len := 8 } ∧
    slab_pool_free_visits 5000 16 8
        [{ map_addr := 4096, map := [255, 0, 0, 0, 0, 0, 0, 0], mem := 4120 },
         { map_addr := 69632, map := [3, 0, 0, 0, 0, 0, 0, 0], mem := 69656 }] = 2 :=
  have w := free_outside_every_arena
    { head := [{ map_addr := 4096, map := [255, 0, 0, 0, 0, 0, 0, 0], mem := 4120 },
               { map_addr := 69632, map := [3, 0, 0, 0, 0, 0, 0, 0], mem := 69656 }],
      size := 16, len := 8 } 5000 (by decide)
  ⟨w.1, w.2.1⟩

/-! ### C13: what `slab_free` does -/

theorem slab_free_ret (s : slab_t) (p size len : Nat) :
    (slab_free s p size len).2 = 0 ∨ (slab_free s p size len).2 = 1 := by
  simp only [slab_free]
  split
  · left; rfl
  · right; rfl

/-- C13 (as amended): for a slab whose arena ends inside the address space
(`mem + size * len < 2 ^ 64`, no wrap-around) and whose bitmap covers its `len` bits,
`slab_free` returns `1` exactly when `mem <= p < mem + size * len`; it then clears bit
`pos = (p - mem) / size` and leaves every other bit alone; and when it returns `0` the slab is
unchanged. -/
theorem slab_free_spec (s : slab_t) (p size len : Nat)
    (hfit : s.mem + size * len < 2 ^ 64) (hmap : (len + 7) / 8 ≤ s.map.length) :
    ((slab_free s p size len).2 = 1 ↔ in_arena s size len p) ∧
    ((slab_free s p size len).2 = 1 →
      (slab_free s p size len).1.mem = s.mem ∧
      ∀ q, bit (slab_free s p size len).1.map q =
        (decide (q ≠ (p - s.mem) / size) && bit s.map q)) ∧
    ((slab_free s p size len).2 = 0 → (slab_free s p size len).1 = s) ∧
    ((slab_free s p size len).2 = 0 ∨ (slab_free s p size len).2 = 1) := by
  by_cases hin : in_arena s size len p
  · have hfree := slab_free_in s p size len hfit hin
    have hsize : 1 ≤ size := by
      unfold in_arena at hin
      rcases Nat.eq_zero_or_pos size with h0 | h0
      · rw [h0] at hin; omega
      · exact h0
    have hpos : (p - s.mem) / size < len := by
      rw [Nat.div_lt_iff_lt_mul hsize, Nat.mul_comm]
      unfold in_arena at hin
      omega
    rw [hfree]
    refine ⟨⟨fun _ => hin, fun _ => rfl⟩, ?_, ?_, Or.inr rfl⟩
    · intro _
      refine ⟨rfl, fun q => ?_⟩
      exact bit_clear_bit s.map _ q (by omega)
    · intro h; cases h
  · have hfree := slab_free_out s p size len hfit hin
    rw [hfree]
    have h01 : ¬ ((s, 0) : slab_t × Nat).2 = 1 := fun h => Nat.noConfusion h
    refine ⟨⟨fun h => absurd h h01, fun h => absurd h hin⟩, ?_, fun _ => rfl, Or.inl rfl⟩
    intro h; cases h

/-- Witness of C13 (as amended): 8 blocks of 16 bytes at 4120, blocks 0 and 1 taken; the address
4140 lies in block 1. -/
theorem slab_free_spec_witness :
    in_arena { map_addr := 4096, map := [3, 0, 0, 0, 0, 0, 0, 0], mem := 4120 } 16 8 4140 ∧
    slab_free { map_addr := 4096, map := [3, 0, 0, 0, 0, 0, 0, 0], mem := 4120 } 4140 16 8 =
      ({ map_addr := 4096, map := [1, 0, 0, 0, 0, 0, 0, 0], mem := 4120 }, 1) ∧
    ((slab_free { map_addr := 4096, map := [3, 0, 0, 0, 0, 0, 0, 0], mem := 4120 } 4140 16 8).2
        = 1 ↔
      in_arena { map_addr := 4096, map := [3, 0, 0, 0, 0, 0, 0, 0], mem := 4120 } 16 8 4140) :=
  ⟨by decide, by decide,
    (slab_free_spec { map_addr := 4096, map := [3, 0, 0, 0, 0, 0, 0, 0], mem := 4120 } 4140 16 8
      (by decide) (by decide)).1⟩

/-- Counterexample to C13 as stated: `element_size = 2 ^ 61`, `elements_per_slab = 8`, arena at
4120 with block 0 taken.  The address 4120 satisfies `4120 <= p < 4120 + 2 ^ 61 * 8`, yet
`slab_free` returns `0` (not owned): the end it computes wraps to 4120. -/
theorem slab_free_rejects_arena_address_when_size_wraps :
    in_arena { map_addr := 4096, map := [1, 0, 0, 0, 0, 0, 0, 0], mem := 4120 } (2 ^ 61) 8 4120 ∧
    slab_free { map_addr := 4096, map := [1, 0, 0, 0, 0, 0, 0, 0], mem := 4120 } 4120
        (2 ^ 61) 8 =
      ({ map_addr := 4096, map := [1, 0, 0, 0, 0, 0, 0, 0], mem := 4120 }, 0) :=
  ⟨by decide, by decide⟩

/-! ### C14: freeing twice -/

/-- C14 (as amended): for a slab whose arena ends inside the address space (no wrap-around) and
whose bitmap covers its `len` bits, and an address `p` in the arena, `slab_free p` returns `1`
whether or not the bit of the block of `p` is set, and a second `slab_free p` returns `1` again
and leaves the slab as the first one left it. -/
theorem slab_free_idempotent (s : slab_t) (p size len : Nat) (hbytes : Bytes s.map)
    (hfit : s.mem + size * len < 2 ^ 64) (hmap : (len + 7) / 8 ≤ s.map.length)
    (hin : in_arena s size len p) :
    (slab_free s p size len).2 = 1 ∧
    (slab_free (slab_free s p size len).1 p size len).2 = 1 ∧
    (slab_free (slab_free s p size len).1 p size len).1 = (slab_free s p size len).1 := by
  have hfree := slab_free_in s p size len hfit hin
  have hsize : 1 ≤ size := by
    unfold in_arena at hin
    rcases Nat.eq_zero_or_pos size with h0 | h0
    · rw [h0] at hin; omega
    · exact h0
  have hpos : (p - s.mem) / size < len := by
    rw [Nat.div_lt_iff_lt_mul hsize, Nat.mul_comm]
    unfold in_arena at hin
    omega
  have hfree2 := slab_free_in (give s ((p - s.mem) / size)) p size len hfit hin
  rw [hfree]
  refine ⟨rfl, ?_, ?_⟩
  · show (slab_free (give s ((p - s.mem) / size)) p size len).2 = 1
    rw [hfree2]
  · show (slab_free (give s ((p - s.mem) / size)) p size len).1 = give s ((p - s.mem) / size)
    rw [hfree2]
    show give (give s ((p - s.mem) / size)) ((p - s.mem) / size) = _
    unfold give
    simp only
    rw [clear_bit_eq_self (clear_bit s.map ((p - s.mem) / size)) _
      (Bytes_clear_bit s.map hbytes _) (by
        rw [bit_clear_bit s.map _ _ (by omega)]
        simp)]

/-- Witness of C14 (as amended): 8 blocks of 16 bytes at 4120, only block 0 taken; the bit of
block 2 is already clear and freeing 4152 returns `1` all the same. -/
theorem slab_free_idempotent_witness :
    bit [1, 0, 0, 0, 0, 0, 0, 0] 2 = false ∧
    (slab_free { map_addr := 4096, map := [1, 0, 0, 0, 0, 0, 0, 0], mem := 4120 } 4152 16 8).2
      = 1 ∧
    (slab_free
      (slab_free { map_addr := 4096, map := [1, 0, 0, 0, 0, 0, 0, 0], mem := 4120 }
        4152 16 8).1 4152 16 8).1 =
      (slab_free { map_addr := 4096, map := [1, 0, 0, 0, 0, 0, 0, 0], mem := 4120 }
        4152 16 8).1 :=
  have w := slab_free_idempotent
    { map_addr := 4096, map := [1, 0, 0, 0, 0, 0, 0, 0], mem := 4120 } 4152 16 8
    (by decide) (by decide) (by decide) (by decide)
  ⟨by decide, w.1, w.2.2⟩

/-- Counterexample to C14 as stated: `element_size = 2 ^ 61`, `elements_per_slab = 8`, arena at
4120.  The address `4120 + 2 ^ 61` is the start of block 1, inside the arena, and its bit is
clear; `slab_free` returns `0`, not `1`. -/
theorem slab_free_of_free_block_not_freed_when_size_wraps :
    in_arena { map_addr := 4096, map := [1, 0, 0, 0, 0, 0, 0, 0], mem := 4120 } (2 ^ 61) 8
      (4120 + 2 ^ 61) ∧
    bit [1, 0, 0, 0, 0, 0, 0, 0] 1 = false ∧
    (slab_free { map_addr := 4096, map := [1, 0, 0, 0, 0, 0, 0, 0], mem := 4120 }
      (4120 + 2 ^ 61) (2 ^ 61) 8).2 = 0 :=
  ⟨by decide, by decide, by decide⟩

/-! ### C19: safety of `slab_free` -/

theorem slab_free_passes (s : slab_t) (p size len : Nat)
    (h : (slab_free s p size len).2 = 1) :
    s.mem ≤ p ∧ p < add64 s.mem (mul64 size len) ∧
      (slab_free s p size len).1 = give s (slab_free_pos s p size) := by
  simp only [slab_free] at h ⊢
  split at h
  · exact absurd h (fun h => Nat.noConfusion h)
  · rename_i hc
    rw [if_neg hc]
    exact ⟨by omega, by omega, rfl⟩

/-- C19 (as amended): with `size = 0`, `slab_free` returns `0` before it divides; and when the
range check passes, `size` is not `0`, the computed `pos` is below `len`, so `pos / 8` is below
`ceil(len / 8)`, which is the bitmap length `map_size(len)` when `len + 7` does not wrap
(`len + 7 < 2 ^ 64`). -/
theorem slab_free_safety (s : slab_t) (p size len : Nat) (hp : p < 2 ^ 64)
    (hm : s.mem < 2 ^ 64) :
    (size = 0 → slab_free s p size len = (s, 0)) ∧
    ((slab_free s p size len).2 = 1 →
      size ≠ 0 ∧ (slab_free s p size len).1 = give s (slab_free_pos s p size) ∧
      slab_free_pos s p size < len ∧ slab_free_pos s p size / 8 < (len + 7) / 8 ∧
      (len + 7 < 2 ^ 64 → slab_free_pos s p size / 8 < map_size len)) := by
  constructor
  · intro h0
    subst h0
    simp only [slab_free, mul64, add64, WORD, Nat.zero_mul, Nat.zero_mod, Nat.add_zero]
    rw [if_pos (by omega)]
  · intro h
    obtain ⟨h1, h2, h3⟩ := slab_free_passes s p size len h
    have hsize : size ≠ 0 := by
      intro h0
      subst h0
      simp only [mul64, add64, WORD, Nat.zero_mul, Nat.zero_mod, Nat.add_zero] at h2
      omega
    have hsub : sub64 p s.mem = p - s.mem := by
      unfold sub64 u64 WORD
      omega
    have hlt : p - s.mem < size * len := by
      have : add64 s.mem (mul64 size len) ≤ s.mem + size * len := by
        unfold add64 mul64 WORD
        generalize size * len = x
        omega
      omega
    have hpos : slab_free_pos s p size < len := by
      unfold slab_free_pos
      rw [hsub, Nat.div_lt_iff_lt_mul (by omega), Nat.mul_comm]
      exact hlt
    refine ⟨hsize, h3, hpos, by omega, ?_⟩
    intro hlen
    rw [map_size_eq len hlen]
    omega

/-- Witness of C19 (as amended): 8 blocks of 16 bytes at 4120, the address 4200 in block 5. -/
theorem slab_free_safety_witness :
    (slab_free { map_addr := 4096, map := [255, 0, 0, 0, 0, 0, 0, 0], mem := 4120 }
      4200 16 8).2 = 1 ∧
    slab_free_pos { map_addr := 4096, map := [255, 0, 0, 0, 0, 0, 0, 0], mem := 4120 } 4200 16
      = 5 ∧
    slab_free_pos { map_addr := 4096, map := [255, 0, 0, 0, 0, 0, 0, 0], mem := 4120 } 4200 16
      / 8 < map_size 8 :=
  have w := (slab_free_safety
    { map_addr := 4096, map := [255, 0, 0, 0, 0, 0, 0, 0], mem := 4120 } 4200 16 8
    (by decide) (by decide)).2 (by decide)
  ⟨by decide, by decide, w.2.2.2.2 (by decide)⟩

/-- Counterexample to C19 as stated: `size = 2 ^ 64 - 64`, `len = 2 ^ 64 - 1`.  `map_size(len)`
wraps to `0`, so the bitmap has no byte, `slab_init` asks for 80 bytes and puts the arena at
offset 16; `size * len` wraps to 64, the range check passes for the arena base, `pos` is `0`,
and the byte index `0` is not below the bitmap length `0`. -/
theorem slab_free_index_past_bitmap_when_len_wraps :
    map_size (2 ^ 64 - 1) = 0 ∧
    slab_init_total_size (2 ^ 64 - 64) (2 ^ 64 - 1) = 80 ∧
    slab_init demo_provider 0 (2 ^ 64 - 64) (2 ^ 64 - 1) =
      (1, some { map_addr := 4096, map := [], mem := 4112 }) ∧
    (slab_free { map_addr := 4096, map := [], mem := 4112 } 4112 (2 ^ 64 - 64)
      (2 ^ 64 - 1)).2 = 1 ∧
    slab_free_pos { map_addr := 4096, map := [], mem := 4112 } 4112 (2 ^ 64 - 64) = 0 ∧
    ¬ (slab_free_pos { map_addr := 4096, map := [], mem := 4112 } 4112 (2 ^ 64 - 64) / 8 <
      map_size (2 ^ 64 - 1)) :=
  ⟨by decide, by decide, by decide, by decide, by decide, by decide⟩

/-! ### C12: `slab_alloc` is a lowest-free-bit search -/

/-- C12 (as amended): for `len` with `len + 7 < 2 ^ 64` (so that `map_size(len)` does not
wrap) and a bitmap of bytes that covers `map_size(len)` bytes: when `pos` is the smallest clear
bit position and `pos < len`, `slab_alloc` returns `mem + size * pos` (computed in 64-bit
arithmetic, so equal to the natural number `mem + size * pos` when that is below `2 ^ 64`) and
sets bit `pos`, leaving every other bit as it was; and it reports full (returns `0` and leaves
the slab as it was) exactly when every bit at the positions `0 .. len - 1` is set. -/
theorem slab_alloc_lowest_free_bit (s : slab_t) (size len : Nat) (hbytes : Bytes s.map)
    (hlen : len + 7 < 2 ^ 64) (hmap : map_size len ≤ s.map.length) :
    (∀ pos, lowest_clear len s pos →
      slab_alloc s size len = (take s pos, add64 s.mem (mul64 size pos)) ∧
      (∀ q, bit (take s pos).map q = (decide (q = pos) || bit s.map q)) ∧
      (s.mem + size * pos < 2 ^ 64 → add64 s.mem (mul64 size pos) = s.mem + size * pos)) ∧
    (slab_alloc s size len = (s, 0) ↔ full len s) := by
  rw [map_size_eq len hlen] at hmap
  have hfound : ∀ pos, lowest_clear len s pos →
      slab_alloc s size len = (take s pos, add64 s.mem (mul64 size pos)) ∧
      (∀ q, bit (take s pos).map q = (decide (q = pos) || bit s.map q)) ∧
      (s.mem + size * pos < 2 ^ 64 → add64 s.mem (mul64 size pos) = s.mem + size * pos) := by
    intro pos hpos
    refine ⟨slab_alloc_found s size len pos hbytes hlen hpos.1 hpos.2.1 hpos.2.2, ?_, ?_⟩
    · intro q
      have := hpos.1
      exact bit_set_bit s.map pos q (by omega)
    · intro hno
      have := Nat.le_add_left (size * pos) s.mem
      unfold add64 mul64 WORD
      rw [Nat.mod_eq_of_lt (show size * pos < 2 ^ 64 by omega), Nat.mod_eq_of_lt hno]
  refine ⟨hfound, ?_, fun hfull => slab_alloc_full s size len hbytes hlen hfull⟩
  intro heq
  by_contra hnf
  obtain ⟨pos, hpos⟩ := exists_lowest_clear len s hnf
  obtain ⟨h1, h2, _⟩ := hfound pos hpos
  rw [h1] at heq
  have h3 : take s pos = s := congrArg Prod.fst heq
  have h4 := h2 pos
  rw [h3, hpos.2.1] at h4
  simp at h4

/-- Witness of C12 (as amended): 12 blocks of 16 bytes at 4128, blocks 0 to 8 and 10 taken; the
lowest free block is 9. -/
theorem slab_alloc_lowest_free_bit_witness :
    lowest_clear 12 { map_addr := 4096, map := [255, 5, 0, 0, 0, 0, 0, 0], mem := 4128 } 9 ∧
    slab_alloc { map_addr := 4096, map := [255, 5, 0, 0, 0, 0, 0, 0], mem := 4128 } 16 12 =
      (take { map_addr := 4096, map := [255, 5, 0, 0, 0, 0, 0, 0], mem := 4128 } 9,
        add64 4128 (mul64 16 9)) ∧
    add64 4128 (mul64 16 9) = 4128 + 16 * 9 :=
  have w := (slab_alloc_lowest_free_bit
    { map_addr := 4096, map := [255, 5, 0, 0, 0, 0, 0, 0], mem := 4128 } 16 12
    (by decide) (by decide) (by decide)).1 9 (by decide)
  ⟨by decide, w.1, w.2.2 (by decide)⟩

/-- Counterexample to C12 as stated: `len = 2 ^ 64 - 1`.  `map_size(len)` wraps to `0`, the
bitmap has no byte, every byte reads as zero, so bit 0 is clear and `0 < len`; yet the scan
loop never runs and `slab_alloc` reports full. -/
theorem slab_alloc_reports_full_when_len_wraps :
    map_size (2 ^ 64 - 1) = 0 ∧
    bit ({ map_addr := 4096, map := [], mem := 4112 } : slab_t).map 0 = false ∧
    slab_alloc { map_addr := 4096, map := [], mem := 4112 } 16 (2 ^ 64 - 1) =
      ({ map_addr := 4096, map := [], mem := 4112 }, 0) :=
  ⟨by decide, by decide, by decide⟩

/-! ### The list embedding and the byte embedding -/

theorem range_eight : List.range 8 = [0, 1, 2, 3, 4, 5, 6, 7] := by decide

theorem load64_congr (m m' : Memory) (a : Nat) (h : ∀ j, j < 8 → m' (a + j) = m (a + j)) :
    load64 m' a = load64 m a := by
  unfold load64
  rw [range_eight]
  simp only [List.foldr]
  rw [h 0 (by omega), h 1 (by omega), h 2 (by omega), h 3 (by omega), h 4 (by omega),
    h 5 (by omega), h 6 (by omega), h 7 (by omega)]

theorem store64_at (m : Memory) (a v j : Nat) (hj : j < 8) :
    store64 m a v (a + j) = v / 256 ^ j % 256 := by
  unfold store64
  rw [if_pos (by omega), Nat.add_sub_cancel_left]

theorem load64_store64 (m : Memory) (a v : Nat) : load64 (store64 m a v) a = v % 2 ^ 64 := by
  unfold load64
  rw [range_eight]
  simp only [List.foldr]
  rw [store64_at m a v 0 (by omega), store64_at m a v 1 (by omega),
    store64_at m a v 2 (by omega), store64_at m a v 3 (by omega),
    store64_at m a v 4 (by omega), store64_at m a v 5 (by omega),
    store64_at m a v 6 (by omega), store64_at m a v 7 (by omega)]
  norm_num
  omega

theorem store8_other (m : Memory) (a v x : Nat) (h : x ≠ a) : store8 m a v x = m x := by
  unfold store8
  rw [if_neg h]

theorem store8_same (m : Memory) (a v : Nat) : store8 m a v a = v % 256 := by
  unfold store8
  rw [if_pos rfl]

/-- On memory that holds the slab `s` at `self`, `slab_destroy` releases what the list
embedding says. -/
theorem slab_destroy_bytes_refines (m : Memory) (self : Nat) (s : slab_t) (size len : Nat)
    (hrep : represents m self s) :
    slab_destroy_bytes m self size len = slab_destroy s size len := by
  obtain ⟨h16, _, hmap, _, _⟩ := hrep
  have h8 : add64 self 8 = self + 8 := by
    unfold add64 WORD
    omega
  unfold slab_destroy_bytes slab_destroy
  simp only
  rw [h8, hmap]

/-- On memory that holds the slab `s` at `self`, a call of `slab_free` whose store lands inside
the bitmap does what the list embedding says: it returns the same `int`, and the memory
afterwards holds the slab that `slab_free` of the list embedding returns. -/
theorem slab_free_bytes_refines (m : Memory) (self : Nat) (s : slab_t) (p size len : Nat)
    (hrep : represents m self s)
    (hin : (slab_free s p size len).2 = 1 → slab_free_pos s p size / 8 < s.map.length) :
    (slab_free_bytes m self p size len).2 = (slab_free s p size len).2 ∧
    represents (slab_free_bytes m self p size len).1 self (slab_free s p size len).1 := by
  obtain ⟨h16, hmem, hmap, hend, hbytes⟩ := hrep
  have hstart : add64 self sizeof_slab_t = s.mem := by
    rw [hmem]
    unfold add64 sizeof_slab_t WORD
    omega
  have h8 : add64 self 8 = self + 8 := by
    unfold add64 WORD
    omega
  by_cases hc : p < s.mem ∨ p ≥ add64 s.mem (mul64 size len)
  · have e1 : slab_free_bytes m self p size len = (m, 0) := by
      simp only [slab_free_bytes, hstart]
      rw [if_pos hc]
    have e2 : slab_free s p size len = (s, 0) := by
      simp only [slab_free]
      rw [if_pos hc]
    rw [e1, e2]
    exact ⟨rfl, h16, hmem, hmap, hend, hbytes⟩
  · have e2 : slab_free s p size len = (give s (slab_free_pos s p size), 1) := by
      simp only [slab_free]
      rw [if_neg hc]
      rfl
    have hk := hin (by rw [e2])
    have hat : add64 (load64 m (add64 self 8)) (slab_free_pos s p size / 8) =
        s.map_addr + slab_free_pos s p size / 8 := by
      rw [h8, hmap]
      unfold add64 WORD
      omega
    have e1 : slab_free_bytes m self p size len =
        (store8 m (s.map_addr + slab_free_pos s p size / 8)
          (m (s.map_addr + slab_free_pos s p size / 8) &&&
            (0xFFFFFFFF - 1 <<< (slab_free_pos s p size % 8))), 1) := by
      simp only [slab_free_bytes, hstart]
      rw [if_neg hc]
      unfold slab_free_pos at hat ⊢
      rw [hat]
    rw [e1, e2]
    refine ⟨rfl, h16, hmem, ?_, ?_, ?_⟩
    · have hl : load64 (store8 m (s.map_addr + slab_free_pos s p size / 8)
          (m (s.map_addr + slab_free_pos s p size / 8) &&&
            (0xFFFFFFFF - 1 <<< (slab_free_pos s p size % 8)))) (self + 8) =
          load64 m (self + 8) := by
        apply load64_congr
        intro j hj
        exact store8_other m _ _ _ (by omega)
      exact hl.trans hmap
    · show s.map_addr + (clear_bit s.map _).length ≤ self
      unfold clear_bit
      rw [List.length_set]
      exact hend
    · intro i hi
      have hlen : (give s (slab_free_pos s p size)).map.length = s.map.length := by
        show (clear_bit s.map _).length = _
        unfold clear_bit
        rw [List.length_set]
      have hi' : i < s.map.length := Nat.lt_of_lt_of_eq hi hlen
      show store8 m _ _ (s.map_addr + i) = (clear_bit s.map _).getD i 0
      unfold clear_bit
      rw [List.getD_eq_getElem?_getD, List.getElem?_set]
      by_cases hik : slab_free_pos s p size / 8 = i
      · rw [if_pos hik, if_pos (by omega), ← hik, store8_same, hbytes _ hk]
        rfl
      · rw [if_neg hik, store8_other m _ _ _ (by omega), hbytes i hi',
          List.getD_eq_getElem?_getD]

/-- The memory that `slab_init` leaves holds, at the pointer it returns, the slab that
`slab_init` of the list embedding returns, when the bitmap and the header lie inside the
address space. -/
theorem slab_init_bytes_refines (reserve : PageProvider) (calls : Nat) (m : Memory)
    (size len a : Nat) (hr : reserve calls (slab_init_total_size size len) = some a)
    (hfit : a + map_align (map_size len) + 16 < 2 ^ 64) :
    (slab_init reserve calls size len).2 = some (fresh_slab len a) ∧
    (slab_init_bytes reserve calls m size len).1 = (slab_init reserve calls size len).1 ∧
    (slab_init_bytes reserve calls m size len).2.2 = a + map_align (map_size len) ∧
    represents (slab_init_bytes reserve calls m size len).2.1
      (a + map_align (map_size len)) (fresh_slab len a) := by
  have hlist := slab_init_some reserve calls size len a hr
  have hslab : add64 a (map_align (map_size len)) = a + map_align (map_size len) := by
    unfold add64 WORD
    omega
  have h8 : add64 (a + map_align (map_size len)) 8 = a + map_align (map_size len) + 8 := by
    unfold add64 WORD
    omega
  have ha : a % 2 ^ 64 = a := Nat.mod_eq_of_lt (by omega)
  unfold slab_init_total_size at hr
  have hbytes : slab_init_bytes reserve calls m size len =
      (calls + 1,
        memset_zero
          (store64 (store64 m (a + map_align (map_size len)) 0)
            (a + map_align (map_size len) + 8) a) a (map_align (map_size len)),
        a + map_align (map_size len)) := by
    simp only [slab_init_bytes, hr, hslab, h8, load64_store64, ha]
  rw [hbytes, hlist]
  refine ⟨rfl, rfl, rfl, hfit, ?_, ?_, ?_, ?_⟩
  · show add64 (add64 a (map_align (map_size len))) sizeof_slab_t = _
    rw [hslab]
    unfold add64 sizeof_slab_t WORD
    omega
  · show load64 _ (a + map_align (map_size len) + 8) = a
    have h1 : load64 (memset_zero
          (store64 (store64 m (a + map_align (map_size len)) 0)
            (a + map_align (map_size len) + 8) a) a (map_align (map_size len)))
        (a + map_align (map_size len) + 8) =
        load64 (store64 (store64 m (a + map_align (map_size len)) 0)
            (a + map_align (map_size len) + 8) a) (a + map_align (map_size len) + 8) := by
      apply load64_congr
      intro j _
      unfold memset_zero
      rw [if_neg (by omega)]
    rw [h1, load64_store64, ha]
  · show a + (List.replicate _ _).length ≤ _
    rw [List.length_replicate]
  · intro i hi
    have hi' : i < map_align (map_size len) := by
      have : (fresh_slab len a).map.length = map_align (map_size len) :=
        List.length_replicate _ _
      omega
    show memset_zero _ a _ (a + i) = (List.replicate _ _).getD i 0
    unfold memset_zero
    rw [if_pos (by omega), List.getD_eq_getElem?_getD, List.getElem?_replicate]
    simp [hi']

/-! ### C16: the byte count of the release -/

/-- With `1 <= len` and `len + 7 < 2 ^ 64`, `slab_alloc` on the slab that `slab_init` has just
laid out hands out block 0, for every `size`: it sets bit 0 and returns the arena base. -/
theorem fresh_slab_alloc (size len a : Nat) (h1 : 1 ≤ len) (h2 : len + 7 < 2 ^ 64) :
    slab_alloc (fresh_slab len a) size len =
      (take (fresh_slab len a) 0, (fresh_slab len a).mem) := by
  have hb : Bytes (fresh_slab len a).map := by
    intro b hb
    rw [List.eq_of_mem_replicate hb]
    omega
  rw [slab_alloc_found (fresh_slab len a) size len 0 hb h2 (by omega) (fresh_slab_bit len a 0)
    (fun q hq => by omega)]
  have hm : add64 (fresh_slab len a).mem (mul64 size 0) = (fresh_slab len a).mem := by
    unfold fresh_slab add64 mul64 WORD
    simp
  rw [hm]
  rfl

/-- With `1 <= len`, `len + 7 < 2 ^ 64` and a provider whose next region puts the arena at a
non-null address, a call of `slab_pool_alloc` that returns has made at most one reservation and
appended at most one slab, whatever `size` and the state of the slabs. -/
theorem alloc_loop_bounded (reserve : PageProvider) (size len : Nat) (h1 : 1 ≤ len)
    (h2 : len + 7 < 2 ^ 64) :
    ∀ (fuel calls : Nat) (chain : List slab_t) (t : Nat × List slab_t × Ret),
      (∀ a, reserve calls (slab_init_total_size size len) = some a →
        (fresh_slab len a).mem ≠ 0) →
      slab_pool_alloc_loop reserve size len fuel calls chain = some t →
      t.2.1.length ≤ chain.length + 1 ∧ t.1 ≤ calls + 1 := by
  intro fuel
  induction fuel with
  | zero => intro calls chain t _ h; simp [slab_pool_alloc_loop] at h
  | succ fuel ih =>
    intro calls chain t hnn h
    cases chain with
    | nil =>
      simp only [slab_pool_alloc_loop] at h
      cases h
      exact ⟨by simp, by simp⟩
    | cons curr next =>
      simp only [slab_pool_alloc_loop] at h
      by_cases hres : (slab_alloc curr size len).2 ≠ 0
      · rw [if_pos hres] at h
        cases h
        exact ⟨by simp, by simp⟩
      · rw [if_neg hres, Option.map_eq_some'] at h
        obtain ⟨u, hu, rfl⟩ := h
        cases next with
        | nil =>
          simp only at hu
          cases hr : reserve calls (slab_init_total_size size len) with
          | none =>
            rw [slab_init_none reserve calls size len hr] at hu
            simp only [Option.toList] at hu
            cases fuel with
            | zero => simp [slab_pool_alloc_loop] at hu
            | succ g =>
              simp only [slab_pool_alloc_loop] at hu
              cases hu
              exact ⟨by simp, by simp⟩
          | some a =>
            rw [slab_init_some reserve calls size len a hr] at hu
            simp only [Option.toList] at hu
            cases fuel with
            | zero => simp [slab_pool_alloc_loop] at hu
            | succ g =>
              simp only [slab_pool_alloc_loop, fresh_slab_alloc size len a h1 h2] at hu
              rw [if_pos (hnn a hr)] at hu
              cases hu
              exact ⟨by simp, by simp⟩
        | cons v next =>
          simp only at hu
          obtain ⟨h3, h4⟩ := ih calls (v :: next) u hnn hu
          exact ⟨by simp at h3 ⊢; omega, h4⟩

/-- With `1 <= len`, `len + 7 < 2 ^ 64` and a provider whose next region puts the arena at a
non-null address, the loop of `slab_pool_alloc` ends within `chain.length + 2` tests of its
condition, whatever `size` and the state of the slabs. -/
theorem alloc_loop_returns (reserve : PageProvider) (size len : Nat) (h1 : 1 ≤ len)
    (h2 : len + 7 < 2 ^ 64) :
    ∀ (chain : List slab_t) (fuel calls : Nat),
      (∀ a, reserve calls (slab_init_total_size size len) = some a →
        (fresh_slab len a).mem ≠ 0) →
      chain.length + 2 ≤ fuel →
      ∃ t, slab_pool_alloc_loop reserve size len fuel calls chain = some t := by
  intro chain
  induction chain with
  | nil =>
    intro fuel calls _ hfuel
    obtain ⟨f, rfl⟩ : ∃ f, fuel = f + 1 := ⟨fuel - 1, by omega⟩
    exact ⟨_, rfl⟩
  | cons curr next ih =>
    intro fuel calls hnn hfuel
    obtain ⟨f, rfl⟩ : ∃ f, fuel = f + 1 := ⟨fuel - 1, by omega⟩
    have hf : next.length + 2 ≤ f := by simp at hfuel; omega
    simp only [slab_pool_alloc_loop]
    by_cases hres : (slab_alloc curr size len).2 ≠ 0
    · rw [if_pos hres]
      exact ⟨_, rfl⟩
    · rw [if_neg hres]
      cases next with
      | nil =>
        obtain ⟨g, rfl⟩ : ∃ g, f = g + 1 := ⟨f - 1, by omega⟩
        cases hr : reserve calls (slab_init_total_size size len) with
        | none =>
          simp only [slab_init_none reserve calls size len hr, Option.toList,
            slab_pool_alloc_loop]
          exact ⟨_, rfl⟩
        | some a =>
          simp only [slab_init_some reserve calls size len a hr, Option.toList,
            slab_pool_alloc_loop, fresh_slab_alloc size len a h1 h2]
          rw [if_pos (hnn a hr)]
          exact ⟨_, rfl⟩
      | cons v next =>
        obtain ⟨u, hu⟩ := ih f calls hnn hf
        simp only
        rw [hu]
        exact ⟨_, rfl⟩

/-- C17 (as amended): for every pool with `1 <= len`, `len + 7 < 2 ^ 64` (so that
`map_size(len)` does not wrap) and a provider whose next region puts the arena at a non-null
address, whatever `size`, the chain and the state of its slabs: `slab_pool_alloc` returns
within `length + 2` tests of its loop condition (each existing slab is visited at most once,
then the new slab once), makes at most one reservation and appends at most one slab; and
`slab_alloc` on a slab that `slab_init` has just created succeeds with block 0. -/
theorem slab_pool_alloc_terminates (reserve : PageProvider) (fuel calls : Nat)
    (self : slab_pool_t) (hlen : 1 ≤ self.len) (hwrap : self.len + 7 < 2 ^ 64)
    (hnn : ∀ a, reserve calls (slab_init_total_size self.size self.len) = some a →
      (fresh_slab self.len a).mem ≠ 0)
    (hfuel : self.head.length + 2 ≤ fuel) :
    (∃ calls' self' r, slab_pool_alloc reserve fuel calls self = some (calls', self', r) ∧
      self'.head.length ≤ self.head.length + 1 ∧ calls' ≤ calls + 1) ∧
    (∀ a, slab_alloc (fresh_slab self.len a) self.size self.len =
      (take (fresh_slab self.len a) 0, (fresh_slab self.len a).mem)) := by
  refine ⟨?_, fun a => fresh_slab_alloc self.size self.len a hlen hwrap⟩
  obtain ⟨t, ht⟩ :=
    alloc_loop_returns reserve self.size self.len hlen hwrap self.head fuel calls hnn hfuel
  obtain ⟨h1, h2⟩ :=
    alloc_loop_bounded reserve self.size self.len hlen hwrap fuel calls self.head t hnn ht
  refine ⟨t.1, { self with head := t.2.1 }, t.2.2, ?_, h1, h2⟩
  unfold slab_pool_alloc
  rw [ht]
  rfl

/-- Witness of C17 (as amended): a pool of one full slab of 8 blocks of 16 bytes returns within
three tests of the loop condition with a second slab, and block 0 of a slab at 69632 can be
handed out. -/
theorem slab_pool_alloc_terminates_witness :
    (∃ calls' self' r,
      slab_pool_alloc demo_provider 3 1
          { head := [{ map_addr := 4096, map := [255, 0, 0, 0, 0, 0, 0, 0], mem := 4120 }],
            size := 16, len := 8 } =
        some (calls', self', r) ∧
      self'.head.length ≤ 1 + 1 ∧ calls' ≤ 1 + 1) ∧
    slab_pool_alloc demo_provider 3 1
        { head := [{ map_addr := 4096, map := [255, 0, 0, 0, 0, 0, 0, 0], mem := 4120 }],
          size := 16, len := 8 } =
      some (2, { head := [{ map_addr := 4096, map := [255, 0, 0, 0, 0, 0, 0, 0], mem := 4120 },
                          { map_addr := 69632, map := [1, 0, 0, 0, 0, 0, 0, 0], mem := 69656 }],
                 size := 16, len := 8 }, Ret.ptr 69656) ∧
    slab_alloc (fresh_slab 8 69632) 16 8 = (take (fresh_slab 8 69632) 0, 69656) :=
  have w := slab_pool_alloc_terminates demo_provider 3 1
    { head := [{ map_addr := 4096, map := [255, 0, 0, 0, 0, 0, 0, 0], mem := 4120 }],
      size := 16, len := 8 }
    (by decide) (by decide)
    (fun a h => by
      have ha : a = 69632 := (Option.some.inj h).symm
      rw [ha]
      decide)
    (by decide)
  ⟨w.1, by decide, w.2 69632⟩

/-- Counterexample to C17 as stated: `element_size = 1`, `elements_per_slab = 2 ^ 64 - 1`.
`map_size(len)` wraps to `0`, so `slab_alloc` on a freshly created slab returns `NULL`, and one
call of `slab_pool_alloc` on the fresh one-slab pool appends three slabs before the provider
fails. -/
theorem fresh_slab_alloc_fails_when_len_wraps :
    slab_pool_init demo_provider 0 1 (2 ^ 64 - 1) =
      (1, { head := [{ map_addr := 4096, map := [], mem := 4112 }],
            size := 1, len := 2 ^ 64 - 1 }) ∧
    slab_alloc { map_addr := 4096, map := [], mem := 4112 } 1 (2 ^ 64 - 1) =
      ({ map_addr := 4096, map := [], mem := 4112 }, 0) ∧
    slab_pool_alloc demo_provider 10 1
        { head := [{ map_addr := 4096, map := [], mem := 4112 }],
          size := 1, len := 2 ^ 64 - 1 } =
      some (5, { head := [{ map_addr := 4096, map := [], mem := 4112 },
                          { map_addr := 69632, map := [], mem := 69648 },
                          { map_addr := 135168, map := [], mem := 135184 },
                          { map_addr := 200704, map := [], mem := 200720 }],
                 size := 1, len := 2 ^ 64 - 1 }, Ret.fallthrough) :=
  ⟨by decide, by decide, by decide⟩

/-! ### C18: `elements_per_slab = 0` -/

theorem slab_alloc_len_zero (t : slab_t) (size : Nat) : slab_alloc t size 0 = (t, 0) := by
  have h0 : map_size 0 = 0 := by decide
  unfold slab_alloc
  simp only [h0]
  rfl

/-- The iterations of `slab_pool_alloc_iters` are the iterations of `slab_pool_alloc_loop`: when
the loop is still running after `n` iterations, the whole loop does what the loop does from
the state reached, in front of the slabs already visited. -/
theorem iters_loop (reserve : PageProvider) (size len : Nat) :
    ∀ (n : Nat) (st st' : loop_state),
      slab_pool_alloc_iters reserve size len n st = some st' →
      ∃ seen, st'.visited = st.visited ++ seen ∧
        ∀ k, slab_pool_alloc_loop reserve size len (n + k) st.calls st.rest =
          (slab_pool_alloc_loop reserve size len k st'.calls st'.rest).map
            fun t => (t.1, seen ++ t.2.1, t.2.2) := by
  intro n
  induction n with
  | zero =>
    intro st st' h
    simp only [slab_pool_alloc_iters] at h
    cases h
    refine ⟨[], by simp, ?_⟩
    intro k
    rw [Nat.zero_add]
    simp
  | succ n ih =>
    intro st st' h
    obtain ⟨calls, visited, rest⟩ := st
    cases rest with
    | nil => simp [slab_pool_alloc_iters, slab_pool_alloc_iter] at h
    | cons curr next =>
      simp only [slab_pool_alloc_iters, slab_pool_alloc_iter] at h
      by_cases hres : (slab_alloc curr size len).2 ≠ 0
      · rw [if_pos hres] at h
        cases h
      · rw [if_neg hres] at h
        simp only at h
        obtain ⟨seen, h1, h2⟩ := ih _ st' h
        refine ⟨(slab_alloc curr size len).1 :: seen, by rw [h1]; simp, ?_⟩
        intro k
        rw [show n + 1 + k = (n + k) + 1 by omega]
        simp only [slab_pool_alloc_loop]
        rw [if_neg hres]
        simp only at h2
        rw [h2 k, Option.map_map]
        rfl

/-- With `len = 0` and a provider that never fails, the loop cannot end on a non-empty chain. -/
theorem loop_never_ends_len_zero (reserve : PageProvider) (size : Nat)
    (hnever : ∀ k bytes, reserve k bytes ≠ none) :
    ∀ (fuel calls : Nat) (chain : List slab_t), chain ≠ [] →
      slab_pool_alloc_loop reserve size 0 fuel calls chain = none := by
  intro fuel
  induction fuel with
  | zero => intro calls chain _; rfl
  | succ fuel ih =>
    intro calls chain hne
    cases chain with
    | nil => exact absurd rfl hne
    | cons curr next =>
      simp only [slab_pool_alloc_loop, slab_alloc_len_zero]
      rw [if_neg (by simp)]
      cases next with
      | nil =>
        cases hr : reserve calls (slab_init_total_size size 0) with
        | none => exact absurd hr (hnever _ _)
        | some a =>
          simp only [slab_init_some reserve calls size 0 a hr, Option.toList]
          rw [ih _ _ (by simp)]
          rfl
      | cons v next =>
        simp only
        rw [ih _ _ (by simp)]
        rfl

theorem iters_len_zero (reserve : PageProvider) (size : Nat)
    (hnever : ∀ k bytes, reserve k bytes ≠ none) :
    ∀ (n calls : Nat) (visited : List slab_t) (x : slab_t),
      ∃ st, slab_pool_alloc_iters reserve size 0 n
          { calls := calls, visited := visited, rest := [x] } = some st ∧
        st.calls = calls + n ∧ st.visited.length = visited.length + n ∧
        st.rest.length = 1 := by
  intro n
  induction n with
  | zero => intro calls visited x; exact ⟨_, rfl, rfl, rfl, rfl⟩
  | succ n ih =>
    intro calls visited x
    cases hr : reserve calls (slab_init_total_size size 0) with
    | none => exact absurd hr (hnever _ _)
    | some a =>
      obtain ⟨st, h1, h2, h3, h4⟩ := ih (calls + 1) (visited ++ [x]) (fresh_slab 0 a)
      refine ⟨st, ?_, by omega, by rw [h3]; simp; omega, h4⟩
      simp only [slab_pool_alloc_iters, slab_pool_alloc_iter, slab_alloc_len_zero]
      rw [if_neg (by simp)]
      simp only [slab_init_some reserve calls size 0 a hr, Option.toList]
      exact h1

/-- C18: with `elements_per_slab = 0`, `slab_alloc` returns `NULL` and leaves the slab alone,
for every slab.  So, with a provider that never fails, on a pool of one slab (the fresh pool):
after `n` iterations of the loop of `slab_pool_alloc` the loop is still running, `n`
reservations have been made and the chain has `1 + n` slabs; and the call does not return,
whatever the bound on the number of iterations. -/
theorem degenerate_capacity_never_returns (reserve : PageProvider) (size calls n : Nat)
    (s : slab_t) (hnever : ∀ k bytes, reserve k bytes ≠ none) :
    (∀ t : slab_t, slab_alloc t size 0 = (t, 0)) ∧
    (∃ st, slab_pool_alloc_iters reserve size 0 n
        { calls := calls, visited := [], rest := [s] } = some st ∧
      st.calls = calls + n ∧ (st.visited ++ st.rest).length = 1 + n) ∧
    (∀ fuel, slab_pool_alloc reserve fuel calls { head := [s], size := size, len := 0 } =
      none) := by
  refine ⟨fun t => slab_alloc_len_zero t size, ?_, ?_⟩
  · obtain ⟨st, h1, h2, h3, h4⟩ := iters_len_zero reserve size hnever n calls [] s
    refine ⟨st, h1, h2, ?_⟩
    rw [List.length_append, h3, h4]
    simp
    omega
  · intro fuel
    unfold slab_pool_alloc
    simp only
    rw [loop_never_ends_len_zero reserve size hnever fuel calls [s] (by simp)]
    rfl

/-- Witness of C18: three iterations on the fresh pool of a provider that never fails. -/
theorem degenerate_capacity_never_returns_witness :
    slab_pool_init endless_provider 0 16 0 =
      (1, { head := [{ map_addr := 4096, map := [], mem := 4112 }], size := 16, len := 0 }) ∧
    slab_pool_alloc_iters endless_provider 16 0 3
        { calls := 1, visited := [], rest := [{ map_addr := 4096, map := [], mem := 4112 }] } =
      some { calls := 4,
             visited := [{ map_addr := 4096, map := [], mem := 4112 },
                         { map_addr := 69632, map := [], mem := 69648 },
                         { map_addr := 135168, map := [], mem := 135184 }],
             rest := [{ map_addr := 200704, map := [], mem := 200720 }] } ∧
    ∀ fuel, slab_pool_alloc endless_provider fuel 1
      { head := [{ map_addr := 4096, map := [], mem := 4112 }], size := 16, len := 0 } = none :=
  ⟨by decide, by decide,
    (degenerate_capacity_never_returns endless_provider 16 1 3
      { map_addr := 4096, map := [], mem := 4112 }
      (fun k bytes h => Option.noConfusion h)).2.2⟩

end Slab
